import Mathlib

/-!
Shallow embedding of the Albatross staking contract
(src/primitives/account/src/staking_contract.rs) and verification of its
specification.  Addresses, BLS public keys and coin amounts are opaque to the
contract logic, so they are modelled as natural numbers (coins carry the u64
bound through the checked arithmetic of the account primitives).  The hash
containers of the source have no observable order; they are modelled as
canonical (strictly ascending) association lists, and the balance-sorted
`BTreeSet` of active stakes is modelled as a list kept sorted by the source's
`Ord` instance (balance descending, address ascending, key and reward fields
ignored).  Receipts travel as `Vec<u8>` in the source; since their codec is
byte-exact, they are modelled as typed values, and a type mismatch during a
revert is modelled as a deserialization error.
-/

set_option maxHeartbeats 1600000

deriving instance DecidableEq for Except

namespace Albatross

/-- Modelled from the spec: Coin is a non-negative integer quantity backed by
a u64, so `2 ^ 64 - 1` is the largest representable amount (coin primitives
are outside src). -/
def coinMax : Nat := 2 ^ 64 - 1

/-- Modelled from the spec: the error taxonomy of the account module (§7),
which lives outside src.  `AssertionFailed` stands for a Rust `assert_eq`
failure (a panic in the source, reachable only outside the checked call
paths), and `InvalidSerialization` for a failed `Deserialize` call. -/
inductive AccountError where
  | InvalidForSender
  | InvalidForRecipient
  | InvalidForTarget
  | InvalidInherent
  | InvalidReceipt
  | InsufficientFunds
  | InvalidCoinValue
  | InvalidSerialization
  | AssertionFailed
deriving DecidableEq

/-- Modelled from the spec: overflow-checked coin addition
(`Account::balance_add`, outside src). -/
def balance_add (a b : Nat) : Except AccountError Nat :=
  if a + b ≤ coinMax then .ok (a + b) else .error .InvalidCoinValue

/-- Modelled from the spec: underflow-checked coin subtraction
(`Account::balance_sub`, outside src). -/
def balance_sub (a b : Nat) : Except AccountError Nat :=
  if b ≤ a then .ok (a - b) else .error .InsufficientFunds

/-- Modelled from the spec: `Account::balance_sufficient` (outside src),
failing when the available balance does not cover the required amount. -/
def balance_sufficient (balance needed : Nat) : Except AccountError Unit :=
  if needed ≤ balance then .ok () else .error .InsufficientFunds

structure ActiveStake where
  staker_address : Nat
  balance : Nat
  validator_key : Nat
  reward_address : Option Nat
deriving DecidableEq

structure InactiveStake where
  balance : Nat
  retire_time : Nat
deriving DecidableEq

structure ActiveStakeReceipt where
  validator_key : Nat
  reward_address : Option Nat
deriving DecidableEq

structure InactiveStakeReceipt where
  retire_time : Nat
deriving DecidableEq

structure UnparkReceipt where
  current_epoch : Bool
  previous_epoch : Bool
deriving DecidableEq

structure SlashReceipt where
  newly_slashed : Bool
deriving DecidableEq

/-- A typed stand-in for the serialized `Vec<u8>` receipts. -/
inductive Receipt where
  | active (r : ActiveStakeReceipt)
  | inactive (r : InactiveStakeReceipt)
  | unpark (r : UnparkReceipt)
  | slash (r : SlashReceipt)
deriving DecidableEq

/-- `Ord for ActiveStake`: highest to lowest balances, ties broken by
ascending staker address. -/
def ActiveStake.ordLtB (a b : ActiveStake) : Bool :=
  decide (b.balance < a.balance) ||
    (a.balance == b.balance && decide (a.staker_address < b.staker_address))

/-- `PartialEq for ActiveStake`: equality on balance and staker address only
(key and reward fields are ignored). -/
def ActiveStake.ordEqB (a b : ActiveStake) : Bool :=
  a.balance == b.balance && a.staker_address == b.staker_address

/-- `ActiveStake::with_balance`. -/
def ActiveStake.with_balance (a : ActiveStake) (balance : Nat) : ActiveStake :=
  ⟨a.staker_address, balance, a.validator_key, a.reward_address⟩

namespace AMap

/-- `HashMap::get` on the association-list model. -/
def get {β : Type} : List (Nat × β) → Nat → Option β
  | [], _ => none
  | p :: ps, a => if p.1 = a then some p.2 else get ps a

/-- `HashMap::remove` (the removed value is read with `get` first). -/
def removeA {β : Type} (m : List (Nat × β)) (a : Nat) : List (Nat × β) :=
  m.filter (fun p => p.1 != a)

/-- `HashMap::insert`, keeping the list canonical (ascending keys). -/
def insertA {β : Type} : List (Nat × β) → Nat → β → List (Nat × β)
  | [], a, b => [(a, b)]
  | p :: ps, a, b =>
    if a < p.1 then (a, b) :: p :: ps
    else if a = p.1 then (a, b) :: ps
    else p :: insertA ps a b

/-- Canonical form of the hash-map model: strictly ascending keys. -/
def canonical {β : Type} (m : List (Nat × β)) : Prop :=
  m.Pairwise (fun p q => p.1 < q.1)

end AMap

namespace ASet

/-- `HashSet::insert`: returns whether the element was newly added. -/
def insertS : List Nat → Nat → Bool × List Nat
  | [], a => (true, [a])
  | x :: xs, a =>
    if a < x then (true, a :: x :: xs)
    else if a = x then (false, x :: xs)
    else
      let r := insertS xs a
      (r.1, x :: r.2)

/-- `HashSet::remove`: returns whether the element was present. -/
def removeS (l : List Nat) (a : Nat) : Bool × List Nat :=
  (l.contains a, l.filter (fun x => x != a))

/-- Canonical form of the hash-set model: strictly ascending elements. -/
def canonicalS (l : List Nat) : Prop := l.Pairwise (· < ·)

end ASet

namespace BTSet

/-- `BTreeSet::insert` under `Ord for ActiveStake`; like the source container
it keeps the already-present element when an `Ord`-equal one is inserted. -/
def insertB : List ActiveStake → ActiveStake → List ActiveStake
  | [], x => [x]
  | y :: ys, x =>
    if ActiveStake.ordLtB x y then x :: y :: ys
    else if ActiveStake.ordEqB x y then y :: ys
    else y :: insertB ys x

/-- `BTreeSet::remove` under `Ord for ActiveStake`. -/
def removeB (l : List ActiveStake) (x : ActiveStake) : List ActiveStake :=
  l.filter (fun y => !ActiveStake.ordEqB y x)

/-- The container invariant of the `BTreeSet` model: sorted by the source's
order (balance descending, address ascending). -/
def sortedB (l : List ActiveStake) : Prop :=
  l.Pairwise (fun a b => ActiveStake.ordLtB a b = true)

end BTSet

structure StakingContract where
  balance : Nat
  active_stake_sorted : List ActiveStake
  active_stake_by_address : List (Nat × ActiveStake)
  inactive_stake_by_address : List (Nat × InactiveStake)
  current_epoch_parking : List Nat
  previous_epoch_parking : List Nat
deriving DecidableEq

namespace StakingContract

def get_active_balance (s : StakingContract) (staker_address : Nat) : Nat :=
  match AMap.get s.active_stake_by_address staker_address with
  | some stake => stake.balance
  | none => 0

def get_inactive_balance (s : StakingContract) (staker_address : Nat) : Nat :=
  match AMap.get s.inactive_stake_by_address staker_address with
  | some stake => stake.balance
  | none => 0

def get_balance (s : StakingContract) (staker_address : Nat) : Nat :=
  s.get_active_balance staker_address + s.get_inactive_balance staker_address

/-- `StakingContract::stake`.  The partially mutated state is returned on
error, matching the `&mut self` + early-return behavior of the source. -/
def stake (s : StakingContract) (staker_address : Nat) (value : Nat)
    (validator_key : Nat) (reward_address : Option Nat) :
    StakingContract × Except AccountError (Option ActiveStakeReceipt) :=
  match balance_add s.balance value with
  | .error e => (s, .error e)
  | .ok nb =>
    let s := { s with balance := nb }
    match AMap.get s.active_stake_by_address staker_address with
    | some active_stake =>
      let s := { s with
        active_stake_by_address := AMap.removeA s.active_stake_by_address staker_address }
      match balance_add active_stake.balance value with
      | .error e => (s, .error e)
      | .ok nab =>
        let new_active_stake : ActiveStake :=
          ⟨active_stake.staker_address, nab, validator_key, reward_address⟩
        (( { s with
              active_stake_sorted :=
                BTSet.insertB (BTSet.removeB s.active_stake_sorted active_stake) new_active_stake,
              active_stake_by_address :=
                AMap.insertA s.active_stake_by_address staker_address new_active_stake }),
          .ok (some ⟨active_stake.validator_key, active_stake.reward_address⟩))
    | none =>
      let stake0 : ActiveStake := ⟨staker_address, value, validator_key, reward_address⟩
      (( { s with
            active_stake_sorted := BTSet.insertB s.active_stake_sorted stake0,
            active_stake_by_address :=
              AMap.insertA s.active_stake_by_address staker_address stake0 }),
        .ok none)

/-- `StakingContract::revert_stake`. -/
def revert_stake (s : StakingContract) (staker_address : Nat) (value : Nat)
    (receipt : Option ActiveStakeReceipt) : StakingContract × Except AccountError Unit :=
  match balance_sub s.balance value with
  | .error e => (s, .error e)
  | .ok nb =>
    let s := { s with balance := nb }
    match AMap.get s.active_stake_by_address staker_address with
    | none => (s, .error .InvalidForRecipient)
    | some active_stake =>
      if value < active_stake.balance then
        match receipt with
        | none => (s, .error .InvalidReceipt)
        | some receipt =>
          match balance_sub active_stake.balance value with
          | .error e => (s, .error e)
          | .ok nab =>
            let new_active_stake : ActiveStake :=
              ⟨active_stake.staker_address, nab, receipt.validator_key, receipt.reward_address⟩
            (( { s with
                  active_stake_sorted :=
                    BTSet.insertB (BTSet.removeB s.active_stake_sorted active_stake)
                      new_active_stake,
                  active_stake_by_address :=
                    AMap.insertA s.active_stake_by_address staker_address new_active_stake }),
              .ok ())
      else
        -- source: assert_eq!(active_stake.balance, value)
        if active_stake.balance = value then
          if receipt.isSome then (s, .error .InvalidReceipt)
          else
            (( { s with
                  active_stake_sorted := BTSet.removeB s.active_stake_sorted active_stake,
                  active_stake_by_address :=
                    AMap.removeA s.active_stake_by_address staker_address }),
              .ok ())
        else (s, .error .AssertionFailed)

/-- `StakingContract::unpark_sender`. -/
def unpark_sender (s : StakingContract) (staker_address : Nat) (total_value fee : Nat) :
    StakingContract × Except AccountError Unit :=
  match balance_sub s.balance total_value with
  | .error e => (s, .error e)
  | .ok nb =>
    let s := { s with balance := nb }
    match AMap.get s.active_stake_by_address staker_address with
    | none => (s, .error .InvalidForSender)
    | some active_stake =>
      let s := { s with
        active_stake_by_address := AMap.removeA s.active_stake_by_address staker_address,
        active_stake_sorted := BTSet.removeB s.active_stake_sorted active_stake }
      if active_stake.balance ≠ total_value then (s, .error .InvalidForSender)
      else
        match balance_sub active_stake.balance fee with
        | .error e => (s, .error e)
        | .ok nab =>
          let new_active_stake := active_stake.with_balance nab
          (( { s with
                active_stake_sorted := BTSet.insertB s.active_stake_sorted new_active_stake,
                active_stake_by_address :=
                  AMap.insertA s.active_stake_by_address staker_address new_active_stake }),
            .ok ())

/-- `StakingContract::revert_unpark_sender`. -/
def revert_unpark_sender (s : StakingContract) (staker_address : Nat) (total_value fee : Nat) :
    StakingContract × Except AccountError Unit :=
  match balance_add s.balance total_value with
  | .error e => (s, .error e)
  | .ok nb =>
    let s := { s with balance := nb }
    match AMap.get s.active_stake_by_address staker_address with
    | none => (s, .error .InvalidForSender)
    | some active_stake =>
      let s := { s with
        active_stake_by_address := AMap.removeA s.active_stake_by_address staker_address,
        active_stake_sorted := BTSet.removeB s.active_stake_sorted active_stake }
      match balance_add active_stake.balance fee with
      | .error e => (s, .error e)
      | .ok nab =>
        let new_active_stake := active_stake.with_balance nab
        if new_active_stake.balance ≠ total_value then (s, .error .InvalidForSender)
        else
          (( { s with
                active_stake_sorted := BTSet.insertB s.active_stake_sorted new_active_stake,
                active_stake_by_address :=
                  AMap.insertA s.active_stake_by_address staker_address new_active_stake }),
            .ok ())

/-- `StakingContract::unpark_recipient`.  Note that the balance is increased
before the parking sets are consulted, so on failure the balance change
survives. -/
def unpark_recipient (s : StakingContract) (staker_address : Nat) (value : Nat) :
    StakingContract × Except AccountError UnparkReceipt :=
  match balance_add s.balance value with
  | .error e => (s, .error e)
  | .ok nb =>
    let s := { s with balance := nb }
    let rc := ASet.removeS s.current_epoch_parking staker_address
    let current_epoch := rc.1
    let s := { s with current_epoch_parking := rc.2 }
    let rp := ASet.removeS s.previous_epoch_parking staker_address
    let previous_epoch := rp.1
    let s := { s with previous_epoch_parking := rp.2 }
    if !current_epoch && !previous_epoch then (s, .error .InvalidForRecipient)
    else (s, .ok ⟨current_epoch, previous_epoch⟩)

/-- `StakingContract::revert_unpark_recipient`. -/
def revert_unpark_recipient (s : StakingContract) (staker_address : Nat) (value : Nat)
    (receipt : UnparkReceipt) : StakingContract × Except AccountError Unit :=
  match balance_sub s.balance value with
  | .error e => (s, .error e)
  | .ok nb =>
    let s := { s with balance := nb }
    let s :=
      if receipt.current_epoch then
        { s with current_epoch_parking := (ASet.insertS s.current_epoch_parking staker_address).2 }
      else s
    let s :=
      if receipt.previous_epoch then
        { s with
          previous_epoch_parking := (ASet.insertS s.previous_epoch_parking staker_address).2 }
      else s
    (s, .ok ())

/-- `StakingContract::retire_sender`. -/
def retire_sender (s : StakingContract) (staker_address : Nat) (total_value : Nat)
    (_block_height : Nat) : StakingContract × Except AccountError (Option ActiveStakeReceipt) :=
  match balance_sub s.balance total_value with
  | .error e => (s, .error e)
  | .ok nb =>
    let s := { s with balance := nb }
    match AMap.get s.active_stake_by_address staker_address with
    | none => (s, .error .InvalidForSender)
    | some active_stake =>
      let s := { s with
        active_stake_by_address := AMap.removeA s.active_stake_by_address staker_address,
        active_stake_sorted := BTSet.removeB s.active_stake_sorted active_stake }
      if total_value < active_stake.balance then
        match balance_sub active_stake.balance total_value with
        | .error e => (s, .error e)
        | .ok nab =>
          let new_active_stake : ActiveStake :=
            ⟨staker_address, nab, active_stake.validator_key, active_stake.reward_address⟩
          (( { s with
                active_stake_sorted := BTSet.insertB s.active_stake_sorted new_active_stake,
                active_stake_by_address :=
                  AMap.insertA s.active_stake_by_address staker_address new_active_stake }),
            .ok none)
      else
        -- source: assert_eq!(active_stake.balance, total_value)
        if active_stake.balance = total_value then
          (s, .ok (some ⟨active_stake.validator_key, active_stake.reward_address⟩))
        else (s, .error .AssertionFailed)

/-- `StakingContract::revert_retire_sender`. -/
def revert_retire_sender (s : StakingContract) (staker_address : Nat) (total_value : Nat)
    (receipt : Option ActiveStakeReceipt) : StakingContract × Except AccountError Unit :=
  match balance_add s.balance total_value with
  | .error e => (s, .error e)
  | .ok nb =>
    let s := { s with balance := nb }
    match AMap.get s.active_stake_by_address staker_address with
    | some active_stake =>
      let s := { s with
        active_stake_by_address := AMap.removeA s.active_stake_by_address staker_address }
      if receipt.isSome then (s, .error .InvalidReceipt)
      else
        match balance_add active_stake.balance total_value with
        | .error e => (s, .error e)
        | .ok nab =>
          let new_active_stake : ActiveStake :=
            ⟨staker_address, nab, active_stake.validator_key, active_stake.reward_address⟩
          (( { s with
                active_stake_sorted :=
                  BTSet.insertB (BTSet.removeB s.active_stake_sorted active_stake)
                    new_active_stake,
                active_stake_by_address :=
                  AMap.insertA s.active_stake_by_address staker_address new_active_stake }),
            .ok ())
    | none =>
      match receipt with
      | none => (s, .error .InvalidReceipt)
      | some receipt =>
        let new_active_stake : ActiveStake :=
          ⟨staker_address, total_value, receipt.validator_key, receipt.reward_address⟩
        (( { s with
              active_stake_sorted := BTSet.insertB s.active_stake_sorted new_active_stake,
              active_stake_by_address :=
                AMap.insertA s.active_stake_by_address staker_address new_active_stake }),
          .ok ())

/-- `StakingContract::retire_recipient`. -/
def retire_recipient (s : StakingContract) (staker_address : Nat) (value : Nat)
    (block_height : Nat) : StakingContract × Except AccountError (Option InactiveStakeReceipt) :=
  match balance_add s.balance value with
  | .error e => (s, .error e)
  | .ok nb =>
    let s := { s with balance := nb }
    match AMap.get s.inactive_stake_by_address staker_address with
    | some inactive_stake =>
      let s := { s with
        inactive_stake_by_address := AMap.removeA s.inactive_stake_by_address staker_address }
      match balance_add inactive_stake.balance value with
      | .error e => (s, .error e)
      | .ok nib =>
        let new_inactive_stake : InactiveStake := ⟨nib, block_height⟩
        (( { s with
              inactive_stake_by_address :=
                AMap.insertA s.inactive_stake_by_address staker_address new_inactive_stake }),
          .ok (some ⟨inactive_stake.retire_time⟩))
    | none =>
      let new_inactive_stake : InactiveStake := ⟨value, block_height⟩
      (( { s with
            inactive_stake_by_address :=
              AMap.insertA s.inactive_stake_by_address staker_address new_inactive_stake }),
        .ok none)

/-- `StakingContract::revert_retire_recipient`. -/
def revert_retire_recipient (s : StakingContract) (staker_address : Nat) (value : Nat)
    (receipt : Option InactiveStakeReceipt) : StakingContract × Except AccountError Unit :=
  match balance_sub s.balance value with
  | .error e => (s, .error e)
  | .ok nb =>
    let s := { s with balance := nb }
    match AMap.get s.inactive_stake_by_address staker_address with
    | none => (s, .error .InvalidForRecipient)
    | some inactive_stake =>
      let s := { s with
        inactive_stake_by_address := AMap.removeA s.inactive_stake_by_address staker_address }
      if value < inactive_stake.balance then
        match receipt with
        | none => (s, .error .InvalidReceipt)
        | some receipt =>
          match balance_sub inactive_stake.balance value with
          | .error e => (s, .error e)
          | .ok nib =>
            let new_inactive_stake : InactiveStake := ⟨nib, receipt.retire_time⟩
            (( { s with
                  inactive_stake_by_address :=
                    AMap.insertA s.inactive_stake_by_address staker_address new_inactive_stake }),
              .ok ())
      else if receipt.isSome then (s, .error .InvalidReceipt)
      else (s, .ok ())

/-- `StakingContract::unstake`. -/
def unstake (s : StakingContract) (staker_address : Nat) (total_value : Nat) :
    StakingContract × Except AccountError (Option InactiveStakeReceipt) :=
  match balance_sub s.balance total_value with
  | .error e => (s, .error e)
  | .ok nb =>
    let s := { s with balance := nb }
    match AMap.get s.inactive_stake_by_address staker_address with
    | none => (s, .error .InvalidForSender)
    | some inactive_stake =>
      let s := { s with
        inactive_stake_by_address := AMap.removeA s.inactive_stake_by_address staker_address }
      if total_value < inactive_stake.balance then
        match balance_sub inactive_stake.balance total_value with
        | .error e => (s, .error e)
        | .ok nib =>
          let new_inactive_stake : InactiveStake := ⟨nib, inactive_stake.retire_time⟩
          (( { s with
                inactive_stake_by_address :=
                  AMap.insertA s.inactive_stake_by_address staker_address new_inactive_stake }),
            .ok none)
      else
        -- source: assert_eq!(inactive_stake.balance, total_value)
        if inactive_stake.balance = total_value then
          (s, .ok (some ⟨inactive_stake.retire_time⟩))
        else (s, .error .AssertionFailed)

/-- `StakingContract::revert_unstake`. -/
def revert_unstake (s : StakingContract) (staker_address : Nat) (total_value : Nat)
    (receipt : Option InactiveStakeReceipt) : StakingContract × Except AccountError Unit :=
  match balance_add s.balance total_value with
  | .error e => (s, .error e)
  | .ok nb =>
    let s := { s with balance := nb }
    match AMap.get s.inactive_stake_by_address staker_address with
    | some inactive_stake =>
      let s := { s with
        inactive_stake_by_address := AMap.removeA s.inactive_stake_by_address staker_address }
      if receipt.isSome then (s, .error .InvalidReceipt)
      else
        match balance_add inactive_stake.balance total_value with
        | .error e => (s, .error e)
        | .ok nib =>
          let new_inactive_stake : InactiveStake := ⟨nib, inactive_stake.retire_time⟩
          (( { s with
                inactive_stake_by_address :=
                  AMap.insertA s.inactive_stake_by_address staker_address new_inactive_stake }),
            .ok ())
    | none =>
      match receipt with
      | none => (s, .error .InvalidReceipt)
      | some receipt =>
        let new_inactive_stake : InactiveStake := ⟨total_value, receipt.retire_time⟩
        (( { s with
              inactive_stake_by_address :=
                AMap.insertA s.inactive_stake_by_address staker_address new_inactive_stake }),
          .ok ())

end StakingContract

/-- Modelled from the spec: epoch length in blocks; macro blocks sit at the
epoch boundaries (policy module, outside src).  The concrete value is
irrelevant to the claims below. -/
def EPOCH_LENGTH : Nat := 128

/-- Modelled from the spec: the lowest macro-block height strictly greater
than `h` (the policy module's first-epoch-boundary-after function, outside
src). -/
def mblock_after (h : Nat) : Nat := (h / EPOCH_LENGTH + 1) * EPOCH_LENGTH

/-- Modelled from the spec: the fixed UNSTAKING_DELAY protocol constant
(policy module, outside src). -/
def UNSTAKING_DELAY : Nat := 100

/-- `StakingTransactionType`: single-byte tag of a self-transaction. -/
inductive StakingTransactionType where
  | retire
  | unpark
deriving DecidableEq

/-- Parsed view of a transaction's `data` bytes.  `stakeData` models a
well-formed `StakingTransactionData`, `selfData` a byte string whose first
byte is a valid `StakingTransactionType` tag, and `malformed` bytes that
deserialize as neither. -/
inductive TxData where
  | stakeData (validator_key : Nat) (reward_address : Option Nat)
  | selfData (ty : StakingTransactionType)
  | malformed
deriving DecidableEq

structure Transaction where
  sender : Nat
  recipient : Nat
  value : Nat
  fee : Nat
  data : TxData
  signer : Nat
deriving DecidableEq

/-- `Transaction::total_value`: overflow-checked `value + fee`. -/
def Transaction.total_value (tx : Transaction) : Except AccountError Nat :=
  balance_add tx.value tx.fee

/-- `StakingTransactionData::parse` (transaction crate, outside src): yields
the validator key and optional reward address of a stake payload. -/
def StakingTransactionData.parse (tx : Transaction) :
    Except AccountError (Nat × Option Nat) :=
  match tx.data with
  | .stakeData k r => .ok (k, r)
  | _ => .error .InvalidSerialization

/-- `Deserialize` of a `StakingTransactionType` from the data field. -/
def parseSelfType (d : TxData) : Except AccountError StakingTransactionType :=
  match d with
  | .selfData ty => .ok ty
  | _ => .error .InvalidSerialization

inductive InherentType where
  | slash
  | finalizeEpoch
  | reward
deriving DecidableEq

/-- Parsed view of an inherent's `data` bytes: an address of exactly
`Address::SIZE` bytes, the empty byte string, or anything else. -/
inductive InherentData where
  | addr (a : Nat)
  | empty
  | malformed
deriving DecidableEq

structure Inherent where
  ty : InherentType
  value : Nat
  data : InherentData
deriving DecidableEq

namespace StakingContract

/-- `StakingContract::get_signer`: recovers the staker address from the
transaction proof.  The proof is opaque here; its `compute_signer` result is
the transaction's `signer` field. -/
def get_signer (transaction : Transaction) : Except AccountError Nat :=
  .ok transaction.signer

/-- `AccountTransactionInteraction::new_contract` for `StakingContract`. -/
def new_contract (_account_ty : Nat) (_balance : Nat) (_transaction : Transaction)
    (_block_height : Nat) : Except AccountError StakingContract :=
  .error .InvalidForRecipient

/-- `AccountTransactionInteraction::create` for `StakingContract`. -/
def create (_balance : Nat) (_transaction : Transaction) (_block_height : Nat) :
    Except AccountError StakingContract :=
  .error .InvalidForRecipient

/-- `check_incoming_transaction`. -/
def check_incoming_transaction (transaction : Transaction) (_block_height : Nat) :
    Except AccountError Unit :=
  if transaction.sender ≠ transaction.recipient then
    match StakingTransactionData.parse transaction with
    | .error e => .error e
    | .ok _ => .ok ()
  else
    match parseSelfType transaction.data with
    | .error e => .error e
    | .ok _ =>
      -- the source also rejects data longer than the one-byte tag with
      -- InvalidForTarget; `selfData` only models the well-formed length
      .ok ()

/-- `commit_incoming_transaction`. -/
def commit_incoming_transaction (s : StakingContract) (transaction : Transaction)
    (block_height : Nat) : StakingContract × Except AccountError (Option Receipt) :=
  if transaction.sender ≠ transaction.recipient then
    match StakingTransactionData.parse transaction with
    | .error e => (s, .error e)
    | .ok (validator_key, reward_address) =>
      match s.stake transaction.sender transaction.value validator_key reward_address with
      | (s₁, .error e) => (s₁, .error e)
      | (s₁, .ok r) => (s₁, .ok (r.map Receipt.active))
  else
    match parseSelfType transaction.data with
    | .error e => (s, .error e)
    | .ok ty =>
      match get_signer transaction with
      | .error e => (s, .error e)
      | .ok staker_address =>
        match ty with
        | .retire =>
          match s.retire_recipient staker_address transaction.value block_height with
          | (s₁, .error e) => (s₁, .error e)
          | (s₁, .ok r) => (s₁, .ok (r.map Receipt.inactive))
        | .unpark =>
          match s.unpark_recipient staker_address transaction.value with
          | (s₁, .error e) => (s₁, .error e)
          | (s₁, .ok r) => (s₁, .ok (some (Receipt.unpark r)))

/-- `revert_incoming_transaction`. -/
def revert_incoming_transaction (s : StakingContract) (transaction : Transaction)
    (_block_height : Nat) (receipt : Option Receipt) :
    StakingContract × Except AccountError Unit :=
  if transaction.sender ≠ transaction.recipient then
    match receipt with
    | none => s.revert_stake transaction.sender transaction.value none
    | some (.active r) => s.revert_stake transaction.sender transaction.value (some r)
    | some _ => (s, .error .InvalidSerialization)
  else
    match parseSelfType transaction.data with
    | .error e => (s, .error e)
    | .ok ty =>
      match get_signer transaction with
      | .error e => (s, .error e)
      | .ok staker_address =>
        match ty with
        | .retire =>
          match receipt with
          | none => s.revert_retire_recipient staker_address transaction.value none
          | some (.inactive r) =>
            s.revert_retire_recipient staker_address transaction.value (some r)
          | some _ => (s, .error .InvalidSerialization)
        | .unpark =>
          match receipt with
          | none => (s, .error .InvalidReceipt)
          | some (.unpark r) => s.revert_unpark_recipient staker_address transaction.value r
          | some _ => (s, .error .InvalidSerialization)

/-- `check_outgoing_transaction`. -/
def check_outgoing_transaction (s : StakingContract) (transaction : Transaction)
    (block_height : Nat) : Except AccountError Unit :=
  match get_signer transaction with
  | .error e => .error e
  | .ok staker_address =>
    if transaction.sender ≠ transaction.recipient then
      match AMap.get s.inactive_stake_by_address staker_address with
      | none => .error .InvalidForSender
      | some inactive_stake =>
        if block_height < mblock_after inactive_stake.retire_time + UNSTAKING_DELAY then
          .error .InvalidForSender
        else
          match transaction.total_value with
          | .error e => .error e
          | .ok tv => balance_sufficient inactive_stake.balance tv
    else
      match parseSelfType transaction.data with
      | .error e => .error e
      | .ok ty =>
        match AMap.get s.active_stake_by_address staker_address with
        | none => .error .InvalidForSender
        | some active_stake =>
          match ty with
          | .retire =>
            match transaction.total_value with
            | .error e => .error e
            | .ok tv => balance_sufficient active_stake.balance tv
          | .unpark =>
            match transaction.total_value with
            | .error e => .error e
            | .ok tv =>
              if active_stake.balance ≠ tv then .error .InvalidForSender
              else if !(s.current_epoch_parking.contains staker_address) &&
                  !(s.previous_epoch_parking.contains staker_address) then
                .error .InvalidForSender
              else .ok ()

/-- `commit_outgoing_transaction`. -/
def commit_outgoing_transaction (s : StakingContract) (transaction : Transaction)
    (block_height : Nat) : StakingContract × Except AccountError (Option Receipt) :=
  match s.check_outgoing_transaction transaction block_height with
  | .error e => (s, .error e)
  | .ok () =>
    match get_signer transaction with
    | .error e => (s, .error e)
    | .ok staker_address =>
      if transaction.sender ≠ transaction.recipient then
        match transaction.total_value with
        | .error e => (s, .error e)
        | .ok tv =>
          match s.unstake staker_address tv with
          | (s₁, .error e) => (s₁, .error e)
          | (s₁, .ok r) => (s₁, .ok (r.map Receipt.inactive))
      else
        match parseSelfType transaction.data with
        | .error e => (s, .error e)
        | .ok ty =>
          match ty with
          | .retire =>
            match transaction.total_value with
            | .error e => (s, .error e)
            | .ok tv =>
              match s.retire_sender staker_address tv block_height with
              | (s₁, .error e) => (s₁, .error e)
              | (s₁, .ok r) => (s₁, .ok (r.map Receipt.active))
          | .unpark =>
            match transaction.total_value with
            | .error e => (s, .error e)
            | .ok tv =>
              match s.unpark_sender staker_address tv transaction.fee with
              | (s₁, .error e) => (s₁, .error e)
              | (s₁, .ok ()) => (s₁, .ok none)

/-- `revert_outgoing_transaction`. -/
def revert_outgoing_transaction (s : StakingContract) (transaction : Transaction)
    (_block_height : Nat) (receipt : Option Receipt) :
    StakingContract × Except AccountError Unit :=
  match get_signer transaction with
  | .error e => (s, .error e)
  | .ok staker_address =>
    if transaction.sender ≠ transaction.recipient then
      match transaction.total_value with
      | .error e => (s, .error e)
      | .ok tv =>
        match receipt with
        | none => s.revert_unstake staker_address tv none
        | some (.inactive r) => s.revert_unstake staker_address tv (some r)
        | some _ => (s, .error .InvalidSerialization)
    else
      match parseSelfType transaction.data with
      | .error e => (s, .error e)
      | .ok ty =>
        match ty with
        | .retire =>
          match transaction.total_value with
          | .error e => (s, .error e)
          | .ok tv =>
            match receipt with
            | none => s.revert_retire_sender staker_address tv none
            | some (.active r) => s.revert_retire_sender staker_address tv (some r)
            | some _ => (s, .error .InvalidSerialization)
        | .unpark =>
          match transaction.total_value with
          | .error e => (s, .error e)
          | .ok tv => s.revert_unpark_sender staker_address tv transaction.fee

/-- `check_inherent`. -/
def check_inherent (s : StakingContract) (inherent : Inherent) (_block_height : Nat) :
    Except AccountError Unit :=
  if inherent.value ≠ 0 then .error .InvalidInherent
  else
    match inherent.ty with
    | .slash =>
      match inherent.data with
      | .addr staker_address =>
        if !((AMap.get s.active_stake_by_address staker_address).isSome) &&
            !((AMap.get s.inactive_stake_by_address staker_address).isSome) then
          .error .InvalidInherent
        else .ok ()
      | _ => .error .InvalidInherent
    | .finalizeEpoch =>
      match inherent.data with
      | .empty => .ok ()
      | _ => .error .InvalidInherent
    | .reward => .error .InvalidForTarget

/-- The body of the FinalizeEpoch loop over the dropped parking set.  The
source iterates the `HashSet` in its unspecified order; the order is passed
in explicitly here so that order independence can be stated. -/
def finalize_loop (block_height : Nat) :
    List Nat → StakingContract → StakingContract × Except AccountError Unit
  | [], s => (s, .ok ())
  | address :: rest, s =>
    let balance := s.get_active_balance address
    if 0 < balance then
      match s.retire_sender address balance block_height with
      | (s₁, .error e) => (s₁, .error e)
      | (s₁, .ok _) =>
        match s₁.retire_recipient address balance block_height with
        | (s₂, .error e) => (s₂, .error e)
        | (s₂, .ok _) => finalize_loop block_height rest s₂
    else finalize_loop block_height rest s

/-- The FinalizeEpoch arm of `commit_inherent` with the iteration order of
the dropped parking set given explicitly (the source order is whatever the
`HashSet` yields). -/
def finalizeWithOrder (s : StakingContract) (block_height : Nat) (order : List Nat) :
    StakingContract × Except AccountError (Option Receipt) :=
  let current_epoch := s.current_epoch_parking
  let s₁ := { s with current_epoch_parking := [], previous_epoch_parking := current_epoch }
  match finalize_loop block_height order s₁ with
  | (s₂, .error e) => (s₂, .error e)
  | (s₂, .ok ()) => (s₂, .ok none)

/-- `commit_inherent`.  The FinalizeEpoch arm iterates the dropped parking
set; the canonical ascending order of the set model is used here. -/
def commit_inherent (s : StakingContract) (inherent : Inherent) (block_height : Nat) :
    StakingContract × Except AccountError (Option Receipt) :=
  match s.check_inherent inherent block_height with
  | .error e => (s, .error e)
  | .ok () =>
    match inherent.ty with
    | .slash =>
      match inherent.data with
      | .addr staker_address =>
        let r := ASet.insertS s.current_epoch_parking staker_address
        let newly_slashed := r.1
        ( { s with current_epoch_parking := r.2 },
          .ok (some (Receipt.slash ⟨newly_slashed⟩)))
      | _ => (s, .error .InvalidInherent)  -- unreachable: check_inherent rejects it
    | .finalizeEpoch =>
      s.finalizeWithOrder block_height s.previous_epoch_parking
    | .reward => (s, .error .InvalidForTarget)  -- unreachable: check_inherent rejects it

/-- `revert_inherent`. -/
def revert_inherent (s : StakingContract) (inherent : Inherent) (_block_height : Nat)
    (receipt : Option Receipt) : StakingContract × Except AccountError Unit :=
  match inherent.ty with
  | .slash =>
    match receipt with
    | none => (s, .error .InvalidReceipt)
    | some (.slash slash_receipt) =>
      match inherent.data with
      | .addr staker_address =>
        if slash_receipt.newly_slashed then
          let r := ASet.removeS s.current_epoch_parking staker_address
          let s := { s with current_epoch_parking := r.2 }
          if !r.1 then (s, .error .InvalidInherent) else (s, .ok ())
        else (s, .ok ())
      | _ => (s, .error .InvalidSerialization)
    | some _ => (s, .error .InvalidSerialization)
  | .finalizeEpoch =>
    -- We should not be able to revert finalized epochs!
    (s, .error .InvalidForTarget)
  | .reward => (s, .error .InvalidForTarget)  -- unreachable in the source

/-- `PartialEq for StakingContract`: all staking contracts compare equal
(source FIXME: assume a single staking contract). -/
def rustEq (_s _other : StakingContract) : Bool :=
  true

/-- `Ord for StakingContract`: all staking contracts compare `Equal`. -/
def rustCmp (_s _other : StakingContract) : Ordering :=
  Ordering.eq

end StakingContract

/-- An operation of the transition engine: one side of a transaction, or an
inherent. -/
inductive Op where
  | incoming (tx : Transaction)
  | outgoing (tx : Transaction)
  | inh (i : Inherent)
deriving DecidableEq

def Op.isFinalizeEpoch : Op → Bool
  | .inh i => i.ty == .finalizeEpoch
  | _ => false

def commitOp (s : StakingContract) (op : Op) (block_height : Nat) :
    StakingContract × Except AccountError (Option Receipt) :=
  match op with
  | .incoming tx => s.commit_incoming_transaction tx block_height
  | .outgoing tx => s.commit_outgoing_transaction tx block_height
  | .inh i => s.commit_inherent i block_height

def revertOp (s : StakingContract) (op : Op) (block_height : Nat) (receipt : Option Receipt) :
    StakingContract × Except AccountError Unit :=
  match op with
  | .incoming tx => s.revert_incoming_transaction tx block_height receipt
  | .outgoing tx => s.revert_outgoing_transaction tx block_height receipt
  | .inh i => s.revert_inherent i block_height receipt

/-- A committed or reverted transition, for properties quantifying over both
directions. -/
inductive Step where
  | commitStep (op : Op)
  | revertStep (op : Op) (receipt : Option Receipt)
deriving DecidableEq

def runStep (s : StakingContract) (st : Step) (block_height : Nat) :
    StakingContract × Except AccountError (Option Receipt) :=
  match st with
  | .commitStep op => commitOp s op block_height
  | .revertStep op receipt =>
    match revertOp s op block_height receipt with
    | (s₁, .error e) => (s₁, .error e)
    | (s₁, .ok ()) => (s₁, .ok none)

/-- The transferred amount of an operation is positive (inherents carry no
transferred amount). -/
def Op.valuePos : Op → Prop
  | .incoming tx => 0 < tx.value
  | .outgoing tx => 0 < tx.value
  | .inh _ => True

def Step.valuePos : Step → Prop
  | .commitStep op => op.valuePos
  | .revertStep op _ => op.valuePos

/-- One primitive field of the canonical codec.  The byte-exact encodings of
coins, addresses and keys are the (external) beserial codec's; the token
stream keeps the field sequence the contract itself emits. -/
inductive SToken where
  | coin (c : Nat)
  | u32 (n : Nat)
  | u8 (b : Nat)
  | addr (a : Nat)
  | bls (k : Nat)
deriving DecidableEq

namespace Ser

def serCoin (c : Nat) : List SToken := [.coin c]

def serU32 (n : Nat) : List SToken := [.u32 (n % 2 ^ 32)]

def serAddr (a : Nat) : List SToken := [.addr a]

def serOptAddr : Option Nat → List SToken
  | none => [.u8 0]
  | some a => [.u8 1, .addr a]

def serActiveStake (e : Albatross.ActiveStake) : List SToken :=
  serAddr e.staker_address ++ serCoin e.balance ++ [.bls e.validator_key] ++
    serOptAddr e.reward_address

def serInactiveStake (i : Albatross.InactiveStake) : List SToken :=
  serCoin i.balance ++ serU32 i.retire_time

def serOptInactive : Option Albatross.InactiveStake → List SToken
  | none => [.u8 0]
  | some i => .u8 1 :: serInactiveStake i

def serAddrSet (l : List Nat) : List SToken :=
  serU32 l.length ++ l.map SToken.addr

/-- The comparator used by the source to sort the orphan inactive stakes:
`(staker_address asc, balance asc, retire_time asc)`. -/
def orphanLe (p q : Nat × Albatross.InactiveStake) : Bool :=
  decide (p.1 < q.1) ||
    (p.1 == q.1 &&
      (decide (p.2.balance < q.2.balance) ||
        (p.2.balance == q.2.balance && decide (p.2.retire_time ≤ q.2.retire_time))))

def insOrphan (p : Nat × Albatross.InactiveStake) :
    List (Nat × Albatross.InactiveStake) → List (Nat × Albatross.InactiveStake)
  | [] => [p]
  | q :: qs => if orphanLe p q then p :: q :: qs else q :: insOrphan p qs

/-- Sorting of the orphan list by the source comparator (insertion sort; the
source uses `Vec::sort_by`, any correct sort agrees on distinct keys). -/
def sortOrphans (l : List (Nat × Albatross.InactiveStake)) :
    List (Nat × Albatross.InactiveStake) :=
  l.foldr insOrphan []

end Ser

namespace StakingContract

/-- `Serialize for StakingContract`, at token granularity. -/
def serializeSC (s : StakingContract) : List SToken :=
  Ser.serCoin s.balance ++
    Ser.serU32 s.active_stake_sorted.length ++
    (s.active_stake_sorted.map (fun active_stake =>
      Ser.serActiveStake active_stake ++
        Ser.serOptInactive
          (AMap.get s.inactive_stake_by_address active_stake.staker_address))).flatten ++
    (let inactive_stakes := s.inactive_stake_by_address.filter
        (fun p => !((AMap.get s.active_stake_by_address p.1).isSome))
      let inactive_stakes := Ser.sortOrphans inactive_stakes
      Ser.serU32 inactive_stakes.length ++
        (inactive_stakes.map (fun p => Ser.serAddr p.1 ++ Ser.serInactiveStake p.2)).flatten) ++
    Ser.serAddrSet s.current_epoch_parking ++
    Ser.serAddrSet s.previous_epoch_parking

end StakingContract

namespace Deser

def dCoin : List SToken → Option (Nat × List SToken)
  | .coin c :: rest => some (c, rest)
  | _ => none

def dU32 : List SToken → Option (Nat × List SToken)
  | .u32 n :: rest => some (n, rest)
  | _ => none

def dU8 : List SToken → Option (Nat × List SToken)
  | .u8 b :: rest => some (b, rest)
  | _ => none

def dAddr : List SToken → Option (Nat × List SToken)
  | .addr a :: rest => some (a, rest)
  | _ => none

def dBls : List SToken → Option (Nat × List SToken)
  | .bls k :: rest => some (k, rest)
  | _ => none

def dOptAddr (ts : List SToken) : Option (Option Nat × List SToken) :=
  match dU8 ts with
  | none => none
  | some (0, rest) => some (none, rest)
  | some (1, rest) =>
    match dAddr rest with
    | none => none
    | some (a, rest') => some (some a, rest')
  | some _ => none

def dActiveStake (ts : List SToken) : Option (Albatross.ActiveStake × List SToken) :=
  match dAddr ts with
  | none => none
  | some (staker_address, ts) =>
    match dCoin ts with
    | none => none
    | some (balance, ts) =>
      match dBls ts with
      | none => none
      | some (validator_key, ts) =>
        match dOptAddr ts with
        | none => none
        | some (reward_address, ts) =>
          some (⟨staker_address, balance, validator_key, reward_address⟩, ts)

def dInactiveStake (ts : List SToken) : Option (Albatross.InactiveStake × List SToken) :=
  match dCoin ts with
  | none => none
  | some (balance, ts) =>
    match dU32 ts with
    | none => none
    | some (retire_time, ts) => some (⟨balance, retire_time⟩, ts)

def dOptInactive (ts : List SToken) : Option (Option Albatross.InactiveStake × List SToken) :=
  match dU8 ts with
  | none => none
  | some (0, rest) => some (none, rest)
  | some (1, rest) =>
    match dInactiveStake rest with
    | none => none
    | some (i, rest') => some (some i, rest')
  | some _ => none

/-- The loop over serialized active stakes: rebuilds the sorted set, the
active-by-address map and (for co-located entries) the inactive map. -/
def dActiveLoop :
    Nat →
      List Albatross.ActiveStake × List (Nat × Albatross.ActiveStake) ×
        List (Nat × Albatross.InactiveStake) →
      List SToken →
      Option ((List Albatross.ActiveStake × List (Nat × Albatross.ActiveStake) ×
        List (Nat × Albatross.InactiveStake)) × List SToken)
  | 0, acc, ts => some (acc, ts)
  | n + 1, (sorted, amap, imap), ts =>
    match dActiveStake ts with
    | none => none
    | some (active_stake, ts) =>
      match dOptInactive ts with
      | none => none
      | some (inactive_stake, ts) =>
        let sorted := BTSet.insertB sorted active_stake
        let amap := AMap.insertA amap active_stake.staker_address active_stake
        let imap :=
          match inactive_stake with
          | some stake => AMap.insertA imap active_stake.staker_address stake
          | none => imap
        dActiveLoop n (sorted, amap, imap) ts

/-- The loop over serialized orphan inactive stakes. -/
def dInactiveLoop :
    Nat → List (Nat × Albatross.InactiveStake) → List SToken →
      Option (List (Nat × Albatross.InactiveStake) × List SToken)
  | 0, imap, ts => some (imap, ts)
  | n + 1, imap, ts =>
    match dAddr ts with
    | none => none
    | some (staker_address, ts) =>
      match dInactiveStake ts with
      | none => none
      | some (inactive_stake, ts) =>
        dInactiveLoop n (AMap.insertA imap staker_address inactive_stake) ts

def dAddrList : Nat → List SToken → Option (List Nat × List SToken)
  | 0, ts => some ([], ts)
  | n + 1, ts =>
    match dAddr ts with
    | none => none
    | some (a, ts) =>
      match dAddrList n ts with
      | none => none
      | some (l, ts) => some (a :: l, ts)

/-- `DeserializeWithLength` of a `HashSet<Address>`: read the length, then
insert each address into the set model. -/
def dAddrSet (ts : List SToken) : Option (List Nat × List SToken) :=
  match dU32 ts with
  | none => none
  | some (n, ts) =>
    match dAddrList n ts with
    | none => none
    | some (l, ts) => some (l.foldl (fun acc a => (ASet.insertS acc a).2) [], ts)

end Deser

namespace StakingContract

/-- `Deserialize for StakingContract`, at token granularity. -/
def deserializeSC (ts : List SToken) : Option (StakingContract × List SToken) :=
  match Deser.dCoin ts with
  | none => none
  | some (balance, ts) =>
    match Deser.dU32 ts with
    | none => none
    | some (num_active_stakes, ts) =>
      match Deser.dActiveLoop num_active_stakes ([], [], []) ts with
      | none => none
      | some ((active_stake_sorted, active_stake_by_address, imap), ts) =>
        match Deser.dU32 ts with
        | none => none
        | some (num_inactive_stakes, ts) =>
          match Deser.dInactiveLoop num_inactive_stakes imap ts with
          | none => none
          | some (inactive_stake_by_address, ts) =>
            match Deser.dAddrSet ts with
            | none => none
            | some (current_epoch_parking, ts) =>
              match Deser.dAddrSet ts with
              | none => none
              | some (last_epoch_parking, ts) =>
                some
                  ( { balance := balance,
                      active_stake_sorted := active_stake_sorted,
                      active_stake_by_address := active_stake_by_address,
                      inactive_stake_by_address := inactive_stake_by_address,
                      current_epoch_parking := current_epoch_parking,
                      previous_epoch_parking := last_epoch_parking },
                    ts)

end StakingContract

/-- All balances stored in the three stake containers are positive. -/
def allPositive (s : StakingContract) : Prop :=
  (∀ e ∈ s.active_stake_sorted, 0 < e.balance) ∧
    (∀ p ∈ s.active_stake_by_address, 0 < p.2.balance) ∧
    (∀ p ∈ s.inactive_stake_by_address, 0 < p.2.balance)

instance : DecidablePred allPositive := fun s => by
  unfold allPositive
  infer_instance

/-- Well-formedness of a contract state: the containers are canonical, the
sorted set holds exactly the address map's stakes, map keys agree with the
stored staker addresses, all stored balances are positive, and every coin
amount fits a u64. -/
def wf (s : StakingContract) : Prop :=
  AMap.canonical s.active_stake_by_address ∧
    AMap.canonical s.inactive_stake_by_address ∧
    ASet.canonicalS s.current_epoch_parking ∧
    ASet.canonicalS s.previous_epoch_parking ∧
    BTSet.sortedB s.active_stake_sorted ∧
    s.active_stake_sorted.Perm (s.active_stake_by_address.map Prod.snd) ∧
    (∀ p ∈ s.active_stake_by_address,
      p.2.staker_address = p.1 ∧ 0 < p.2.balance ∧ p.2.balance ≤ coinMax) ∧
    (∀ p ∈ s.inactive_stake_by_address, 0 < p.2.balance ∧ p.2.balance ≤ coinMax) ∧
    s.balance ≤ coinMax

instance : DecidablePred wf := fun s => by
  unfold wf AMap.canonical ASet.canonicalS BTSet.sortedB
  infer_instance

/-- Sum of the balances stored in an association list of stakes. -/
def sumActive (m : List (Nat × ActiveStake)) : Nat :=
  (m.map (fun p => p.2.balance)).sum

def sumInactive (m : List (Nat × InactiveStake)) : Nat :=
  (m.map (fun p => p.2.balance)).sum

/-- The balance invariant used by FinalizeEpoch: the contract balance is the
sum of all stored balances, the maps are canonical, and the balance is a
valid coin. -/
def finalizeInv (s : StakingContract) : Prop :=
  AMap.canonical s.active_stake_by_address ∧
    AMap.canonical s.inactive_stake_by_address ∧
    s.balance = sumActive s.active_stake_by_address + sumInactive s.inactive_stake_by_address ∧
    s.balance ≤ coinMax

instance : DecidablePred finalizeInv := fun s => by
  unfold finalizeInv AMap.canonical
  infer_instance

/-- The effect of one FinalizeEpoch drop on the state, as a total function;
equals the loop body whenever the balance invariant holds. -/
def finalizeStep (block_height : Nat) (s : StakingContract) (address : Nat) :
    StakingContract :=
  match AMap.get s.active_stake_by_address address with
  | none => s
  | some e =>
    if 0 < e.balance then
      { s with
          active_stake_by_address := AMap.removeA s.active_stake_by_address address,
          active_stake_sorted := BTSet.removeB s.active_stake_sorted e,
          inactive_stake_by_address := AMap.insertA s.inactive_stake_by_address address
            ⟨s.get_inactive_balance address + e.balance, block_height⟩ }
    else s

/-- Size bounds under which the u32-prefixed collections and u32 fields of
the codec round trip: every length written fits a u32 and every stored
retire_time fits a u32 (these are `u32` by type in the source). -/
def serBounds (s : StakingContract) : Prop :=
  s.active_stake_sorted.length < 2 ^ 32 ∧
    (s.inactive_stake_by_address.filter
      (fun p => !((AMap.get s.active_stake_by_address p.1).isSome))).length < 2 ^ 32 ∧
    s.current_epoch_parking.length < 2 ^ 32 ∧
    s.previous_epoch_parking.length < 2 ^ 32 ∧
    ∀ p ∈ s.inactive_stake_by_address, p.2.retire_time < 2 ^ 32

instance : DecidablePred serBounds := fun s => by
  unfold serBounds
  infer_instance

instance : DecidablePred ASet.canonicalS := fun l => by
  unfold ASet.canonicalS
  infer_instance

instance : DecidablePred Op.valuePos := fun op => by
  cases op <;> simp only [Op.valuePos] <;> infer_instance

instance : DecidablePred Step.valuePos := fun st => by
  cases st <;> simp only [Step.valuePos] <;> infer_instance

namespace AMap

theorem get_eq_none_iff {β : Type} {m : List (Nat × β)} {a : Nat} :
    get m a = none ↔ ∀ p ∈ m, p.1 ≠ a := by
  induction m with
  | nil => simp [get]
  | cons p ps ih =>
    by_cases h : p.1 = a <;> simp [get, h, ih]

theorem get_mem {β : Type} {m : List (Nat × β)} {a : Nat} {v : β} (h : get m a = some v) :
    (a, v) ∈ m := by
  induction m with
  | nil => simp [get] at h
  | cons p ps ih =>
    by_cases hp : p.1 = a
    · simp only [get, if_pos hp] at h
      rw [List.mem_cons]
      left
      cases p
      simp_all
    · simp only [get, if_neg hp] at h
      exact List.mem_cons_of_mem _ (ih h)

theorem canonical_cons {β : Type} {p : Nat × β} {ps : List (Nat × β)} :
    canonical (p :: ps) ↔ (∀ q ∈ ps, p.1 < q.1) ∧ canonical ps :=
  List.pairwise_cons

theorem canonical_tail {β : Type} {p : Nat × β} {ps : List (Nat × β)}
    (h : canonical (p :: ps)) : canonical ps :=
  (canonical_cons.1 h).2

theorem mem_insertA {β : Type} {m : List (Nat × β)} {a : Nat} {v : β} {q : Nat × β}
    (h : q ∈ insertA m a v) : q = (a, v) ∨ q ∈ m := by
  induction m with
  | nil => simpa [insertA] using h
  | cons p ps ih =>
    simp only [insertA] at h
    split at h
    · rw [List.mem_cons] at h
      rcases h with h | h
      · exact Or.inl h
      · exact Or.inr h
    · split at h
      · rw [List.mem_cons] at h
        rcases h with h | h
        · exact Or.inl h
        · exact Or.inr (List.mem_cons_of_mem _ h)
      · rw [List.mem_cons] at h
        rcases h with h | h
        · exact Or.inr (h ▸ List.mem_cons_self _ _)
        · rcases ih h with h' | h'
          · exact Or.inl h'
          · exact Or.inr (List.mem_cons_of_mem _ h')

theorem get_insertA_self {β : Type} {m : List (Nat × β)} {a : Nat} {v : β} :
    get (insertA m a v) a = some v := by
  induction m with
  | nil => simp [insertA, get]
  | cons p ps ih =>
    simp only [insertA]
    split
    · simp [get]
    · split
      · simp [get]
      · rename_i h1 h2
        have hne : p.1 ≠ a := by omega
        simp [get, hne, ih]

theorem get_insertA_ne {β : Type} {m : List (Nat × β)} {a x : Nat} {v : β} (hx : x ≠ a) :
    get (insertA m a v) x = get m x := by
  have hax : a ≠ x := Ne.symm hx
  induction m with
  | nil => simp [insertA, get, hax]
  | cons p ps ih =>
    simp only [insertA]
    split
    · simp [get, hax]
    · split
      · rename_i h1 h2
        have hpx : p.1 ≠ x := by omega
        simp [get, hax, hpx]
      · by_cases hp : p.1 = x <;> simp [get, hp, hax, ih]

theorem get_removeA_self {β : Type} {m : List (Nat × β)} {a : Nat} :
    get (removeA m a) a = none := by
  rw [get_eq_none_iff]
  intro p hp
  have := List.of_mem_filter hp
  simpa using this

theorem get_removeA_ne {β : Type} {m : List (Nat × β)} {a x : Nat} (hx : x ≠ a) :
    get (removeA m a) x = get m x := by
  induction m with
  | nil => rfl
  | cons p ps ih =>
    simp only [removeA] at ih ⊢
    rw [List.filter_cons]
    by_cases hp : p.1 = a
    · have hf : (p.1 != a) = false := by simp [hp]
      rw [hf]
      simp only [Bool.false_eq_true, if_false]
      have hpx : p.1 ≠ x := by omega
      rw [ih]
      simp [get, hpx]
    · have hf : (p.1 != a) = true := by simp [hp]
      rw [hf]
      simp only [if_true]
      by_cases hpx : p.1 = x <;> simp [get, hpx, ih]

theorem removeA_eq_self {β : Type} {m : List (Nat × β)} {a : Nat}
    (h : get m a = none) : removeA m a = m := by
  rw [get_eq_none_iff] at h
  apply List.filter_eq_self.2
  intro p hp
  simpa using h p hp

theorem removeA_insertA {β : Type} {m : List (Nat × β)} {a : Nat} {v : β} :
    removeA (insertA m a v) a = removeA m a := by
  induction m with
  | nil => simp [insertA, removeA, List.filter]
  | cons p ps ih =>
    simp only [insertA]
    split
    · simp only [removeA, List.filter_cons, bne_self_eq_false, Bool.false_eq_true, if_false]
    · split
      · rename_i h1 h2
        simp only [removeA, List.filter_cons, bne_self_eq_false, Bool.false_eq_true, if_false]
        have hf : (p.1 != a) = false := by simp [h2.symm]
        rw [hf]
        simp
      · rename_i h1 h2
        have hpa : (p.1 != a) = true := by
          simp
          omega
        simp only [removeA, List.filter_cons, hpa, if_true] at ih ⊢
        rw [ih]

theorem canonical_insertA {β : Type} {m : List (Nat × β)} {a : Nat} {v : β}
    (hc : canonical m) : canonical (insertA m a v) := by
  induction m with
  | nil => simp [insertA, canonical]
  | cons p ps ih =>
    rw [canonical_cons] at hc
    simp only [insertA]
    split
    · rw [canonical_cons]
      refine ⟨?_, canonical_cons.2 hc⟩
      intro q hq
      rw [List.mem_cons] at hq
      rcases hq with hq | hq
      · rw [hq]
        simpa
      · have := hc.1 q hq
        simp only
        omega
    · split
      · rename_i h1 h2
        rw [canonical_cons]
        refine ⟨?_, hc.2⟩
        intro q hq
        have := hc.1 q hq
        simp only
        omega
      · rename_i h1 h2
        rw [canonical_cons]
        refine ⟨?_, ih hc.2⟩
        intro q hq
        rcases mem_insertA hq with h' | h'
        · rw [h']
          simp only
          omega
        · exact hc.1 q h'

theorem canonical_removeA {β : Type} {m : List (Nat × β)} {a : Nat}
    (hc : canonical m) : canonical (removeA m a) :=
  hc.sublist (List.filter_sublist m)

theorem insertA_front {β : Type} {m : List (Nat × β)} {a : Nat} {v : β}
    (h : ∀ q ∈ m, a < q.1) : insertA m a v = (a, v) :: m := by
  cases m with
  | nil => rfl
  | cons p ps =>
    have := h p (by simp)
    simp [insertA, this]

theorem insertA_removeA {β : Type} {m : List (Nat × β)} {a : Nat} {v : β}
    (hc : canonical m) (h : get m a = some v) : insertA (removeA m a) a v = m := by
  induction m with
  | nil => simp [get] at h
  | cons p ps ih =>
    rw [canonical_cons] at hc
    by_cases hp : p.1 = a
    · simp only [get, if_pos hp] at h
      have hf : (p.1 != a) = false := by simp [hp]
      have hfil : removeA (p :: ps) a = ps := by
        simp only [removeA, List.filter_cons, hf, Bool.false_eq_true, if_false]
        apply List.filter_eq_self.2
        intro q hq
        have := hc.1 q hq
        simp
        omega
      rw [hfil, insertA_front fun q hq => by have := hc.1 q hq; omega]
      cases p
      simp_all
    · simp only [get, if_neg hp] at h
      have ha : p.1 < a := by
        have := hc.1 _ (get_mem h)
        simpa using this
      have hf : (p.1 != a) = true := by simp [hp]
      have hfil : removeA (p :: ps) a = p :: removeA ps a := by
        simp only [removeA, List.filter_cons, hf, if_true]
      rw [hfil]
      have h1 : ¬ a < p.1 := by omega
      have h2 : ¬ a = p.1 := by omega
      simp only [insertA, if_neg h1, if_neg h2]
      rw [ih hc.2 h]

theorem insertA_insertA {β : Type} {m : List (Nat × β)} {a : Nat} {v w : β} :
    insertA (insertA m a v) a w = insertA m a w := by
  induction m with
  | nil => simp [insertA]
  | cons p ps ih =>
    simp only [insertA]
    split
    · rename_i h1
      simp [insertA, h1]
    · split
      · rename_i h1 h2
        have : ¬ a < a := by omega
        simp [insertA, h1, this]
      · rename_i h1 h2
        simp only [insertA, if_neg h1, if_neg h2, ih]

theorem insertA_eq_self {β : Type} {m : List (Nat × β)} {a : Nat} {v : β}
    (hc : canonical m) (h : get m a = some v) : insertA m a v = m := by
  induction m with
  | nil => simp [get] at h
  | cons p ps ih =>
    rw [canonical_cons] at hc
    by_cases hp : p.1 = a
    · simp only [get, if_pos hp] at h
      have h1 : ¬ a < p.1 := by omega
      simp only [insertA, if_neg h1, if_pos hp.symm]
      cases p
      simp_all
    · simp only [get, if_neg hp] at h
      have ha : p.1 < a := by
        have := hc.1 _ (get_mem h)
        simpa using this
      have h1 : ¬ a < p.1 := by omega
      have h2 : ¬ a = p.1 := by omega
      simp only [insertA, if_neg h1, if_neg h2]
      rw [ih hc.2 h]

end AMap

namespace ASet

theorem contains_iff {l : List Nat} {a : Nat} : l.contains a = true ↔ a ∈ l := by
  induction l with
  | nil => simp
  | cons x xs ih => by_cases h : a = x <;> simp [h, ih]

theorem mem_insertS {l : List Nat} {a x : Nat} (h : x ∈ (insertS l a).2) :
    x = a ∨ x ∈ l := by
  induction l with
  | nil => simpa [insertS] using h
  | cons y ys ih =>
    simp only [insertS] at h
    split at h
    · rcases List.mem_cons.1 h with h | h
      · exact Or.inl h
      · exact Or.inr h
    · split at h
      · exact Or.inr h
      · simp only [List.mem_cons] at h
        rcases h with h | h
        · exact Or.inr (h ▸ List.mem_cons_self _ _)
        · rcases ih h with h' | h'
          · exact Or.inl h'
          · exact Or.inr (List.mem_cons_of_mem _ h')

theorem canonicalS_cons {x : Nat} {xs : List Nat} :
    canonicalS (x :: xs) ↔ (∀ y ∈ xs, x < y) ∧ canonicalS xs :=
  List.pairwise_cons

theorem canonicalS_insertS {l : List Nat} {a : Nat} (hc : canonicalS l) :
    canonicalS (insertS l a).2 := by
  induction l with
  | nil => simp [insertS, canonicalS]
  | cons x xs ih =>
    rw [canonicalS_cons] at hc
    simp only [insertS]
    split
    · rw [canonicalS_cons]
      refine ⟨?_, canonicalS_cons.2 hc⟩
      intro y hy
      rcases List.mem_cons.1 hy with hy | hy
      · omega
      · have := hc.1 y hy
        omega
    · split
      · exact canonicalS_cons.2 hc
      · rw [canonicalS_cons]
        refine ⟨?_, ih hc.2⟩
        intro y hy
        rcases mem_insertS hy with h' | h'
        · omega
        · exact hc.1 y h'

theorem canonicalS_removeS {l : List Nat} {a : Nat} (hc : canonicalS l) :
    canonicalS (removeS l a).2 :=
  hc.sublist (List.filter_sublist l)

theorem removeS_fst {l : List Nat} {a : Nat} : (removeS l a).1 = l.contains a := rfl

theorem removeS_eq_self {l : List Nat} {a : Nat} (h : a ∉ l) : (removeS l a).2 = l := by
  apply List.filter_eq_self.2
  intro x hx
  simp only [bne_iff_ne, ne_eq]
  intro hxa
  exact h (hxa ▸ hx)

theorem insertS_front {l : List Nat} {a : Nat} (h : ∀ x ∈ l, a < x) :
    (insertS l a).2 = a :: l := by
  cases l with
  | nil => rfl
  | cons x xs =>
    have := h x (by simp)
    simp [insertS, this]

theorem insertS_fst_of_not_mem {l : List Nat} {a : Nat} (h : a ∉ l) :
    (insertS l a).1 = true := by
  induction l with
  | nil => rfl
  | cons x xs ih =>
    simp only [List.mem_cons, not_or] at h
    simp only [insertS]
    split
    · rfl
    · split
      · exact absurd (by assumption) h.1
      · exact ih h.2

theorem insertS_fst_of_mem {l : List Nat} {a : Nat} (hc : canonicalS l) (h : a ∈ l) :
    (insertS l a).1 = false := by
  induction l with
  | nil => simp at h
  | cons x xs ih =>
    rw [canonicalS_cons] at hc
    rcases List.mem_cons.1 h with h' | h'
    · simp [insertS, h']
    · have hax : x < a := hc.1 a h'
      have h1 : ¬ a < x := by omega
      have h2 : ¬ a = x := by omega
      simp only [insertS, if_neg h1, if_neg h2]
      exact ih hc.2 h'

theorem insertS_snd_of_mem {l : List Nat} {a : Nat} (hc : canonicalS l) (h : a ∈ l) :
    (insertS l a).2 = l := by
  induction l with
  | nil => simp at h
  | cons x xs ih =>
    rw [canonicalS_cons] at hc
    rcases List.mem_cons.1 h with h' | h'
    · have h1 : ¬ a < x := by omega
      simp [insertS, if_neg h1, h']
    · have hax : x < a := hc.1 a h'
      have h1 : ¬ a < x := by omega
      have h2 : ¬ a = x := by omega
      simp only [insertS, if_neg h1, if_neg h2]
      rw [ih hc.2 h']

theorem removeS_insertS {l : List Nat} {a : Nat} (h : a ∉ l) :
    (removeS (insertS l a).2 a).2 = l := by
  induction l with
  | nil => simp [insertS, removeS, List.filter]
  | cons x xs ih =>
    simp only [List.mem_cons, not_or] at h
    simp only [insertS]
    split
    · simp only [removeS, List.filter_cons, bne_self_eq_false, Bool.false_eq_true, if_false]
      have hx : (x != a) = true := by
        simp only [bne_iff_ne, ne_eq]
        exact fun hxa => h.1 hxa.symm
      rw [hx]
      simp only [if_true]
      congr 1
      apply List.filter_eq_self.2
      intro y hy
      simp only [bne_iff_ne, ne_eq]
      exact fun hya => h.2 (hya ▸ hy)
    · split
      · exact absurd (by assumption) h.1
      · have hxa : (x != a) = true := by
          simp only [bne_iff_ne, ne_eq]
          exact fun hx => h.1 hx.symm
        simp only [removeS, List.filter_cons, hxa, if_true] at ih ⊢
        have := ih h.2
        simp only [removeS] at this
        rw [this]

theorem insertS_removeS {l : List Nat} {a : Nat} (hc : canonicalS l) (h : a ∈ l) :
    (insertS (removeS l a).2 a).2 = l := by
  induction l with
  | nil => simp at h
  | cons x xs ih =>
    rw [canonicalS_cons] at hc
    rcases List.mem_cons.1 h with h' | h'
    · subst h'
      simp only [removeS, List.filter_cons, bne_self_eq_false, Bool.false_eq_true, if_false]
      have hfil : xs.filter (fun y => y != a) = xs := by
        apply List.filter_eq_self.2
        intro y hy
        have := hc.1 y hy
        simp only [bne_iff_ne, ne_eq]
        omega
      rw [hfil, insertS_front]
      intro y hy
      exact hc.1 y hy
    · have hax : x < a := hc.1 a h'
      have hxa : (x != a) = true := by
        simp only [bne_iff_ne, ne_eq]
        omega
      simp only [removeS, List.filter_cons, hxa, if_true]
      have h1 : ¬ a < x := by omega
      have h2 : ¬ a = x := by omega
      simp only [insertS, if_neg h1, if_neg h2]
      have := ih hc.2 h'
      simp only [removeS] at this
      rw [this]

end ASet

namespace BTSet

open ActiveStake

theorem ordLtB_iff {a b : ActiveStake} :
    ordLtB a b = true ↔
      b.balance < a.balance ∨ (a.balance = b.balance ∧ a.staker_address < b.staker_address) := by
  simp [ordLtB]

theorem ordEqB_iff {a b : ActiveStake} :
    ordEqB a b = true ↔ a.balance = b.balance ∧ a.staker_address = b.staker_address := by
  simp [ordEqB]

theorem ordEqB_self {a : ActiveStake} : ordEqB a a = true := by
  simp [ordEqB]

theorem ordEqB_symm {a b : ActiveStake} (h : ordEqB a b = false) : ordEqB b a = false := by
  cases hab : ordEqB b a
  · rfl
  · rw [ordEqB_iff] at hab
    have : ordEqB a b = true := ordEqB_iff.2 ⟨hab.1.symm, hab.2.symm⟩
    rw [h] at this
    cases this

theorem ordLtB_asymm {a b : ActiveStake} (h : ordLtB a b = true) : ordLtB b a = false := by
  rw [ordLtB_iff] at h
  cases hba : ordLtB b a
  · rfl
  · rw [ordLtB_iff] at hba
    omega

theorem ordLtB_not_ordEqB {a b : ActiveStake} (h : ordLtB a b = true) : ordEqB a b = false := by
  rw [ordLtB_iff] at h
  cases he : ordEqB a b
  · rfl
  · rw [ordEqB_iff] at he
    omega

theorem ordLtB_trichotomy {a b : ActiveStake} (h1 : ordLtB a b = false)
    (h2 : ordEqB a b = false) : ordLtB b a = true := by
  have h1' : ¬ (ordLtB a b = true) := by simp [h1]
  have h2' : ¬ (ordEqB a b = true) := by simp [h2]
  rw [ordLtB_iff] at h1' ⊢
  rw [ordEqB_iff] at h2'
  omega

theorem sortedB_cons {x : ActiveStake} {xs : List ActiveStake} :
    sortedB (x :: xs) ↔ (∀ y ∈ xs, ordLtB x y = true) ∧ sortedB xs :=
  List.pairwise_cons

theorem mem_insertB {l : List ActiveStake} {x q : ActiveStake} (h : q ∈ insertB l x) :
    q = x ∨ q ∈ l := by
  induction l with
  | nil => simpa [insertB] using h
  | cons y ys ih =>
    simp only [insertB] at h
    split at h
    · rcases List.mem_cons.1 h with h | h
      · exact Or.inl h
      · exact Or.inr h
    · split at h
      · exact Or.inr h
      · rcases List.mem_cons.1 h with h | h
        · exact Or.inr (h ▸ List.mem_cons_self _ _)
        · rcases ih h with h' | h'
          · exact Or.inl h'
          · exact Or.inr (List.mem_cons_of_mem _ h')

theorem sortedB_insertB {l : List ActiveStake} {x : ActiveStake} (hs : sortedB l) :
    sortedB (insertB l x) := by
  induction l with
  | nil => simp [insertB, sortedB]
  | cons y ys ih =>
    rw [sortedB_cons] at hs
    simp only [insertB]
    split
    · rename_i hlt
      rw [sortedB_cons]
      refine ⟨?_, sortedB_cons.2 hs⟩
      intro q hq
      rcases List.mem_cons.1 hq with hq | hq
      · exact hq ▸ hlt
      · have h1 := hs.1 q hq
        rw [ordLtB_iff] at hlt h1 ⊢
        omega
    · split
      · exact sortedB_cons.2 hs
      · rename_i hlt heq
        rw [sortedB_cons]
        refine ⟨?_, ih hs.2⟩
        intro q hq
        rcases mem_insertB hq with h' | h'
        · subst h'
          exact ordLtB_trichotomy (Bool.of_not_eq_true hlt) (Bool.of_not_eq_true heq)
        · exact hs.1 q h'

theorem sortedB_removeB {l : List ActiveStake} {x : ActiveStake} (hs : sortedB l) :
    sortedB (removeB l x) :=
  hs.sublist (List.filter_sublist l)

theorem mem_removeB {l : List ActiveStake} {x q : ActiveStake} (h : q ∈ removeB l x) :
    q ∈ l :=
  List.mem_of_mem_filter h

theorem removeB_eq_self {l : List ActiveStake} {x : ActiveStake}
    (h : ∀ y ∈ l, ordEqB y x = false) : removeB l x = l := by
  apply List.filter_eq_self.2
  intro y hy
  simp [h y hy]

theorem removeB_insertB {l : List ActiveStake} {x : ActiveStake}
    (h : ∀ y ∈ l, ordEqB y x = false) : removeB (insertB l x) x = l := by
  induction l with
  | nil => simp [insertB, removeB, List.filter, ordEqB_self]
  | cons y ys ih =>
    have hy := h y (by simp)
    simp only [insertB]
    split
    · have hyb : (!ordEqB y x) = true := by simp [hy]
      simp only [removeB, List.filter_cons, ordEqB_self, Bool.not_true, Bool.false_eq_true,
        if_false, hyb, if_true]
      congr 1
      have hrest := removeB_eq_self fun q hq => h q (List.mem_cons_of_mem _ hq)
      simp only [removeB] at hrest
      exact hrest
    · split
      · rename_i h1 h2
        have hsym := ordEqB_symm hy
        rw [h2] at hsym
        cases hsym
      · have hyx : (!ordEqB y x) = true := by simp [hy]
        simp only [removeB, List.filter_cons, hyx, if_true] at ih ⊢
        have := ih fun q hq => h q (List.mem_cons_of_mem _ hq)
        simp only [removeB] at this
        rw [this]

theorem insertB_front {l : List ActiveStake} {x : ActiveStake}
    (h : ∀ y ∈ l, ordLtB x y = true) : insertB l x = x :: l := by
  cases l with
  | nil => rfl
  | cons y ys =>
    have := h y (by simp)
    simp [insertB, this]

theorem insertB_removeB {l : List ActiveStake} {x : ActiveStake} (hs : sortedB l)
    (hx : x ∈ l) (huniq : ∀ y ∈ l, ordEqB y x = true → y = x) :
    insertB (removeB l x) x = l := by
  induction l with
  | nil => simp at hx
  | cons y ys ih =>
    rw [sortedB_cons] at hs
    rcases List.mem_cons.1 hx with h' | h'
    · subst h'
      simp only [removeB, List.filter_cons, ordEqB_self, Bool.not_true, Bool.false_eq_true,
        if_false]
      have hfil : ys.filter (fun q => !ordEqB q x) = ys := by
        apply List.filter_eq_self.2
        intro q hq
        have hlt := hs.1 q hq
        have : ordEqB q x = false := ordEqB_symm (ordLtB_not_ordEqB hlt)
        simp [this]
      rw [hfil]
      exact insertB_front hs.1
    · have hyx : ordLtB y x = true := hs.1 x h'
      have hne : ordEqB y x = false := ordLtB_not_ordEqB hyx
      have hyb : (!ordEqB y x) = true := by simp [hne]
      simp only [removeB, List.filter_cons, hyb, if_true]
      have h1 : ordLtB x y = false := ordLtB_asymm hyx
      have h2 : ordEqB x y = false := ordEqB_symm hne
      simp only [insertB, h1, Bool.false_eq_true, if_false, h2]
      have := ih hs.2 h' fun q hq hq2 => huniq q (List.mem_cons_of_mem _ hq) hq2
      simp only [removeB] at this
      rw [this]

theorem insertB_append {l : List ActiveStake} {x : ActiveStake}
    (h : ∀ y ∈ l, ordLtB y x = true) : insertB l x = l ++ [x] := by
  induction l with
  | nil => rfl
  | cons y ys ih =>
    have hy := h y (by simp)
    have h1 : ordLtB x y = false := ordLtB_asymm hy
    have h2 : ordEqB x y = false := ordEqB_symm (ordLtB_not_ordEqB hy)
    simp only [insertB, h1, Bool.false_eq_true, if_false, h2]
    rw [ih fun q hq => h q (List.mem_cons_of_mem _ hq)]
    rfl

end BTSet

theorem balance_add_ok {a b : Nat} (h : a + b ≤ coinMax) : balance_add a b = .ok (a + b) :=
  if_pos h

theorem balance_sub_ok {a b : Nat} (h : b ≤ a) : balance_sub a b = .ok (a - b) :=
  if_pos h

theorem balance_sub_add_cancel {a b : Nat} : balance_sub (a + b) b = .ok a := by
  rw [balance_sub, if_pos (Nat.le_add_left b a)]
  simp

theorem balance_add_sub_cancel {a b : Nat} (h : b ≤ a) (h2 : a ≤ coinMax) :
    balance_add (a - b) b = .ok a := by
  rw [balance_add, Nat.sub_add_cancel h, if_pos h2]

namespace AMap

theorem get_of_mem {β : Type} {m : List (Nat × β)} {a : Nat} {v : β}
    (hc : canonical m) (h : (a, v) ∈ m) : get m a = some v := by
  induction m with
  | nil => simp at h
  | cons p ps ih =>
    rw [canonical_cons] at hc
    rcases List.mem_cons.1 h with h' | h'
    · rw [← h']
      simp [get]
    · have := hc.1 _ h'
      have hne : p.1 ≠ a := by simp at this; omega
      simp only [get, if_neg hne]
      exact ih hc.2 h'

end AMap

/-- In a well-formed state, every element of the sorted set is stored in the
address map under its own staker address. -/
theorem wf_mem_addr {s : StakingContract} (hwf : wf s) {y : ActiveStake}
    (hy : y ∈ s.active_stake_sorted) :
    (y.staker_address, y) ∈ s.active_stake_by_address := by
  obtain ⟨hca, hci, hcc, hcp, hsrt, hperm, hact, hinact, hbal⟩ := hwf
  have hy' : y ∈ s.active_stake_by_address.map Prod.snd := hperm.mem_iff.1 hy
  rcases List.mem_map.1 hy' with ⟨p, hp, hpy⟩
  have ha := (hact p hp).1
  subst hpy
  rw [ha]
  exact hp

/-- In a well-formed state, a sorted-set element whose address carries a map
entry equals that entry. -/
theorem wf_sorted_eq_of_addr {s : StakingContract} (hwf : wf s) {y e : ActiveStake} {a : Nat}
    (hy : y ∈ s.active_stake_sorted) (hya : y.staker_address = a)
    (hget : AMap.get s.active_stake_by_address a = some e) : y = e := by
  have hmem := wf_mem_addr hwf hy
  rw [hya] at hmem
  have := AMap.get_of_mem hwf.1 hmem
  rw [hget] at this
  exact (Option.some.inj this).symm

/-- In a well-formed state, no sorted-set element has an address missing from
the address map. -/
theorem wf_sorted_addr_mem {s : StakingContract} (hwf : wf s) {y : ActiveStake}
    (hy : y ∈ s.active_stake_sorted) :
    AMap.get s.active_stake_by_address y.staker_address = some y :=
  AMap.get_of_mem hwf.1 (wf_mem_addr hwf hy)

theorem ordEqB_addr {y x : ActiveStake} (h : ActiveStake.ordEqB y x = true) :
    y.staker_address = x.staker_address :=
  (BTSet.ordEqB_iff.1 h).2

/-- If the address `a` is absent from the map of a well-formed state, then no
sorted-set element is `Ord`-equal to a stake with address `a`. -/
theorem wf_no_ordEq_of_get_none {s : StakingContract} (hwf : wf s) {x : ActiveStake} {a : Nat}
    (hx : x.staker_address = a) (hget : AMap.get s.active_stake_by_address a = none) :
    ∀ y ∈ s.active_stake_sorted, ActiveStake.ordEqB y x = false := by
  intro y hy
  cases he : ActiveStake.ordEqB y x
  · rfl
  · exfalso
    have hya : y.staker_address = a := (ordEqB_addr he).trans hx
    have := wf_sorted_addr_mem hwf hy
    rw [hya, hget] at this
    cases this

/-- The map entry of a well-formed state is in the sorted set. -/
theorem wf_entry_mem_sorted {s : StakingContract} (hwf : wf s) {e : ActiveStake} {a : Nat}
    (hget : AMap.get s.active_stake_by_address a = some e) : e ∈ s.active_stake_sorted := by
  have hmem := AMap.get_mem hget
  have : e ∈ s.active_stake_by_address.map Prod.snd :=
    List.mem_map.2 ⟨(a, e), hmem, rfl⟩
  exact hwf.2.2.2.2.2.1.mem_iff.2 this

theorem wf_entry_addr {s : StakingContract} (hwf : wf s) {e : ActiveStake} {a : Nat}
    (hget : AMap.get s.active_stake_by_address a = some e) : e.staker_address = a :=
  (hwf.2.2.2.2.2.2.1 _ (AMap.get_mem hget)).1

theorem wf_entry_pos {s : StakingContract} (hwf : wf s) {e : ActiveStake} {a : Nat}
    (hget : AMap.get s.active_stake_by_address a = some e) : 0 < e.balance :=
  (hwf.2.2.2.2.2.2.1 _ (AMap.get_mem hget)).2.1

theorem wf_entry_le {s : StakingContract} (hwf : wf s) {e : ActiveStake} {a : Nat}
    (hget : AMap.get s.active_stake_by_address a = some e) : e.balance ≤ coinMax :=
  (hwf.2.2.2.2.2.2.1 _ (AMap.get_mem hget)).2.2

theorem wf_inactive_pos {s : StakingContract} (hwf : wf s) {e : InactiveStake} {a : Nat}
    (hget : AMap.get s.inactive_stake_by_address a = some e) : 0 < e.balance :=
  (hwf.2.2.2.2.2.2.2.1 _ (AMap.get_mem hget)).1

theorem wf_inactive_le {s : StakingContract} (hwf : wf s) {e : InactiveStake} {a : Nat}
    (hget : AMap.get s.inactive_stake_by_address a = some e) : e.balance ≤ coinMax :=
  (hwf.2.2.2.2.2.2.2.1 _ (AMap.get_mem hget)).2

/-- Reverting a committed `stake` restores the state exactly. -/
theorem stake_commit_revert {s s' : StakingContract} {a v k : Nat} {r : Option Nat}
    {rc : Option ActiveStakeReceipt} (hwf : wf s)
    (hc : s.stake a v k r = (s', .ok rc)) :
    s'.revert_stake a v rc = (s, .ok ()) := by
  by_cases hb : s.balance + v ≤ coinMax
  case neg =>
    rw [StakingContract.stake, balance_add, if_neg hb] at hc
    simp at hc
  rw [StakingContract.stake, balance_add, if_pos hb] at hc
  cases hget : AMap.get s.active_stake_by_address a with
  | some old =>
    simp only [hget] at hc
    by_cases hob : old.balance + v ≤ coinMax
    case neg =>
      rw [balance_add, if_neg hob] at hc
      simp at hc
    rw [balance_add, if_pos hob] at hc
    simp only [Prod.mk.injEq, Except.ok.injEq] at hc
    obtain ⟨hs', hrc⟩ := hc
    subst hs'
    subst hrc
    have hpos : 0 < old.balance := wf_entry_pos hwf hget
    have haddr : old.staker_address = a := wf_entry_addr hwf hget
    have hmemS : old ∈ s.active_stake_sorted := wf_entry_mem_sorted hwf hget
    have hlt : v < old.balance + v := by omega
    rw [StakingContract.revert_stake]
    simp only [balance_sub_add_cancel, AMap.get_insertA_self, hlt, if_true]
    have hrem :
        BTSet.removeB
            (BTSet.insertB (BTSet.removeB s.active_stake_sorted old)
              ⟨old.staker_address, old.balance + v, k, r⟩)
            ⟨old.staker_address, old.balance + v, k, r⟩ =
          BTSet.removeB s.active_stake_sorted old := by
      apply BTSet.removeB_insertB
      intro y hy
      cases he : ActiveStake.ordEqB y ⟨old.staker_address, old.balance + v, k, r⟩
      · rfl
      · exfalso
        have hyS : y ∈ s.active_stake_sorted := BTSet.mem_removeB hy
        have hye : y = old := wf_sorted_eq_of_addr hwf hyS ((ordEqB_addr he).trans haddr) hget
        have hflt : (!ActiveStake.ordEqB y old) = true := (List.mem_filter.1 hy).2
        rw [hye, BTSet.ordEqB_self] at hflt
        cases hflt
    have hins : BTSet.insertB (BTSet.removeB s.active_stake_sorted old) old =
        s.active_stake_sorted := by
      apply BTSet.insertB_removeB hwf.2.2.2.2.1 hmemS
      intro y hy he
      exact wf_sorted_eq_of_addr hwf hy ((ordEqB_addr he).trans haddr) hget
    have heta : (⟨old.staker_address, old.balance, old.validator_key, old.reward_address⟩ :
        ActiveStake) = old := rfl
    simp only [hrem, heta, hins, AMap.insertA_insertA, AMap.insertA_removeA hwf.1 hget]
  | none =>
    simp only [hget, Prod.mk.injEq, Except.ok.injEq] at hc
    obtain ⟨hs', hrc⟩ := hc
    subst hs'
    subst hrc
    have hnlt : ¬ v < v := by omega
    have hremS : BTSet.removeB (BTSet.insertB s.active_stake_sorted ⟨a, v, k, r⟩)
        ⟨a, v, k, r⟩ = s.active_stake_sorted :=
      BTSet.removeB_insertB (@wf_no_ordEq_of_get_none s hwf ⟨a, v, k, r⟩ a rfl hget)
    have hremA : AMap.removeA (AMap.insertA s.active_stake_by_address a ⟨a, v, k, r⟩) a =
        s.active_stake_by_address := by
      rw [AMap.removeA_insertA, AMap.removeA_eq_self hget]
    rw [StakingContract.revert_stake]
    simp only [balance_sub_add_cancel, AMap.get_insertA_self, hnlt, if_false]
    simp [hremS, hremA]

theorem AMap.removeA_removeA {β : Type} {m : List (Nat × β)} {a : Nat} :
    AMap.removeA (AMap.removeA m a) a = AMap.removeA m a :=
  AMap.removeA_eq_self AMap.get_removeA_self

theorem ASet.mem_insertS_self {l : List Nat} {a : Nat} : a ∈ (ASet.insertS l a).2 := by
  induction l with
  | nil => simp [ASet.insertS]
  | cons x xs ih =>
    simp only [ASet.insertS]
    split
    · simp
    · split
      · rename_i h1 h2
        simp [h2]
      · simp only [List.mem_cons]
        exact Or.inr ih

/-- Reverting a committed `retire_recipient` restores the state exactly. -/
theorem retire_recipient_commit_revert {s s' : StakingContract} {a v h : Nat}
    {rc : Option InactiveStakeReceipt} (hwf : wf s)
    (hc : s.retire_recipient a v h = (s', .ok rc)) :
    s'.revert_retire_recipient a v rc = (s, .ok ()) := by
  by_cases hb : s.balance + v ≤ coinMax
  case neg =>
    rw [StakingContract.retire_recipient, balance_add, if_neg hb] at hc
    simp at hc
  rw [StakingContract.retire_recipient, balance_add, if_pos hb] at hc
  cases hget : AMap.get s.inactive_stake_by_address a with
  | some old =>
    simp only [hget] at hc
    by_cases hob : old.balance + v ≤ coinMax
    case neg =>
      rw [balance_add, if_neg hob] at hc
      simp at hc
    rw [balance_add, if_pos hob] at hc
    simp only [Prod.mk.injEq, Except.ok.injEq] at hc
    obtain ⟨hs', hrc⟩ := hc
    subst hs'
    subst hrc
    have hpos : 0 < old.balance := wf_inactive_pos hwf hget
    have hlt : v < old.balance + v := by omega
    have heta : (⟨old.balance, old.retire_time⟩ : InactiveStake) = old := rfl
    rw [StakingContract.revert_retire_recipient]
    simp only [balance_sub_add_cancel, AMap.get_insertA_self, hlt, if_true,
      AMap.removeA_insertA, AMap.removeA_removeA, heta,
      AMap.insertA_removeA hwf.2.1 hget]
  | none =>
    simp only [hget, Prod.mk.injEq, Except.ok.injEq] at hc
    obtain ⟨hs', hrc⟩ := hc
    subst hs'
    subst hrc
    have hnlt : ¬ v < v := by omega
    have hrem : AMap.removeA (AMap.insertA s.inactive_stake_by_address a ⟨v, h⟩) a =
        s.inactive_stake_by_address := by
      rw [AMap.removeA_insertA, AMap.removeA_eq_self hget]
    rw [StakingContract.revert_retire_recipient]
    simp only [balance_sub_add_cancel, AMap.get_insertA_self, hnlt, if_false]
    simp [hrem]

/-- Reverting a committed `unpark_recipient` restores the state exactly. -/
theorem unpark_recipient_commit_revert {s s' : StakingContract} {a v : Nat}
    {rc : UnparkReceipt} (hwf : wf s)
    (hc : s.unpark_recipient a v = (s', .ok rc)) :
    s'.revert_unpark_recipient a v rc = (s, .ok ()) := by
  by_cases hb : s.balance + v ≤ coinMax
  case neg =>
    rw [StakingContract.unpark_recipient, balance_add, if_neg hb] at hc
    simp at hc
  rw [StakingContract.unpark_recipient, balance_add, if_pos hb] at hc
  simp only [ASet.removeS_fst] at hc
  by_cases hcur : s.current_epoch_parking.contains a
  · by_cases hprev : s.previous_epoch_parking.contains a
    · simp only [hcur, hprev, Bool.not_true, Bool.false_and, Bool.false_eq_true, if_false,
        Prod.mk.injEq, Except.ok.injEq] at hc
      obtain ⟨hs', hrc⟩ := hc
      subst hs'
      subst hrc
      rw [StakingContract.revert_unpark_recipient]
      simp only [balance_sub_add_cancel, if_true,
        ASet.insertS_removeS hwf.2.2.1 (ASet.contains_iff.1 hcur),
        ASet.insertS_removeS hwf.2.2.2.1 (ASet.contains_iff.1 hprev)]
    · simp only [hcur, hprev, Bool.not_true, Bool.not_false, Bool.false_and,
        Bool.false_eq_true, if_false, Prod.mk.injEq, Except.ok.injEq] at hc
      obtain ⟨hs', hrc⟩ := hc
      subst hs'
      subst hrc
      have hp : a ∉ s.previous_epoch_parking := fun hm => by
        rw [ASet.contains_iff.2 hm] at hprev
        exact hprev rfl
      rw [StakingContract.revert_unpark_recipient]
      simp only [balance_sub_add_cancel, if_true, Bool.false_eq_true, if_false,
        ASet.removeS_eq_self hp,
        ASet.insertS_removeS hwf.2.2.1 (ASet.contains_iff.1 hcur)]
  · by_cases hprev : s.previous_epoch_parking.contains a
    · simp only [hcur, hprev, Bool.not_true, Bool.not_false, Bool.true_and,
        Bool.and_false, Bool.false_eq_true, if_false, Prod.mk.injEq, Except.ok.injEq] at hc
      obtain ⟨hs', hrc⟩ := hc
      subst hs'
      subst hrc
      have hcnot : a ∉ s.current_epoch_parking := fun hm => by
        rw [ASet.contains_iff.2 hm] at hcur
        exact hcur rfl
      rw [StakingContract.revert_unpark_recipient]
      simp only [balance_sub_add_cancel, if_true, Bool.false_eq_true, if_false,
        ASet.removeS_eq_self hcnot,
        ASet.insertS_removeS hwf.2.2.2.1 (ASet.contains_iff.1 hprev)]
    · have hc1 : a ∉ s.current_epoch_parking := fun hm => hcur (ASet.contains_iff.2 hm)
      have hp1 : a ∉ s.previous_epoch_parking := fun hm => hprev (ASet.contains_iff.2 hm)
      simp [hcur, hprev, hc1, hp1] at hc

/-- Reverting a committed `unstake` restores the state exactly. -/
theorem unstake_commit_revert {s s' : StakingContract} {a tv : Nat}
    {rc : Option InactiveStakeReceipt} (hwf : wf s)
    (hc : s.unstake a tv = (s', .ok rc)) :
    s'.revert_unstake a tv rc = (s, .ok ()) := by
  have hbal : s.balance ≤ coinMax := hwf.2.2.2.2.2.2.2.2
  by_cases hb : tv ≤ s.balance
  case neg =>
    rw [StakingContract.unstake, balance_sub, if_neg hb] at hc
    simp at hc
  rw [StakingContract.unstake, balance_sub, if_pos hb] at hc
  cases hget : AMap.get s.inactive_stake_by_address a with
  | none => simp [hget] at hc
  | some old =>
    simp only [hget] at hc
    have hoble : old.balance ≤ coinMax := wf_inactive_le hwf hget
    by_cases hlt : tv < old.balance
    · have hle : tv ≤ old.balance := Nat.le_of_lt hlt
      rw [balance_sub, if_pos hle] at hc
      simp only [hlt, if_true, Prod.mk.injEq, Except.ok.injEq] at hc
      obtain ⟨hs', hrc⟩ := hc
      subst hs'
      subst hrc
      rw [StakingContract.revert_unstake, balance_add_sub_cancel hb hbal]
      simp only [AMap.get_insertA_self, Option.isSome_none, Bool.false_eq_true, if_false]
      rw [balance_add_sub_cancel hle hoble]
      have heta : (⟨old.balance, old.retire_time⟩ : InactiveStake) = old := rfl
      simp only [AMap.removeA_insertA, AMap.removeA_removeA, heta,
        AMap.insertA_removeA hwf.2.1 hget]
    · rw [if_neg hlt] at hc
      by_cases heq : old.balance = tv
      · rw [if_pos heq] at hc
        simp only [Prod.mk.injEq, Except.ok.injEq] at hc
        obtain ⟨hs', hrc⟩ := hc
        subst hs'
        subst hrc
        rw [StakingContract.revert_unstake, balance_add_sub_cancel hb hbal]
        simp only [AMap.get_removeA_self]
        have heta : (⟨tv, old.retire_time⟩ : InactiveStake) = old := by
          rw [← heq]
        simp only [heta, AMap.insertA_removeA hwf.2.1 hget]
      · rw [if_neg heq] at hc
        simp at hc

/-- Reverting a committed `retire_sender` restores the state exactly. -/
theorem retire_sender_commit_revert {s s' : StakingContract} {a tv h : Nat}
    {rc : Option ActiveStakeReceipt} (hwf : wf s)
    (hc : s.retire_sender a tv h = (s', .ok rc)) :
    s'.revert_retire_sender a tv rc = (s, .ok ()) := by
  have hbal : s.balance ≤ coinMax := hwf.2.2.2.2.2.2.2.2
  by_cases hb : tv ≤ s.balance
  case neg =>
    rw [StakingContract.retire_sender, balance_sub, if_neg hb] at hc
    simp at hc
  rw [StakingContract.retire_sender, balance_sub, if_pos hb] at hc
  cases hget : AMap.get s.active_stake_by_address a with
  | none => simp [hget] at hc
  | some old =>
    simp only [hget] at hc
    have haddr : old.staker_address = a := wf_entry_addr hwf hget
    have hoble : old.balance ≤ coinMax := wf_entry_le hwf hget
    have hmemS : old ∈ s.active_stake_sorted := wf_entry_mem_sorted hwf hget
    have hins : BTSet.insertB (BTSet.removeB s.active_stake_sorted old) old =
        s.active_stake_sorted := by
      apply BTSet.insertB_removeB hwf.2.2.2.2.1 hmemS
      intro y hy he
      exact wf_sorted_eq_of_addr hwf hy ((ordEqB_addr he).trans haddr) hget
    by_cases hlt : tv < old.balance
    · have hle : tv ≤ old.balance := Nat.le_of_lt hlt
      rw [balance_sub, if_pos hle] at hc
      simp only [hlt, if_true, Prod.mk.injEq, Except.ok.injEq] at hc
      obtain ⟨hs', hrc⟩ := hc
      subst hs'
      subst hrc
      rw [StakingContract.revert_retire_sender, balance_add_sub_cancel hb hbal]
      simp only [AMap.get_insertA_self, Option.isSome_none, Bool.false_eq_true, if_false]
      rw [balance_add_sub_cancel hle hoble]
      have heta : (⟨a, old.balance, old.validator_key, old.reward_address⟩ : ActiveStake) =
          old := by
        rw [← haddr]
      have hrem : BTSet.removeB (BTSet.insertB (BTSet.removeB s.active_stake_sorted old)
          ⟨a, old.balance - tv, old.validator_key, old.reward_address⟩)
          ⟨a, old.balance - tv, old.validator_key, old.reward_address⟩ =
          BTSet.removeB s.active_stake_sorted old := by
        apply BTSet.removeB_insertB
        intro y hy
        cases he : ActiveStake.ordEqB y ⟨a, old.balance - tv, old.validator_key,
            old.reward_address⟩
        · rfl
        · exfalso
          have hyS : y ∈ s.active_stake_sorted := BTSet.mem_removeB hy
          have hye : y = old := wf_sorted_eq_of_addr hwf hyS (ordEqB_addr he) hget
          have hflt : (!ActiveStake.ordEqB y old) = true := (List.mem_filter.1 hy).2
          rw [hye, BTSet.ordEqB_self] at hflt
          cases hflt
      simp only [hrem, heta, hins, AMap.removeA_insertA, AMap.removeA_removeA,
        AMap.insertA_removeA hwf.1 hget]
    · rw [if_neg hlt] at hc
      by_cases heq : old.balance = tv
      · rw [if_pos heq] at hc
        simp only [Prod.mk.injEq, Except.ok.injEq] at hc
        obtain ⟨hs', hrc⟩ := hc
        subst hs'
        subst hrc
        rw [StakingContract.revert_retire_sender, balance_add_sub_cancel hb hbal]
        simp only [AMap.get_removeA_self]
        have heta : (⟨a, tv, old.validator_key, old.reward_address⟩ : ActiveStake) = old := by
          rw [← heq, ← haddr]
        simp only [heta, hins, AMap.insertA_removeA hwf.1 hget]
      · rw [if_neg heq] at hc
        simp at hc

/-- Reverting a committed `unpark_sender` restores the state exactly. -/
theorem unpark_sender_commit_revert {s s' : StakingContract} {a tv fee : Nat} (hwf : wf s)
    (hc : s.unpark_sender a tv fee = (s', .ok ())) :
    s'.revert_unpark_sender a tv fee = (s, .ok ()) := by
  have hbal : s.balance ≤ coinMax := hwf.2.2.2.2.2.2.2.2
  by_cases hb : tv ≤ s.balance
  case neg =>
    rw [StakingContract.unpark_sender, balance_sub, if_neg hb] at hc
    simp at hc
  rw [StakingContract.unpark_sender, balance_sub, if_pos hb] at hc
  cases hget : AMap.get s.active_stake_by_address a with
  | none => simp [hget] at hc
  | some old =>
    simp only [hget] at hc
    have haddr : old.staker_address = a := wf_entry_addr hwf hget
    have hoble : old.balance ≤ coinMax := wf_entry_le hwf hget
    have hmemS : old ∈ s.active_stake_sorted := wf_entry_mem_sorted hwf hget
    by_cases heq : old.balance = tv
    case neg =>
      rw [if_pos heq] at hc
      simp at hc
    rw [if_neg (not_not_intro heq)] at hc
    by_cases hf : fee ≤ old.balance
    case neg =>
      rw [balance_sub, if_neg hf] at hc
      simp at hc
    rw [balance_sub, if_pos hf] at hc
    simp only [ActiveStake.with_balance, Prod.mk.injEq, Except.ok.injEq] at hc
    obtain ⟨hs', _⟩ := hc
    subst hs'
    rw [StakingContract.revert_unpark_sender, balance_add_sub_cancel hb hbal]
    simp only [AMap.get_insertA_self]
    have hf' : fee ≤ tv := heq ▸ hf
    have hoble' : tv ≤ coinMax := heq ▸ hoble
    have hrem : BTSet.removeB (BTSet.insertB (BTSet.removeB s.active_stake_sorted old)
        ⟨old.staker_address, tv - fee, old.validator_key, old.reward_address⟩)
        ⟨old.staker_address, tv - fee, old.validator_key, old.reward_address⟩ =
        BTSet.removeB s.active_stake_sorted old := by
      apply BTSet.removeB_insertB
      intro y hy
      cases he : ActiveStake.ordEqB y ⟨old.staker_address, tv - fee,
          old.validator_key, old.reward_address⟩
      · rfl
      · exfalso
        have hyS : y ∈ s.active_stake_sorted := BTSet.mem_removeB hy
        have hye : y = old :=
          wf_sorted_eq_of_addr hwf hyS ((ordEqB_addr he).trans haddr) hget
        have hflt : (!ActiveStake.ordEqB y old) = true := (List.mem_filter.1 hy).2
        rw [hye, BTSet.ordEqB_self] at hflt
        cases hflt
    have hins : BTSet.insertB (BTSet.removeB s.active_stake_sorted old) old =
        s.active_stake_sorted := by
      apply BTSet.insertB_removeB hwf.2.2.2.2.1 hmemS
      intro y hy he
      exact wf_sorted_eq_of_addr hwf hy ((ordEqB_addr he).trans haddr) hget
    have heta : (⟨old.staker_address, tv, old.validator_key, old.reward_address⟩ :
        ActiveStake) = old := by
      rw [← heq]
    simp [ActiveStake.with_balance, balance_add_sub_cancel hf' hoble', heq, hrem, heta,
      hins, AMap.removeA_insertA, AMap.removeA_removeA, AMap.insertA_removeA hwf.1 hget]

/-- Reverting a committed Slash inherent restores the state exactly. -/
theorem slash_commit_revert {s s' : StakingContract} {i : Inherent} {h : Nat}
    {rc : Option Receipt} (hwf : wf s) (hty : i.ty = .slash)
    (hc : s.commit_inherent i h = (s', .ok rc)) :
    s'.revert_inherent i h rc = (s, .ok ()) := by
  rw [StakingContract.commit_inherent, StakingContract.check_inherent] at hc
  by_cases hv : i.value ≠ 0
  · rw [if_pos hv] at hc
    simp at hc
  rw [if_neg hv] at hc
  simp only [hty] at hc
  cases hd : i.data with
  | empty => simp [hd] at hc
  | malformed => simp [hd] at hc
  | addr A =>
    simp only [hd] at hc
    by_cases hex : AMap.get s.active_stake_by_address A = none ∧
        AMap.get s.inactive_stake_by_address A = none
    · by_cases hb : (!(AMap.get s.active_stake_by_address A).isSome &&
          !(AMap.get s.inactive_stake_by_address A).isSome) = true
      · rw [if_pos hb] at hc
        simp at hc
      · exfalso
        apply hb
        simp [hex.1, hex.2]
    · have hb : ¬ ((!(AMap.get s.active_stake_by_address A).isSome &&
          !(AMap.get s.inactive_stake_by_address A).isSome) = true) := by
        intro hcon
        rw [Bool.and_eq_true, Bool.not_eq_true', Bool.not_eq_true'] at hcon
        refine hex ⟨?_, ?_⟩
        · exact Option.not_isSome_iff_eq_none.1 (by simp [hcon.1])
        · exact Option.not_isSome_iff_eq_none.1 (by simp [hcon.2])
      rw [if_neg hb] at hc
      simp only [Prod.mk.injEq, Except.ok.injEq] at hc
      obtain ⟨hs', hrc⟩ := hc
      subst hs'
      subst hrc
      rw [StakingContract.revert_inherent]
      simp only [hty, hd]
      by_cases hmem : A ∈ s.current_epoch_parking
      · simp only [ASet.insertS_fst_of_mem hwf.2.2.1 hmem,
          ASet.insertS_snd_of_mem hwf.2.2.1 hmem, Bool.false_eq_true, if_false]
      · have h1 : (ASet.insertS s.current_epoch_parking A).1 = true :=
          ASet.insertS_fst_of_not_mem hmem
        have h2 : (ASet.removeS (ASet.insertS s.current_epoch_parking A).2 A).1 = true := by
          rw [ASet.removeS_fst]
          exact ASet.contains_iff.2 ASet.mem_insertS_self
        have h3 : (ASet.removeS (ASet.insertS s.current_epoch_parking A).2 A).2 =
            s.current_epoch_parking := ASet.removeS_insertS hmem
        simp only [h1, if_true, h2, h3, Bool.not_true, Bool.false_eq_true, if_false]

/-- The amended revert-of-commit law: on a well-formed state, every
successfully committed operation other than the FinalizeEpoch inherent is
inverted exactly by its revert with the receipt the commit produced. -/
theorem commit_revert_roundtrip {s s' : StakingContract} {op : Op} {h : Nat}
    {rc : Option Receipt} (hwf : wf s) (hnf : op.isFinalizeEpoch = false)
    (hc : commitOp s op h = (s', .ok rc)) :
    revertOp s' op h rc = (s, .ok ()) := by
  cases op with
  | incoming tx =>
    rw [commitOp, StakingContract.commit_incoming_transaction] at hc
    by_cases hsr : tx.sender ≠ tx.recipient
    · rw [if_pos hsr] at hc
      cases hdata : tx.data with
      | selfData ty => simp [hdata, StakingTransactionData.parse] at hc
      | malformed => simp [hdata, StakingTransactionData.parse] at hc
      | stakeData k r =>
        simp only [hdata, StakingTransactionData.parse] at hc
        cases hst : s.stake tx.sender tx.value k r with
        | mk s₁ res =>
          simp only [hst] at hc
          cases res with
          | error e => simp at hc
          | ok r₀ =>
            simp only [Prod.mk.injEq, Except.ok.injEq] at hc
            obtain ⟨hs', hrc⟩ := hc
            subst hs'
            subst hrc
            rw [revertOp, StakingContract.revert_incoming_transaction.eq_def, if_pos hsr]
            cases r₀ with
            | none => exact stake_commit_revert hwf hst
            | some ar => exact stake_commit_revert hwf hst
    · rw [if_neg hsr] at hc
      cases hdata : tx.data with
      | stakeData k r => simp [hdata, parseSelfType] at hc
      | malformed => simp [hdata, parseSelfType] at hc
      | selfData ty =>
        simp only [hdata, parseSelfType, StakingContract.get_signer] at hc
        cases ty with
        | retire =>
          cases hst : s.retire_recipient tx.signer tx.value h with
          | mk s₁ res =>
            simp only [hst] at hc
            cases res with
            | error e => simp at hc
            | ok r₀ =>
              simp only [Prod.mk.injEq, Except.ok.injEq] at hc
              obtain ⟨hs', hrc⟩ := hc
              subst hs'
              subst hrc
              rw [revertOp, StakingContract.revert_incoming_transaction.eq_def, if_neg hsr]
              simp only [hdata, parseSelfType, StakingContract.get_signer]
              cases r₀ with
              | none => exact retire_recipient_commit_revert hwf hst
              | some ir => exact retire_recipient_commit_revert hwf hst
        | unpark =>
          cases hst : s.unpark_recipient tx.signer tx.value with
          | mk s₁ res =>
            simp only [hst] at hc
            cases res with
            | error e => simp at hc
            | ok r₀ =>
              simp only [Prod.mk.injEq, Except.ok.injEq] at hc
              obtain ⟨hs', hrc⟩ := hc
              subst hs'
              subst hrc
              rw [revertOp, StakingContract.revert_incoming_transaction.eq_def, if_neg hsr]
              simp only [hdata, parseSelfType, StakingContract.get_signer]
              exact unpark_recipient_commit_revert hwf hst
  | outgoing tx =>
    rw [commitOp, StakingContract.commit_outgoing_transaction] at hc
    cases hchk : s.check_outgoing_transaction tx h with
    | error e =>
      rw [hchk] at hc
      simp at hc
    | ok u =>
      cases u
      rw [hchk] at hc
      simp only [StakingContract.get_signer] at hc
      by_cases hsr : tx.sender ≠ tx.recipient
      · rw [if_pos hsr] at hc
        cases htv : tx.total_value with
        | error e => simp [htv] at hc
        | ok tv =>
          simp only [htv] at hc
          cases hst : s.unstake tx.signer tv with
          | mk s₁ res =>
            simp only [hst] at hc
            cases res with
            | error e => simp at hc
            | ok r₀ =>
              simp only [Prod.mk.injEq, Except.ok.injEq] at hc
              obtain ⟨hs', hrc⟩ := hc
              subst hs'
              subst hrc
              rw [revertOp, StakingContract.revert_outgoing_transaction]
              simp only [StakingContract.get_signer]
              rw [if_pos hsr]
              simp only [htv]
              cases r₀ with
              | none => exact unstake_commit_revert hwf hst
              | some ir => exact unstake_commit_revert hwf hst
      · rw [if_neg hsr] at hc
        cases hdata : tx.data with
        | stakeData k r => simp [hdata, parseSelfType] at hc
        | malformed => simp [hdata, parseSelfType] at hc
        | selfData ty =>
          simp only [hdata, parseSelfType] at hc
          cases ty with
          | retire =>
            cases htv : tx.total_value with
            | error e => simp [htv] at hc
            | ok tv =>
              simp only [htv] at hc
              cases hst : s.retire_sender tx.signer tv h with
              | mk s₁ res =>
                simp only [hst] at hc
                cases res with
                | error e => simp at hc
                | ok r₀ =>
                  simp only [Prod.mk.injEq, Except.ok.injEq] at hc
                  obtain ⟨hs', hrc⟩ := hc
                  subst hs'
                  subst hrc
                  rw [revertOp, StakingContract.revert_outgoing_transaction]
                  simp only [StakingContract.get_signer]
                  rw [if_neg hsr]
                  simp only [hdata, parseSelfType, htv]
                  cases r₀ with
                  | none => exact retire_sender_commit_revert hwf hst
                  | some ar => exact retire_sender_commit_revert hwf hst
          | unpark =>
            cases htv : tx.total_value with
            | error e => simp [htv] at hc
            | ok tv =>
              simp only [htv] at hc
              cases hst : s.unpark_sender tx.signer tv tx.fee with
              | mk s₁ res =>
                simp only [hst] at hc
                cases res with
                | error e => simp at hc
                | ok u₀ =>
                  cases u₀
                  simp only [Prod.mk.injEq, Except.ok.injEq] at hc
                  obtain ⟨hs', hrc⟩ := hc
                  subst hs'
                  subst hrc
                  rw [revertOp, StakingContract.revert_outgoing_transaction]
                  simp only [StakingContract.get_signer]
                  rw [if_neg hsr]
                  simp only [hdata, parseSelfType, htv]
                  exact unpark_sender_commit_revert hwf hst
  | inh i =>
    cases hity : i.ty with
    | slash => exact slash_commit_revert hwf hity hc
    | finalizeEpoch =>
      rw [Op.isFinalizeEpoch, hity] at hnf
      simp at hnf
    | reward =>
      rw [commitOp, StakingContract.commit_inherent, StakingContract.check_inherent] at hc
      by_cases hv : i.value ≠ 0
      · rw [if_pos hv] at hc
        simp at hc
      · rw [if_neg hv] at hc
        simp [hity] at hc

theorem AMap.mem_removeA {β : Type} {m : List (Nat × β)} {a : Nat} {q : Nat × β}
    (h : q ∈ AMap.removeA m a) : q ∈ m :=
  List.mem_of_mem_filter h

theorem allPositive_def {s : StakingContract} :
    allPositive s ↔
      (∀ e ∈ s.active_stake_sorted, 0 < e.balance) ∧
        (∀ p ∈ s.active_stake_by_address, 0 < p.2.balance) ∧
        (∀ p ∈ s.inactive_stake_by_address, 0 < p.2.balance) :=
  Iff.rfl

/-- A committed `stake` of positive value keeps all stored balances positive. -/
theorem stake_pos {s s₁ : StakingContract} {a v k : Nat} {r : Option Nat}
    {rc : Option ActiveStakeReceipt} (hp : allPositive s) (hv : 0 < v)
    (hc : s.stake a v k r = (s₁, .ok rc)) : allPositive s₁ := by
  obtain ⟨hpS, hpA, hpI⟩ := hp
  by_cases hb : s.balance + v ≤ coinMax
  case neg =>
    rw [StakingContract.stake, balance_add, if_neg hb] at hc
    simp at hc
  rw [StakingContract.stake, balance_add, if_pos hb] at hc
  cases hget : AMap.get s.active_stake_by_address a with
  | some old =>
    simp only [hget] at hc
    by_cases hob : old.balance + v ≤ coinMax
    case neg =>
      rw [balance_add, if_neg hob] at hc
      simp at hc
    rw [balance_add, if_pos hob] at hc
    simp only [Prod.mk.injEq, Except.ok.injEq] at hc
    obtain ⟨hs', hrc⟩ := hc
    subst hs'
    refine ⟨?_, ?_, hpI⟩
    · intro e he
      rcases BTSet.mem_insertB he with he' | he'
      · subst he'
        simp
        omega
      · exact hpS e (BTSet.mem_removeB he')
    · intro p hpm
      rcases AMap.mem_insertA hpm with hp' | hp'
      · subst hp'
        simp
        omega
      · exact hpA p (AMap.mem_removeA hp')
  | none =>
    simp only [hget, Prod.mk.injEq, Except.ok.injEq] at hc
    obtain ⟨hs', hrc⟩ := hc
    subst hs'
    refine ⟨?_, ?_, hpI⟩
    · intro e he
      rcases BTSet.mem_insertB he with he' | he'
      · subst he'
        simpa using hv
      · exact hpS e he'
    · intro p hpm
      rcases AMap.mem_insertA hpm with hp' | hp'
      · subst hp'
        simpa using hv
      · exact hpA p hp'

/-- A committed `retire_recipient` of positive value keeps all stored
balances positive. -/
theorem retire_recipient_pos {s s₁ : StakingContract} {a v h : Nat}
    {rc : Option InactiveStakeReceipt} (hp : allPositive s) (hv : 0 < v)
    (hc : s.retire_recipient a v h = (s₁, .ok rc)) : allPositive s₁ := by
  obtain ⟨hpS, hpA, hpI⟩ := hp
  by_cases hb : s.balance + v ≤ coinMax
  case neg =>
    rw [StakingContract.retire_recipient, balance_add, if_neg hb] at hc
    simp at hc
  rw [StakingContract.retire_recipient, balance_add, if_pos hb] at hc
  cases hget : AMap.get s.inactive_stake_by_address a with
  | some old =>
    simp only [hget] at hc
    by_cases hob : old.balance + v ≤ coinMax
    case neg =>
      rw [balance_add, if_neg hob] at hc
      simp at hc
    rw [balance_add, if_pos hob] at hc
    simp only [Prod.mk.injEq, Except.ok.injEq] at hc
    obtain ⟨hs', hrc⟩ := hc
    subst hs'
    refine ⟨hpS, hpA, ?_⟩
    intro p hpm
    rcases AMap.mem_insertA hpm with hp' | hp'
    · subst hp'
      simp
      omega
    · exact hpI p (AMap.mem_removeA hp')
  | none =>
    simp only [hget, Prod.mk.injEq, Except.ok.injEq] at hc
    obtain ⟨hs', hrc⟩ := hc
    subst hs'
    refine ⟨hpS, hpA, ?_⟩
    intro p hpm
    rcases AMap.mem_insertA hpm with hp' | hp'
    · subst hp'
      simpa using hv
    · exact hpI p hp'

/-- `unpark_recipient` touches only the balance and the parking sets. -/
theorem unpark_recipient_pos {s s₁ : StakingContract} {a v : Nat} {rc : UnparkReceipt}
    (hp : allPositive s) (hc : s.unpark_recipient a v = (s₁, .ok rc)) : allPositive s₁ := by
  obtain ⟨hpS, hpA, hpI⟩ := hp
  by_cases hb : s.balance + v ≤ coinMax
  case neg =>
    rw [StakingContract.unpark_recipient, balance_add, if_neg hb] at hc
    simp at hc
  rw [StakingContract.unpark_recipient, balance_add, if_pos hb] at hc
  simp only [ASet.removeS_fst] at hc
  by_cases hcond : (!s.current_epoch_parking.contains a &&
      !s.previous_epoch_parking.contains a) = true
  · rw [if_pos hcond] at hc
    simp at hc
  · rw [if_neg hcond] at hc
    simp only [Prod.mk.injEq, Except.ok.injEq] at hc
    obtain ⟨hs', hrc⟩ := hc
    subst hs'
    exact ⟨hpS, hpA, hpI⟩

/-- A committed `unstake` keeps all stored balances positive. -/
theorem unstake_pos {s s₁ : StakingContract} {a tv : Nat}
    {rc : Option InactiveStakeReceipt} (hp : allPositive s)
    (hc : s.unstake a tv = (s₁, .ok rc)) : allPositive s₁ := by
  obtain ⟨hpS, hpA, hpI⟩ := hp
  by_cases hb : tv ≤ s.balance
  case neg =>
    rw [StakingContract.unstake, balance_sub, if_neg hb] at hc
    simp at hc
  rw [StakingContract.unstake, balance_sub, if_pos hb] at hc
  cases hget : AMap.get s.inactive_stake_by_address a with
  | none => simp [hget] at hc
  | some old =>
    simp only [hget] at hc
    by_cases hlt : tv < old.balance
    · have hle : tv ≤ old.balance := Nat.le_of_lt hlt
      rw [balance_sub, if_pos hle] at hc
      simp only [hlt, if_true, Prod.mk.injEq, Except.ok.injEq] at hc
      obtain ⟨hs', hrc⟩ := hc
      subst hs'
      refine ⟨hpS, hpA, ?_⟩
      intro p hpm
      rcases AMap.mem_insertA hpm with hp' | hp'
      · subst hp'
        simp
        omega
      · exact hpI p (AMap.mem_removeA hp')
    · rw [if_neg hlt] at hc
      by_cases heq : old.balance = tv
      · rw [if_pos heq] at hc
        simp only [Prod.mk.injEq, Except.ok.injEq] at hc
        obtain ⟨hs', hrc⟩ := hc
        subst hs'
        refine ⟨hpS, hpA, ?_⟩
        intro p hpm
        exact hpI p (AMap.mem_removeA hpm)
      · rw [if_neg heq] at hc
        simp at hc

/-- A committed `retire_sender` keeps all stored balances positive. -/
theorem retire_sender_pos {s s₁ : StakingContract} {a tv h : Nat}
    {rc : Option ActiveStakeReceipt} (hp : allPositive s)
    (hc : s.retire_sender a tv h = (s₁, .ok rc)) : allPositive s₁ := by
  obtain ⟨hpS, hpA, hpI⟩ := hp
  by_cases hb : tv ≤ s.balance
  case neg =>
    rw [StakingContract.retire_sender, balance_sub, if_neg hb] at hc
    simp at hc
  rw [StakingContract.retire_sender, balance_sub, if_pos hb] at hc
  cases hget : AMap.get s.active_stake_by_address a with
  | none => simp [hget] at hc
  | some old =>
    simp only [hget] at hc
    by_cases hlt : tv < old.balance
    · have hle : tv ≤ old.balance := Nat.le_of_lt hlt
      rw [balance_sub, if_pos hle] at hc
      simp only [hlt, if_true, Prod.mk.injEq, Except.ok.injEq] at hc
      obtain ⟨hs', hrc⟩ := hc
      subst hs'
      refine ⟨?_, ?_, hpI⟩
      · intro e he
        rcases BTSet.mem_insertB he with he' | he'
        · subst he'
          simp
          omega
        · exact hpS e (BTSet.mem_removeB he')
      · intro p hpm
        rcases AMap.mem_insertA hpm with hp' | hp'
        · subst hp'
          simp
          omega
        · exact hpA p (AMap.mem_removeA hp')
    · rw [if_neg hlt] at hc
      by_cases heq : old.balance = tv
      · rw [if_pos heq] at hc
        simp only [Prod.mk.injEq, Except.ok.injEq] at hc
        obtain ⟨hs', hrc⟩ := hc
        subst hs'
        refine ⟨?_, ?_, hpI⟩
        · intro e he
          exact hpS e (BTSet.mem_removeB he)
        · intro p hpm
          exact hpA p (AMap.mem_removeA hpm)
      · rw [if_neg heq] at hc
        simp at hc

/-- A committed `unpark_sender` whose fee is strictly below the routed total
keeps all stored balances positive. -/
theorem unpark_sender_pos {s s₁ : StakingContract} {a tv fee : Nat} (hp : allPositive s)
    (hf : fee < tv) (hc : s.unpark_sender a tv fee = (s₁, .ok ())) : allPositive s₁ := by
  obtain ⟨hpS, hpA, hpI⟩ := hp
  by_cases hb : tv ≤ s.balance
  case neg =>
    rw [StakingContract.unpark_sender, balance_sub, if_neg hb] at hc
    simp at hc
  rw [StakingContract.unpark_sender, balance_sub, if_pos hb] at hc
  cases hget : AMap.get s.active_stake_by_address a with
  | none => simp [hget] at hc
  | some old =>
    simp only [hget] at hc
    by_cases heq : old.balance = tv
    case neg =>
      rw [if_pos heq] at hc
      simp at hc
    rw [if_neg (not_not_intro heq)] at hc
    by_cases hfe : fee ≤ old.balance
    case neg =>
      rw [balance_sub, if_neg hfe] at hc
      simp at hc
    rw [balance_sub, if_pos hfe] at hc
    simp only [ActiveStake.with_balance, Prod.mk.injEq, Except.ok.injEq] at hc
    obtain ⟨hs', _⟩ := hc
    subst hs'
    refine ⟨?_, ?_, hpI⟩
    · intro e he
      rcases BTSet.mem_insertB he with he' | he'
      · subst he'
        simp
        omega
      · exact hpS e (BTSet.mem_removeB he')
    · intro p hpm
      rcases AMap.mem_insertA hpm with hp' | hp'
      · subst hp'
        simp
        omega
      · exact hpA p (AMap.mem_removeA hp')

theorem Transaction.total_value_ok {tx : Transaction} {tv : Nat}
    (h : tx.total_value = .ok tv) : tv = tx.value + tx.fee := by
  rw [Transaction.total_value, balance_add] at h
  by_cases hb : tx.value + tx.fee ≤ coinMax
  · rw [if_pos hb] at h
    exact (Except.ok.inj h).symm
  · rw [if_neg hb] at h
    cases h

/-- A successful `revert_stake` keeps all stored balances positive. -/
theorem revert_stake_pos {s s₁ : StakingContract} {a v : Nat}
    {rc : Option ActiveStakeReceipt} (hp : allPositive s)
    (hc : s.revert_stake a v rc = (s₁, .ok ())) : allPositive s₁ := by
  obtain ⟨hpS, hpA, hpI⟩ := hp
  by_cases hb : v ≤ s.balance
  case neg =>
    rw [StakingContract.revert_stake, balance_sub, if_neg hb] at hc
    simp at hc
  rw [StakingContract.revert_stake, balance_sub, if_pos hb] at hc
  cases hget : AMap.get s.active_stake_by_address a with
  | none => simp [hget] at hc
  | some e =>
    simp only [hget] at hc
    by_cases hlt : v < e.balance
    · rw [if_pos hlt] at hc
      cases rc with
      | none => simp at hc
      | some rcp =>
        have hle : v ≤ e.balance := Nat.le_of_lt hlt
        simp only [balance_sub, hle, if_true, Prod.mk.injEq, Except.ok.injEq] at hc
        obtain ⟨hs', _⟩ := hc
        subst hs'
        refine ⟨?_, ?_, hpI⟩
        · intro q hq
          rcases BTSet.mem_insertB hq with hq' | hq'
          · subst hq'
            simp
            omega
          · exact hpS q (BTSet.mem_removeB hq')
        · intro p hpm
          rcases AMap.mem_insertA hpm with hp' | hp'
          · subst hp'
            simp
            omega
          · exact hpA p hp'
    · rw [if_neg hlt] at hc
      by_cases heq : e.balance = v
      · rw [if_pos heq] at hc
        cases rc with
        | some rcp => simp at hc
        | none =>
          simp only [Option.isSome_none, Bool.false_eq_true, if_false, Prod.mk.injEq,
            Except.ok.injEq] at hc
          obtain ⟨hs', _⟩ := hc
          subst hs'
          refine ⟨?_, ?_, hpI⟩
          · intro q hq
            exact hpS q (BTSet.mem_removeB hq)
          · intro p hpm
            exact hpA p (AMap.mem_removeA hpm)
      · rw [if_neg heq] at hc
        simp at hc

/-- A successful `revert_retire_sender` with a positive total keeps all
stored balances positive. -/
theorem revert_retire_sender_pos {s s₁ : StakingContract} {a tv : Nat}
    {rc : Option ActiveStakeReceipt} (hp : allPositive s) (hv : 0 < tv)
    (hc : s.revert_retire_sender a tv rc = (s₁, .ok ())) : allPositive s₁ := by
  obtain ⟨hpS, hpA, hpI⟩ := hp
  by_cases hb : s.balance + tv ≤ coinMax
  case neg =>
    rw [StakingContract.revert_retire_sender, balance_add, if_neg hb] at hc
    simp at hc
  rw [StakingContract.revert_retire_sender, balance_add, if_pos hb] at hc
  cases hget : AMap.get s.active_stake_by_address a with
  | some e =>
    simp only [hget] at hc
    cases rc with
    | some rcp => simp at hc
    | none =>
      simp only [Option.isSome_none, Bool.false_eq_true, if_false] at hc
      by_cases hob : e.balance + tv ≤ coinMax
      case neg =>
        rw [balance_add, if_neg hob] at hc
        simp at hc
      rw [balance_add, if_pos hob] at hc
      simp only [Prod.mk.injEq, Except.ok.injEq] at hc
      obtain ⟨hs', _⟩ := hc
      subst hs'
      have hpe : 0 < e.balance := hpA _ (AMap.get_mem hget)
      refine ⟨?_, ?_, hpI⟩
      · intro q hq
        rcases BTSet.mem_insertB hq with hq' | hq'
        · subst hq'
          simp
          omega
        · exact hpS q (BTSet.mem_removeB hq')
      · intro p hpm
        rcases AMap.mem_insertA hpm with hp' | hp'
        · subst hp'
          simp
          omega
        · exact hpA p (AMap.mem_removeA hp')
  | none =>
    simp only [hget] at hc
    cases rc with
    | none => simp at hc
    | some rcp =>
      simp only [Prod.mk.injEq, Except.ok.injEq] at hc
      obtain ⟨hs', _⟩ := hc
      subst hs'
      refine ⟨?_, ?_, hpI⟩
      · intro q hq
        rcases BTSet.mem_insertB hq with hq' | hq'
        · subst hq'
          simpa using hv
        · exact hpS q hq'
      · intro p hpm
        rcases AMap.mem_insertA hpm with hp' | hp'
        · subst hp'
          simpa using hv
        · exact hpA p hp'

/-- A successful `revert_retire_recipient` keeps all stored balances
positive. -/
theorem revert_retire_recipient_pos {s s₁ : StakingContract} {a v : Nat}
    {rc : Option InactiveStakeReceipt} (hp : allPositive s)
    (hc : s.revert_retire_recipient a v rc = (s₁, .ok ())) : allPositive s₁ := by
  obtain ⟨hpS, hpA, hpI⟩ := hp
  by_cases hb : v ≤ s.balance
  case neg =>
    rw [StakingContract.revert_retire_recipient, balance_sub, if_neg hb] at hc
    simp at hc
  rw [StakingContract.revert_retire_recipient, balance_sub, if_pos hb] at hc
  cases hget : AMap.get s.inactive_stake_by_address a with
  | none => simp [hget] at hc
  | some e =>
    simp only [hget] at hc
    by_cases hlt : v < e.balance
    · rw [if_pos hlt] at hc
      cases rc with
      | none => simp at hc
      | some rcp =>
        have hle : v ≤ e.balance := Nat.le_of_lt hlt
        simp only [balance_sub, hle, if_true, Prod.mk.injEq, Except.ok.injEq] at hc
        obtain ⟨hs', _⟩ := hc
        subst hs'
        refine ⟨hpS, hpA, ?_⟩
        intro p hpm
        rcases AMap.mem_insertA hpm with hp' | hp'
        · subst hp'
          simp
          omega
        · exact hpI p (AMap.mem_removeA hp')
    · rw [if_neg hlt] at hc
      cases rc with
      | some rcp => simp at hc
      | none =>
        simp only [Option.isSome_none, Bool.false_eq_true, if_false, Prod.mk.injEq,
          Except.ok.injEq] at hc
        obtain ⟨hs', _⟩ := hc
        subst hs'
        refine ⟨hpS, hpA, ?_⟩
        intro p hpm
        exact hpI p (AMap.mem_removeA hpm)

/-- A successful `revert_unstake` with a positive total keeps all stored
balances positive. -/
theorem revert_unstake_pos {s s₁ : StakingContract} {a tv : Nat}
    {rc : Option InactiveStakeReceipt} (hp : allPositive s) (hv : 0 < tv)
    (hc : s.revert_unstake a tv rc = (s₁, .ok ())) : allPositive s₁ := by
  obtain ⟨hpS, hpA, hpI⟩ := hp
  by_cases hb : s.balance + tv ≤ coinMax
  case neg =>
    rw [StakingContract.revert_unstake, balance_add, if_neg hb] at hc
    simp at hc
  rw [StakingContract.revert_unstake, balance_add, if_pos hb] at hc
  cases hget : AMap.get s.inactive_stake_by_address a with
  | some e =>
    simp only [hget] at hc
    cases rc with
    | some rcp => simp at hc
    | none =>
      simp only [Option.isSome_none, Bool.false_eq_true, if_false] at hc
      by_cases hob : e.balance + tv ≤ coinMax
      case neg =>
        rw [balance_add, if_neg hob] at hc
        simp at hc
      rw [balance_add, if_pos hob] at hc
      simp only [Prod.mk.injEq, Except.ok.injEq] at hc
      obtain ⟨hs', _⟩ := hc
      subst hs'
      have hpe : 0 < e.balance := hpI _ (AMap.get_mem hget)
      refine ⟨hpS, hpA, ?_⟩
      intro p hpm
      rcases AMap.mem_insertA hpm with hp' | hp'
      · subst hp'
        simp
        omega
      · exact hpI p (AMap.mem_removeA hp')
  | none =>
    simp only [hget] at hc
    cases rc with
    | none => simp at hc
    | some rcp =>
      simp only [Prod.mk.injEq, Except.ok.injEq] at hc
      obtain ⟨hs', _⟩ := hc
      subst hs'
      refine ⟨hpS, hpA, ?_⟩
      intro p hpm
      rcases AMap.mem_insertA hpm with hp' | hp'
      · subst hp'
        simpa using hv
      · exact hpI p hp'

/-- A successful `revert_unpark_sender` with a positive total keeps all
stored balances positive. -/
theorem revert_unpark_sender_pos {s s₁ : StakingContract} {a tv fee : Nat}
    (hp : allPositive s) (hv : 0 < tv)
    (hc : s.revert_unpark_sender a tv fee = (s₁, .ok ())) : allPositive s₁ := by
  obtain ⟨hpS, hpA, hpI⟩ := hp
  by_cases hb : s.balance + tv ≤ coinMax
  case neg =>
    rw [StakingContract.revert_unpark_sender, balance_add, if_neg hb] at hc
    simp at hc
  rw [StakingContract.revert_unpark_sender, balance_add, if_pos hb] at hc
  cases hget : AMap.get s.active_stake_by_address a with
  | none => simp [hget] at hc
  | some e =>
    simp only [hget] at hc
    by_cases hob : e.balance + fee ≤ coinMax
    case neg =>
      rw [balance_add, if_neg hob] at hc
      simp at hc
    rw [balance_add, if_pos hob] at hc
    simp only [ActiveStake.with_balance] at hc
    by_cases hne : e.balance + fee ≠ tv
    · rw [if_pos hne] at hc
      simp at hc
    · rw [if_neg hne] at hc
      simp only [Prod.mk.injEq, Except.ok.injEq] at hc
      obtain ⟨hs', _⟩ := hc
      subst hs'
      refine ⟨?_, ?_, hpI⟩
      · intro q hq
        rcases BTSet.mem_insertB hq with hq' | hq'
        · subst hq'
          simp
          omega
        · exact hpS q (BTSet.mem_removeB hq')
      · intro p hpm
        rcases AMap.mem_insertA hpm with hp' | hp'
        · subst hp'
          simp
          omega
        · exact hpA p (AMap.mem_removeA hp')

/-- A successful `revert_unpark_recipient` keeps all stored balances
positive. -/
theorem revert_unpark_recipient_pos {s s₁ : StakingContract} {a v : Nat}
    {rc : UnparkReceipt} (hp : allPositive s)
    (hc : s.revert_unpark_recipient a v rc = (s₁, .ok ())) : allPositive s₁ := by
  obtain ⟨hpS, hpA, hpI⟩ := hp
  by_cases hb : v ≤ s.balance
  case neg =>
    rw [StakingContract.revert_unpark_recipient, balance_sub, if_neg hb] at hc
    simp at hc
  rw [StakingContract.revert_unpark_recipient, balance_sub, if_pos hb] at hc
  simp only [Prod.mk.injEq, Except.ok.injEq] at hc
  obtain ⟨hs', _⟩ := hc
  subst hs'
  constructor
  · intro q hq
    exact hpS q (by
      by_cases h1 : rc.current_epoch <;> by_cases h2 : rc.previous_epoch <;>
        simp only [h1, h2, if_true, if_false] at hq <;> exact hq)
  · constructor
    · intro p hpm
      exact hpA p (by
        by_cases h1 : rc.current_epoch <;> by_cases h2 : rc.previous_epoch <;>
          simp only [h1, h2, if_true, if_false] at hpm <;> exact hpm)
    · intro p hpm
      exact hpI p (by
        by_cases h1 : rc.current_epoch <;> by_cases h2 : rc.previous_epoch <;>
          simp only [h1, h2, if_true, if_false] at hpm <;> exact hpm)

/-- The FinalizeEpoch retirement loop keeps all stored balances positive. -/
theorem finalize_loop_pos {h : Nat} {l : List Nat} {s s₂ : StakingContract} {u : Unit}
    (hp : allPositive s) (hc : StakingContract.finalize_loop h l s = (s₂, .ok u)) :
    allPositive s₂ := by
  induction l generalizing s with
  | nil =>
    rw [StakingContract.finalize_loop] at hc
    simp only [Prod.mk.injEq, Except.ok.injEq] at hc
    exact hc.1 ▸ hp
  | cons a rest ih =>
    simp only [StakingContract.finalize_loop] at hc
    by_cases hbal : 0 < s.get_active_balance a
    · rw [if_pos hbal] at hc
      cases hrs : s.retire_sender a (s.get_active_balance a) h with
      | mk sA res =>
        simp only [hrs] at hc
        cases res with
        | error e => simp at hc
        | ok r₀ =>
          cases hrr : sA.retire_recipient a (s.get_active_balance a) h with
          | mk sB res₂ =>
            simp only [hrr] at hc
            cases res₂ with
            | error e => simp at hc
            | ok r₁ =>
              exact ih (retire_recipient_pos (retire_sender_pos hp hrs) hbal hrr) hc
    · rw [if_neg hbal] at hc
      exact ih hp hc

/-- The amended positivity invariant: a successfully committed or reverted
transition whose transferred value is positive preserves positivity of all
stored balances. -/
theorem step_preserves_positive {s s' : StakingContract} {st : Step} {h : Nat}
    {r : Option Receipt} (hp : allPositive s) (hval : st.valuePos)
    (hok : runStep s st h = (s', .ok r)) : allPositive s' := by
  cases st with
  | commitStep op =>
    rw [runStep] at hok
    cases op with
    | incoming tx =>
      have hv : 0 < tx.value := hval
      rw [commitOp, StakingContract.commit_incoming_transaction] at hok
      by_cases hsr : tx.sender ≠ tx.recipient
      · rw [if_pos hsr] at hok
        cases hdata : tx.data with
        | selfData ty => simp [hdata, StakingTransactionData.parse] at hok
        | malformed => simp [hdata, StakingTransactionData.parse] at hok
        | stakeData k r₂ =>
          simp only [hdata, StakingTransactionData.parse] at hok
          cases hst : s.stake tx.sender tx.value k r₂ with
          | mk s₁ res =>
            simp only [hst] at hok
            cases res with
            | error e => simp at hok
            | ok r₀ =>
              simp only [Prod.mk.injEq, Except.ok.injEq] at hok
              obtain ⟨hs', _⟩ := hok
              subst hs'
              exact stake_pos hp hv hst
      · rw [if_neg hsr] at hok
        cases hdata : tx.data with
        | stakeData k r₂ => simp [hdata, parseSelfType] at hok
        | malformed => simp [hdata, parseSelfType] at hok
        | selfData ty =>
          simp only [hdata, parseSelfType, StakingContract.get_signer] at hok
          cases ty with
          | retire =>
            cases hst : s.retire_recipient tx.signer tx.value h with
            | mk s₁ res =>
              simp only [hst] at hok
              cases res with
              | error e => simp at hok
              | ok r₀ =>
                simp only [Prod.mk.injEq, Except.ok.injEq] at hok
                obtain ⟨hs', _⟩ := hok
                subst hs'
                exact retire_recipient_pos hp hv hst
          | unpark =>
            cases hst : s.unpark_recipient tx.signer tx.value with
            | mk s₁ res =>
              simp only [hst] at hok
              cases res with
              | error e => simp at hok
              | ok r₀ =>
                simp only [Prod.mk.injEq, Except.ok.injEq] at hok
                obtain ⟨hs', _⟩ := hok
                subst hs'
                exact unpark_recipient_pos hp hst
    | outgoing tx =>
      have hv : 0 < tx.value := hval
      rw [commitOp, StakingContract.commit_outgoing_transaction] at hok
      cases hchk : s.check_outgoing_transaction tx h with
      | error e =>
        rw [hchk] at hok
        simp at hok
      | ok u =>
        cases u
        rw [hchk] at hok
        simp only [StakingContract.get_signer] at hok
        by_cases hsr : tx.sender ≠ tx.recipient
        · rw [if_pos hsr] at hok
          cases htv : tx.total_value with
          | error e => simp [htv] at hok
          | ok tv =>
            simp only [htv] at hok
            cases hst : s.unstake tx.signer tv with
            | mk s₁ res =>
              simp only [hst] at hok
              cases res with
              | error e => simp at hok
              | ok r₀ =>
                simp only [Prod.mk.injEq, Except.ok.injEq] at hok
                obtain ⟨hs', _⟩ := hok
                subst hs'
                exact unstake_pos hp hst
        · rw [if_neg hsr] at hok
          cases hdata : tx.data with
          | stakeData k r₂ => simp [hdata, parseSelfType] at hok
          | malformed => simp [hdata, parseSelfType] at hok
          | selfData ty =>
            simp only [hdata, parseSelfType] at hok
            cases ty with
            | retire =>
              cases htv : tx.total_value with
              | error e => simp [htv] at hok
              | ok tv =>
                simp only [htv] at hok
                cases hst : s.retire_sender tx.signer tv h with
                | mk s₁ res =>
                  simp only [hst] at hok
                  cases res with
                  | error e => simp at hok
                  | ok r₀ =>
                    simp only [Prod.mk.injEq, Except.ok.injEq] at hok
                    obtain ⟨hs', _⟩ := hok
                    subst hs'
                    exact retire_sender_pos hp hst
            | unpark =>
              cases htv : tx.total_value with
              | error e => simp [htv] at hok
              | ok tv =>
                simp only [htv] at hok
                have hfe : tx.fee < tv := by
                  have := Transaction.total_value_ok htv
                  omega
                cases hst : s.unpark_sender tx.signer tv tx.fee with
                | mk s₁ res =>
                  simp only [hst] at hok
                  cases res with
                  | error e => simp at hok
                  | ok u₀ =>
                    cases u₀
                    simp only [Prod.mk.injEq, Except.ok.injEq] at hok
                    obtain ⟨hs', _⟩ := hok
                    subst hs'
                    exact unpark_sender_pos hp hfe hst
    | inh i =>
      cases hity : i.ty with
      | slash =>
        rw [commitOp, StakingContract.commit_inherent, StakingContract.check_inherent] at hok
        by_cases hv2 : i.value ≠ 0
        · rw [if_pos hv2] at hok
          simp at hok
        rw [if_neg hv2] at hok
        simp only [hity] at hok
        cases hd : i.data with
        | empty => simp [hd] at hok
        | malformed => simp [hd] at hok
        | addr A =>
          simp only [hd] at hok
          by_cases hbx : (!(AMap.get s.active_stake_by_address A).isSome &&
              !(AMap.get s.inactive_stake_by_address A).isSome) = true
          · rw [if_pos hbx] at hok
            simp at hok
          · rw [if_neg hbx] at hok
            simp only [Prod.mk.injEq, Except.ok.injEq] at hok
            obtain ⟨hs', _⟩ := hok
            subst hs'
            exact ⟨hp.1, hp.2.1, hp.2.2⟩
      | finalizeEpoch =>
        rw [commitOp, StakingContract.commit_inherent, StakingContract.check_inherent] at hok
        by_cases hv2 : i.value ≠ 0
        · rw [if_pos hv2] at hok
          simp at hok
        rw [if_neg hv2] at hok
        simp only [hity] at hok
        cases hd : i.data with
        | addr A => simp [hd] at hok
        | malformed => simp [hd] at hok
        | empty =>
          simp only [hd, StakingContract.finalizeWithOrder] at hok
          cases hfl : StakingContract.finalize_loop h s.previous_epoch_parking
              ({ s with
                  current_epoch_parking := [],
                  previous_epoch_parking := s.current_epoch_parking }) with
          | mk s₂ res =>
            simp only [hfl] at hok
            cases res with
            | error e => simp at hok
            | ok u =>
              simp only [Prod.mk.injEq, Except.ok.injEq] at hok
              obtain ⟨hs', _⟩ := hok
              subst hs'
              have hrot : allPositive ({ s with
                  current_epoch_parking := [],
                  previous_epoch_parking := s.current_epoch_parking }) :=
                ⟨hp.1, hp.2.1, hp.2.2⟩
              exact finalize_loop_pos hrot hfl
      | reward =>
        rw [commitOp, StakingContract.commit_inherent, StakingContract.check_inherent] at hok
        by_cases hv2 : i.value ≠ 0
        · rw [if_pos hv2] at hok
          simp at hok
        · rw [if_neg hv2] at hok
          simp [hity] at hok
  | revertStep op rcpt =>
    rw [runStep] at hok
    cases hro : revertOp s op h rcpt with
    | mk s₁ res =>
      simp only [hro] at hok
      cases res with
      | error e => simp at hok
      | ok u =>
        cases u
        simp only [Prod.mk.injEq, Except.ok.injEq] at hok
        obtain ⟨hs', _⟩ := hok
        subst hs'
        cases op with
        | incoming tx =>
          have hv : 0 < tx.value := hval
          rw [revertOp, StakingContract.revert_incoming_transaction.eq_def] at hro
          by_cases hsr : tx.sender ≠ tx.recipient
          · rw [if_pos hsr] at hro
            cases rcpt with
            | none => exact revert_stake_pos hp hro
            | some rr =>
              cases rr with
              | active ar => exact revert_stake_pos hp hro
              | inactive ir => simp at hro
              | unpark ur => simp at hro
              | slash sr => simp at hro
          · rw [if_neg hsr] at hro
            cases hdata : tx.data with
            | stakeData k r₂ => simp [hdata, parseSelfType] at hro
            | malformed => simp [hdata, parseSelfType] at hro
            | selfData ty =>
              simp only [hdata, parseSelfType, StakingContract.get_signer] at hro
              cases ty with
              | retire =>
                cases rcpt with
                | none => exact revert_retire_recipient_pos hp hro
                | some rr =>
                  cases rr with
                  | inactive ir => exact revert_retire_recipient_pos hp hro
                  | active ar => simp at hro
                  | unpark ur => simp at hro
                  | slash sr => simp at hro
              | unpark =>
                cases rcpt with
                | none => simp at hro
                | some rr =>
                  cases rr with
                  | unpark ur => exact revert_unpark_recipient_pos hp hro
                  | active ar => simp at hro
                  | inactive ir => simp at hro
                  | slash sr => simp at hro
        | outgoing tx =>
          have hv : 0 < tx.value := hval
          rw [revertOp, StakingContract.revert_outgoing_transaction.eq_def] at hro
          simp only [StakingContract.get_signer] at hro
          by_cases hsr : tx.sender ≠ tx.recipient
          · rw [if_pos hsr] at hro
            cases htv : tx.total_value with
            | error e => simp [htv] at hro
            | ok tv =>
              simp only [htv] at hro
              have htv' : 0 < tv := by
                have := Transaction.total_value_ok htv
                omega
              cases rcpt with
              | none => exact revert_unstake_pos hp htv' hro
              | some rr =>
                cases rr with
                | inactive ir => exact revert_unstake_pos hp htv' hro
                | active ar => simp at hro
                | unpark ur => simp at hro
                | slash sr => simp at hro
          · rw [if_neg hsr] at hro
            cases hdata : tx.data with
            | stakeData k r₂ => simp [hdata, parseSelfType] at hro
            | malformed => simp [hdata, parseSelfType] at hro
            | selfData ty =>
              simp only [hdata, parseSelfType] at hro
              cases ty with
              | retire =>
                cases htv : tx.total_value with
                | error e => simp [htv] at hro
                | ok tv =>
                  simp only [htv] at hro
                  have htv' : 0 < tv := by
                    have := Transaction.total_value_ok htv
                    omega
                  cases rcpt with
                  | none => exact revert_retire_sender_pos hp htv' hro
                  | some rr =>
                    cases rr with
                    | active ar => exact revert_retire_sender_pos hp htv' hro
                    | inactive ir => simp at hro
                    | unpark ur => simp at hro
                    | slash sr => simp at hro
              | unpark =>
                cases htv : tx.total_value with
                | error e => simp [htv] at hro
                | ok tv =>
                  simp only [htv] at hro
                  have htv' : 0 < tv := by
                    have := Transaction.total_value_ok htv
                    omega
                  exact revert_unpark_sender_pos hp htv' hro
        | inh i =>
          cases hity : i.ty with
          | slash =>
            rw [revertOp, StakingContract.revert_inherent.eq_def] at hro
            simp only [hity] at hro
            cases rcpt with
            | none => simp at hro
            | some rr =>
              cases rr with
              | active ar => simp at hro
              | inactive ir => simp at hro
              | unpark ur => simp at hro
              | slash sr =>
                cases hd : i.data with
                | empty => simp [hd] at hro
                | malformed => simp [hd] at hro
                | addr A =>
                  simp only [hd] at hro
                  by_cases hns : sr.newly_slashed = true
                  · simp only [hns, if_true] at hro
                    cases hr1 : (ASet.removeS s.current_epoch_parking A).1 with
                    | false => simp [hr1] at hro
                    | true =>
                      simp only [hr1, Bool.not_true, Bool.false_eq_true, if_false,
                        Prod.mk.injEq, Except.ok.injEq] at hro
                      obtain ⟨hs₂, _⟩ := hro
                      rw [← hs₂]
                      exact ⟨hp.1, hp.2.1, hp.2.2⟩
                  · simp only [Bool.not_eq_true] at hns
                    simp only [hns, Bool.false_eq_true, if_false, Prod.mk.injEq,
                      Except.ok.injEq] at hro
                    obtain ⟨hs₂, _⟩ := hro
                    rw [← hs₂]
                    exact hp
          | finalizeEpoch =>
            rw [revertOp, StakingContract.revert_inherent.eq_def] at hro
            simp [hity] at hro
          | reward =>
            rw [revertOp, StakingContract.revert_inherent.eq_def] at hro
            simp [hity] at hro

theorem ASet.contains_eq_false {l : List Nat} {a : Nat} (h : a ∉ l) :
    l.contains a = false := by
  cases hc : l.contains a
  · rfl
  · exact absurd (ASet.contains_iff.1 hc) h

/-- On a canonical set, `insert` reports a new element exactly when the
element was absent. -/
theorem ASet.insertS_fst_eq {l : List Nat} {a : Nat} (hc : ASet.canonicalS l) :
    (ASet.insertS l a).1 = !l.contains a := by
  by_cases hm : a ∈ l
  · rw [ASet.insertS_fst_of_mem hc hm, ASet.contains_iff.2 hm]
    rfl
  · rw [ASet.insertS_fst_of_not_mem hm, ASet.contains_eq_false hm]
    rfl

/-- A failed Unpark incoming commit (staker in neither parking set) leaves
the stake tables and parking sets unchanged but keeps the already-applied
balance increase. -/
theorem unpark_commit_error_effect {s : StakingContract} {tx : Transaction} {h : Nat}
    (hself : tx.sender = tx.recipient) (hdata : tx.data = .selfData .unpark)
    (hcur : tx.signer ∉ s.current_epoch_parking)
    (hprev : tx.signer ∉ s.previous_epoch_parking)
    (hb : s.balance + tx.value ≤ coinMax) :
    s.commit_incoming_transaction tx h =
      ({ s with balance := s.balance + tx.value }, .error .InvalidForRecipient) := by
  rw [StakingContract.commit_incoming_transaction, if_neg (not_not_intro hself)]
  simp only [hdata, parseSelfType, StakingContract.get_signer]
  rw [StakingContract.unpark_recipient, balance_add, if_pos hb]
  simp [ASet.removeS_fst, ASet.contains_eq_false hcur, ASet.contains_eq_false hprev,
    ASet.removeS_eq_self hcur, ASet.removeS_eq_self hprev, hcur, hprev]

/-- The amended unstake boundary: with the inactive entry and the contract
balance both covering the total, unstake succeeds exactly at
`mblock_after retire_time + UNSTAKING_DELAY` and fails with
`InvalidForSender` one block earlier. -/
theorem unstake_boundary {s : StakingContract} {tx : Transaction} {b rt : Nat}
    (hns : tx.sender ≠ tx.recipient)
    (hget : AMap.get s.inactive_stake_by_address tx.signer = some ⟨b, rt⟩)
    (htv : tx.value + tx.fee ≤ coinMax) (hsuf : tx.value + tx.fee ≤ b)
    (hbal : tx.value + tx.fee ≤ s.balance) :
    (s.check_outgoing_transaction tx (mblock_after rt + UNSTAKING_DELAY) = .ok () ∧
      ∃ s' rr, s.commit_outgoing_transaction tx (mblock_after rt + UNSTAKING_DELAY) =
        (s', .ok rr)) ∧
      s.check_outgoing_transaction tx (mblock_after rt + UNSTAKING_DELAY - 1) =
        .error .InvalidForSender ∧
      s.commit_outgoing_transaction tx (mblock_after rt + UNSTAKING_DELAY - 1) =
        (s, .error .InvalidForSender) := by
  have htveq : tx.total_value = .ok (tx.value + tx.fee) := by
    rw [Transaction.total_value, balance_add, if_pos htv]
  have hdelay : 0 < mblock_after rt + UNSTAKING_DELAY := by
    unfold mblock_after EPOCH_LENGTH UNSTAKING_DELAY
    omega
  have hchk : s.check_outgoing_transaction tx (mblock_after rt + UNSTAKING_DELAY) =
      .ok () := by
    rw [StakingContract.check_outgoing_transaction]
    simp only [StakingContract.get_signer]
    rw [if_pos hns]
    simp only [hget]
    rw [if_neg (by omega : ¬ mblock_after rt + UNSTAKING_DELAY <
      mblock_after rt + UNSTAKING_DELAY)]
    simp only [htveq]
    rw [balance_sufficient, if_pos hsuf]
  have hchk1 : s.check_outgoing_transaction tx (mblock_after rt + UNSTAKING_DELAY - 1) =
      .error .InvalidForSender := by
    rw [StakingContract.check_outgoing_transaction]
    simp only [StakingContract.get_signer]
    rw [if_pos hns]
    simp only [hget]
    rw [if_pos (by omega : mblock_after rt + UNSTAKING_DELAY - 1 <
      mblock_after rt + UNSTAKING_DELAY)]
  refine ⟨⟨hchk, ?_⟩, hchk1, ?_⟩
  · rw [StakingContract.commit_outgoing_transaction, hchk]
    simp only [StakingContract.get_signer]
    rw [if_pos hns]
    simp only [htveq]
    rw [StakingContract.unstake, balance_sub, if_pos hbal]
    simp only [hget]
    by_cases hlt : tx.value + tx.fee < b
    · rw [balance_sub, if_pos (Nat.le_of_lt hlt)]
      simp only [hlt, if_true]
      exact ⟨_, _, rfl⟩
    · have heq : b = tx.value + tx.fee := by omega
      rw [if_neg hlt, if_pos heq]
      exact ⟨_, _, rfl⟩
  · rw [StakingContract.commit_outgoing_transaction, hchk1]

/-- Reverting a FinalizeEpoch inherent always fails with `InvalidForTarget`
and leaves the contract unchanged. -/
theorem finalize_epoch_revert_fails (s : StakingContract) (i : Inherent) (h : Nat)
    (r : Option Receipt) (hty : i.ty = .finalizeEpoch) :
    s.revert_inherent i h r = (s, .error .InvalidForTarget) := by
  rw [StakingContract.revert_inherent.eq_def, hty]

/-- Committing a Slash inherent with zero value and a well-formed address
payload succeeds exactly when the address has an active or an inactive
entry; on success it inserts the address into the current parking set and
reports `newly_slashed` exactly when the address was not already parked. -/
theorem slash_commit_spec {s : StakingContract} {i : Inherent} {A h : Nat}
    (hty : i.ty = .slash) (hval : i.value = 0) (hdata : i.data = .addr A)
    (hcan : ASet.canonicalS s.current_epoch_parking) :
    ((∃ s' rr, s.commit_inherent i h = (s', .ok rr)) ↔
      ((AMap.get s.active_stake_by_address A).isSome = true ∨
        (AMap.get s.inactive_stake_by_address A).isSome = true)) ∧
      (((AMap.get s.active_stake_by_address A).isSome = true ∨
          (AMap.get s.inactive_stake_by_address A).isSome = true) →
        s.commit_inherent i h =
          ({ s with current_epoch_parking := (ASet.insertS s.current_epoch_parking A).2 },
            .ok (some (.slash ⟨!s.current_epoch_parking.contains A⟩)))) ∧
      (¬ ((AMap.get s.active_stake_by_address A).isSome = true ∨
          (AMap.get s.inactive_stake_by_address A).isSome = true) →
        s.commit_inherent i h = (s, .error .InvalidInherent)) := by
  have hne : ¬ i.value ≠ 0 := not_not_intro hval
  by_cases hex : (AMap.get s.active_stake_by_address A).isSome = true ∨
      (AMap.get s.inactive_stake_by_address A).isSome = true
  · have hbx : ¬ ((!(AMap.get s.active_stake_by_address A).isSome &&
        !(AMap.get s.inactive_stake_by_address A).isSome) = true) := by
      rcases hex with hex | hex <;> simp [hex]
    have hcommit : s.commit_inherent i h =
        ({ s with current_epoch_parking := (ASet.insertS s.current_epoch_parking A).2 },
          .ok (some (.slash ⟨!s.current_epoch_parking.contains A⟩))) := by
      rw [StakingContract.commit_inherent, StakingContract.check_inherent, if_neg hne, hty]
      simp only [hdata]
      rw [if_neg hbx]
      rw [ASet.insertS_fst_eq hcan]
    exact ⟨⟨fun _ => hex, fun _ => ⟨_, _, hcommit⟩⟩, fun _ => hcommit, fun hn => absurd hex hn⟩
  · have hbx : (!(AMap.get s.active_stake_by_address A).isSome &&
        !(AMap.get s.inactive_stake_by_address A).isSome) = true := by
      rw [not_or, Bool.not_eq_true, Bool.not_eq_true] at hex
      simp [hex.1, hex.2]
    have hcommit : s.commit_inherent i h = (s, .error .InvalidInherent) := by
      rw [StakingContract.commit_inherent, StakingContract.check_inherent, if_neg hne, hty]
      simp only [hdata]
      rw [if_pos hbx]
    refine ⟨⟨fun hex2 => ?_, fun hex2 => absurd hex2 hex⟩, fun hex2 => absurd hex2 hex,
      fun _ => hcommit⟩
    rcases hex2 with ⟨s', rr, hc⟩
    rw [hcommit] at hc
    simp at hc

/-- Both direct-creation entry points of the staking contract reject with
`InvalidForRecipient`. -/
theorem creation_rejected (t v : Nat) (tx : Transaction) (h : Nat) :
    StakingContract.new_contract t v tx h = .error .InvalidForRecipient ∧
      StakingContract.create v tx h = .error .InvalidForRecipient :=
  ⟨rfl, rfl⟩

/-- The source `PartialEq` and `Ord` of `StakingContract` ignore all state:
any two contracts compare equal. -/
theorem rust_eq_cmp_trivial (s1 s2 : StakingContract) :
    StakingContract.rustEq s1 s2 = true ∧
      StakingContract.rustCmp s1 s2 = Ordering.eq :=
  ⟨rfl, rfl⟩

theorem AMap.removeA_comm {β : Type} {m : List (Nat × β)} {a b : Nat} :
    AMap.removeA (AMap.removeA m a) b = AMap.removeA (AMap.removeA m b) a := by
  simp only [AMap.removeA, List.filter_filter]
  apply List.filter_congr
  intro p hp
  rw [Bool.and_comm]

theorem BTSet.removeB_comm {l : List ActiveStake} {x y : ActiveStake} :
    BTSet.removeB (BTSet.removeB l x) y = BTSet.removeB (BTSet.removeB l y) x := by
  simp only [BTSet.removeB, List.filter_filter]
  apply List.filter_congr
  intro p hp
  rw [Bool.and_comm]

theorem AMap.insertA_comm {β : Type} {m : List (Nat × β)} {a b : Nat} {v w : β}
    (hne : a ≠ b) :
    AMap.insertA (AMap.insertA m a v) b w = AMap.insertA (AMap.insertA m b w) a v := by
  induction m with
  | nil =>
    rcases Nat.lt_trichotomy a b with hab | hab | hab
    · have h1 : ¬ b < a := by omega
      have h2 : ¬ b = a := by omega
      simp only [AMap.insertA, if_neg h1, if_neg h2, if_pos hab]
    · exact absurd hab hne
    · have h1 : ¬ a < b := by omega
      have h2 : ¬ a = b := by omega
      simp only [AMap.insertA, if_neg h1, if_neg h2, if_pos hab]
  | cons p ps ih =>
    rcases Nat.lt_trichotomy a p.1 with hap | hap | hap <;>
      rcases Nat.lt_trichotomy b p.1 with hbp | hbp | hbp
    · -- a < p.1, b < p.1
      rcases Nat.lt_trichotomy a b with hab | hab | hab
      · simp only [AMap.insertA, if_pos hap, if_pos hbp,
          if_neg (by omega : ¬ b < a), if_neg (by omega : ¬ b = a), if_pos hab]
      · exact absurd hab hne
      · simp only [AMap.insertA, if_pos hap, if_pos hbp, if_pos hab,
          if_neg (by omega : ¬ a < b), if_neg (by omega : ¬ a = b)]
    · -- a < p.1, b = p.1
      have hab : a < b := by omega
      simp only [AMap.insertA, if_pos hap, if_pos hbp,
        if_neg (by omega : ¬ b < a), if_neg (by omega : ¬ b = a),
        if_neg (by omega : ¬ b < p.1), if_pos hbp, if_pos hab]
    · -- a < p.1 < b
      simp only [AMap.insertA, if_pos hap,
        if_neg (by omega : ¬ b < a), if_neg (by omega : ¬ b = a),
        if_neg (by omega : ¬ b < p.1), if_neg (by omega : ¬ b = p.1), if_pos hap]
    · -- a = p.1, b < p.1
      have hba : b < a := by omega
      simp only [AMap.insertA, if_neg (by omega : ¬ a < p.1), if_pos hap, if_pos hbp,
        if_pos hba, if_neg (by omega : ¬ a < b), if_neg (by omega : ¬ a = b),
        if_neg (by omega : ¬ a < p.1)]
    · -- a = p.1 = b: contradiction
      exact absurd (by omega : a = b) hne
    · -- a = p.1 < b
      simp only [AMap.insertA, if_neg (by omega : ¬ a < p.1), if_pos hap,
        if_neg (by omega : ¬ b < a), if_neg (by omega : ¬ b = a),
        if_neg (by omega : ¬ b < p.1), if_neg (by omega : ¬ b = p.1),
        if_neg (by omega : ¬ a < p.1)]
    · -- b < p.1 < a
      simp only [AMap.insertA, if_neg (by omega : ¬ a < p.1),
        if_neg (by omega : ¬ a = p.1), if_pos hbp,
        if_neg (by omega : ¬ a < b), if_neg (by omega : ¬ a = b), if_pos hbp,
        if_neg (by omega : ¬ a < p.1), if_neg (by omega : ¬ a = p.1)]
    · -- b = p.1 < a
      simp only [AMap.insertA, if_neg (by omega : ¬ a < p.1),
        if_neg (by omega : ¬ a = p.1), if_neg (by omega : ¬ b < p.1), if_pos hbp,
        if_neg (by omega : ¬ a < b), if_neg (by omega : ¬ a = b)]
    · -- p.1 < a, p.1 < b
      simp only [AMap.insertA, if_neg (by omega : ¬ a < p.1),
        if_neg (by omega : ¬ a = p.1), if_neg (by omega : ¬ b < p.1),
        if_neg (by omega : ¬ b = p.1)]
      rw [ih]

theorem AMap.removeA_cons_self {β : Type} {p : Nat × β} {ps : List (Nat × β)} {a : Nat}
    (hp : p.1 = a) : AMap.removeA (p :: ps) a = AMap.removeA ps a := by
  simp only [AMap.removeA, List.filter_cons]
  have hf : (p.1 != a) = false := by simp [hp]
  rw [hf]
  simp

theorem AMap.removeA_cons_ne {β : Type} {p : Nat × β} {ps : List (Nat × β)} {a : Nat}
    (hp : p.1 ≠ a) : AMap.removeA (p :: ps) a = p :: AMap.removeA ps a := by
  simp only [AMap.removeA, List.filter_cons]
  have hf : (p.1 != a) = true := by simp [hp]
  rw [hf]
  simp

theorem AMap.sum_le_of_mem {β : Type} (f : β → Nat) {m : List (Nat × β)} {a : Nat} {v : β}
    (h : (a, v) ∈ m) : f v ≤ (m.map (fun p => f p.2)).sum := by
  induction m with
  | nil => simp at h
  | cons p ps ih =>
    simp only [List.map_cons, List.sum_cons]
    rcases List.mem_cons.1 h with h' | h'
    · rw [← h']
      simp
    · have := ih h'
      omega

theorem AMap.sum_removeA {β : Type} (f : β → Nat) {m : List (Nat × β)} {a : Nat} {v : β}
    (hc : AMap.canonical m) (hget : AMap.get m a = some v) :
    ((AMap.removeA m a).map (fun p => f p.2)).sum + f v = (m.map (fun p => f p.2)).sum := by
  induction m with
  | nil => simp [AMap.get] at hget
  | cons p ps ih =>
    rw [AMap.canonical_cons] at hc
    by_cases hp : p.1 = a
    · simp only [AMap.get, if_pos hp] at hget
      rw [AMap.removeA_cons_self hp]
      have hrest : AMap.removeA ps a = ps := by
        apply AMap.removeA_eq_self
        rw [AMap.get_eq_none_iff]
        intro q hq
        have := hc.1 q hq
        omega
      rw [hrest]
      simp only [List.map_cons, List.sum_cons]
      have := congrArg f (Option.some.inj hget)
      omega
    · simp only [AMap.get, if_neg hp] at hget
      rw [AMap.removeA_cons_ne hp]
      simp only [List.map_cons, List.sum_cons]
      have := ih hc.2 hget
      omega

theorem AMap.sum_insertA_none {β : Type} (f : β → Nat) {m : List (Nat × β)} {a : Nat} {v : β}
    (hget : AMap.get m a = none) :
    ((AMap.insertA m a v).map (fun p => f p.2)).sum = (m.map (fun p => f p.2)).sum + f v := by
  induction m with
  | nil => simp [AMap.insertA]
  | cons p ps ih =>
    have hp : p.1 ≠ a := by
      intro hp
      simp [AMap.get, hp] at hget
    simp only [AMap.get, if_neg hp] at hget
    simp only [AMap.insertA]
    split
    · simp only [List.map_cons, List.sum_cons]
      omega
    · split
      · rename_i h1 h2
        exact absurd h2.symm hp
      · simp only [List.map_cons, List.sum_cons, ih hget]
        omega

theorem AMap.sum_insertA_some {β : Type} (f : β → Nat) {m : List (Nat × β)} {a : Nat}
    {v w : β} (hc : AMap.canonical m) (hget : AMap.get m a = some w) :
    ((AMap.insertA m a v).map (fun p => f p.2)).sum + f w =
      (m.map (fun p => f p.2)).sum + f v := by
  induction m with
  | nil => simp [AMap.get] at hget
  | cons p ps ih =>
    rw [AMap.canonical_cons] at hc
    by_cases hp : p.1 = a
    · simp only [AMap.get, if_pos hp] at hget
      have h1 : ¬ a < p.1 := by omega
      simp only [AMap.insertA, if_neg h1, if_pos hp.symm, List.map_cons, List.sum_cons]
      have := congrArg f (Option.some.inj hget)
      omega
    · simp only [AMap.get, if_neg hp] at hget
      have ha : p.1 < a := by
        have := hc.1 _ (AMap.get_mem hget)
        simpa using this
      have h1 : ¬ a < p.1 := by omega
      have h2 : ¬ a = p.1 := by omega
      simp only [AMap.insertA, if_neg h1, if_neg h2, List.map_cons, List.sum_cons]
      have := ih hc.2 hget
      omega

theorem finalizeStep_none {h : Nat} {s : StakingContract} {a : Nat}
    (hga : AMap.get s.active_stake_by_address a = none) : finalizeStep h s a = s := by
  simp [finalizeStep, hga]

theorem finalizeStep_zero {h : Nat} {s : StakingContract} {a : Nat} {e : ActiveStake}
    (hga : AMap.get s.active_stake_by_address a = some e) (hz : ¬ 0 < e.balance) :
    finalizeStep h s a = s := by
  simp [finalizeStep, hga, hz]

theorem finalizeStep_pos {h : Nat} {s : StakingContract} {a : Nat} {e : ActiveStake}
    (hga : AMap.get s.active_stake_by_address a = some e) (hp : 0 < e.balance) :
    finalizeStep h s a =
      { s with
          active_stake_by_address := AMap.removeA s.active_stake_by_address a,
          active_stake_sorted := BTSet.removeB s.active_stake_sorted e,
          inactive_stake_by_address := AMap.insertA s.inactive_stake_by_address a
            ⟨s.get_inactive_balance a + e.balance, h⟩ } := by
  simp [finalizeStep, hga, hp]

theorem finalizeStep_get_active {h : Nat} {s : StakingContract} {a b : Nat} (hab : a ≠ b) :
    AMap.get (finalizeStep h s b).active_stake_by_address a =
      AMap.get s.active_stake_by_address a := by
  cases hgb : AMap.get s.active_stake_by_address b with
  | none => rw [finalizeStep_none hgb]
  | some eb =>
    by_cases hpb : 0 < eb.balance
    · rw [finalizeStep_pos hgb hpb]
      exact AMap.get_removeA_ne hab
    · rw [finalizeStep_zero hgb hpb]

theorem finalizeStep_get_inactive {h : Nat} {s : StakingContract} {a b : Nat} (hab : a ≠ b) :
    (finalizeStep h s b).get_inactive_balance a = s.get_inactive_balance a := by
  cases hgb : AMap.get s.active_stake_by_address b with
  | none => rw [finalizeStep_none hgb]
  | some eb =>
    by_cases hpb : 0 < eb.balance
    · rw [finalizeStep_pos hgb hpb]
      simp only [StakingContract.get_inactive_balance]
      rw [AMap.get_insertA_ne hab]
    · rw [finalizeStep_zero hgb hpb]

theorem finalizeStep_comm (h : Nat) (s : StakingContract) (a b : Nat) :
    finalizeStep h (finalizeStep h s a) b = finalizeStep h (finalizeStep h s b) a := by
  by_cases hab : a = b
  · subst hab
    rfl
  have hba : b ≠ a := fun hx => hab hx.symm
  cases hga : AMap.get s.active_stake_by_address a with
  | none =>
    rw [finalizeStep_none hga,
      finalizeStep_none ((finalizeStep_get_active hab).trans hga)]
  | some ea =>
    by_cases hpa : 0 < ea.balance
    case neg =>
      rw [finalizeStep_zero hga hpa,
        finalizeStep_zero ((finalizeStep_get_active hab).trans hga) hpa]
    cases hgb : AMap.get s.active_stake_by_address b with
    | none =>
      rw [finalizeStep_none hgb,
        finalizeStep_none ((finalizeStep_get_active hba).trans hgb)]
    | some eb =>
      by_cases hpb : 0 < eb.balance
      case neg =>
        rw [finalizeStep_zero hgb hpb,
          finalizeStep_zero ((finalizeStep_get_active hba).trans hgb) hpb]
      have hga₂ : AMap.get (finalizeStep h s b).active_stake_by_address a = some ea :=
        (finalizeStep_get_active hab).trans hga
      have hgb₂ : AMap.get (finalizeStep h s a).active_stake_by_address b = some eb :=
        (finalizeStep_get_active hba).trans hgb
      rw [finalizeStep_pos hgb hpb] at hga₂
      rw [finalizeStep_pos hga hpa] at hgb₂
      rw [finalizeStep_pos hga hpa, finalizeStep_pos hgb hpb]
      rw [finalizeStep_pos hgb₂ hpb, finalizeStep_pos hga₂ hpa]
      have hia : ({ s with
          active_stake_by_address := AMap.removeA s.active_stake_by_address b,
          active_stake_sorted := BTSet.removeB s.active_stake_sorted eb,
          inactive_stake_by_address := AMap.insertA s.inactive_stake_by_address b
            ⟨s.get_inactive_balance b + eb.balance, h⟩ } :
          StakingContract).get_inactive_balance a = s.get_inactive_balance a := by
        simp only [StakingContract.get_inactive_balance]
        rw [AMap.get_insertA_ne hab]
      have hib : ({ s with
          active_stake_by_address := AMap.removeA s.active_stake_by_address a,
          active_stake_sorted := BTSet.removeB s.active_stake_sorted ea,
          inactive_stake_by_address := AMap.insertA s.inactive_stake_by_address a
            ⟨s.get_inactive_balance a + ea.balance, h⟩ } :
          StakingContract).get_inactive_balance b = s.get_inactive_balance b := by
        simp only [StakingContract.get_inactive_balance]
        rw [AMap.get_insertA_ne hba]
      simp only [hia, hib]
      rw [AMap.removeA_comm, BTSet.removeB_comm, AMap.insertA_comm hba]

theorem foldl_finalizeStep_perm {h : Nat} {l₁ l₂ : List Nat} (hp : l₁.Perm l₂) :
    ∀ s : StakingContract, l₁.foldl (finalizeStep h) s = l₂.foldl (finalizeStep h) s := by
  induction hp with
  | nil => intro s; rfl
  | cons x _ ih =>
    intro s
    simp only [List.foldl_cons]
    exact ih _
  | swap x y l =>
    intro s
    simp only [List.foldl_cons]
    rw [finalizeStep_comm]
  | trans _ _ ih₁ ih₂ =>
    intro s
    rw [ih₁, ih₂]

theorem AMap.insertA_removeA_eq {β : Type} {m : List (Nat × β)} {a : Nat} {v : β}
    (hc : AMap.canonical m) : AMap.insertA (AMap.removeA m a) a v = AMap.insertA m a v := by
  induction m with
  | nil => rfl
  | cons p ps ih =>
    rw [AMap.canonical_cons] at hc
    rcases Nat.lt_trichotomy a p.1 with h1 | h1 | h1
    · have hne : p.1 ≠ a := by omega
      have hps : AMap.removeA ps a = ps := by
        apply AMap.removeA_eq_self
        rw [AMap.get_eq_none_iff]
        intro q hq
        have := hc.1 q hq
        omega
      rw [AMap.removeA_cons_ne hne, hps]
    · have heq : p.1 = a := h1.symm
      rw [AMap.removeA_cons_self heq]
      have hps : AMap.removeA ps a = ps := by
        apply AMap.removeA_eq_self
        rw [AMap.get_eq_none_iff]
        intro q hq
        have := hc.1 q hq
        omega
      rw [hps]
      have hfront : AMap.insertA ps a v = (a, v) :: ps := by
        apply AMap.insertA_front
        intro q hq
        have := hc.1 q hq
        omega
      rw [hfront]
      have h2 : ¬ a < p.1 := by omega
      simp [AMap.insertA, h2, heq.symm]
    · have hne : p.1 ≠ a := by omega
      rw [AMap.removeA_cons_ne hne]
      have h2 : ¬ a < p.1 := by omega
      have h3 : ¬ a = p.1 := by omega
      simp only [AMap.insertA, if_neg h2, if_neg h3]
      rw [ih hc.2]

theorem finalizeStep_inv {h : Nat} {s : StakingContract} {a : Nat}
    (hinv : finalizeInv s) : finalizeInv (finalizeStep h s a) := by
  obtain ⟨hca, hci, hbal, hmax⟩ := hinv
  cases hga : AMap.get s.active_stake_by_address a with
  | none => rw [finalizeStep_none hga]; exact ⟨hca, hci, hbal, hmax⟩
  | some e =>
    by_cases hpe : 0 < e.balance
    case neg => rw [finalizeStep_zero hga hpe]; exact ⟨hca, hci, hbal, hmax⟩
    rw [finalizeStep_pos hga hpe]
    have hsra : (List.map (fun p => p.2.balance)
          (AMap.removeA s.active_stake_by_address a)).sum + e.balance =
        (List.map (fun p => p.2.balance) s.active_stake_by_address).sum :=
      AMap.sum_removeA (fun v => v.balance) hca hga
    refine ⟨AMap.canonical_removeA hca, AMap.canonical_insertA hci, ?_, hmax⟩
    show s.balance = sumActive (AMap.removeA s.active_stake_by_address a) +
      sumInactive (AMap.insertA s.inactive_stake_by_address a
        ⟨s.get_inactive_balance a + e.balance, h⟩)
    cases hgi : AMap.get s.inactive_stake_by_address a with
    | none =>
      have hgib : s.get_inactive_balance a = 0 := by
        simp [StakingContract.get_inactive_balance, hgi]
      rw [hgib]
      have hsi : (List.map (fun p => p.2.balance)
            (AMap.insertA s.inactive_stake_by_address a ⟨0 + e.balance, h⟩)).sum =
          (List.map (fun p => p.2.balance) s.inactive_stake_by_address).sum +
            (0 + e.balance) :=
        AMap.sum_insertA_none (fun v => v.balance) hgi
      simp only [sumActive, sumInactive] at hbal ⊢
      omega
    | some i =>
      have hgib : s.get_inactive_balance a = i.balance := by
        simp [StakingContract.get_inactive_balance, hgi]
      rw [hgib]
      have hsi : (List.map (fun p => p.2.balance)
            (AMap.insertA s.inactive_stake_by_address a ⟨i.balance + e.balance, h⟩)).sum +
            i.balance =
          (List.map (fun p => p.2.balance) s.inactive_stake_by_address).sum +
            (i.balance + e.balance) :=
        AMap.sum_insertA_some (fun v => v.balance) hci hgi
      simp only [sumActive, sumInactive] at hbal ⊢
      omega

theorem finalize_loop_cons_eq {h a : Nat} {rest : List Nat} {s : StakingContract}
    (hinv : finalizeInv s) :
    StakingContract.finalize_loop h (a :: rest) s =
      StakingContract.finalize_loop h rest (finalizeStep h s a) := by
  obtain ⟨hca, hci, hbal, hmax⟩ := hinv
  cases hga : AMap.get s.active_stake_by_address a with
  | none =>
    have hb : s.get_active_balance a = 0 := by
      simp [StakingContract.get_active_balance, hga]
    rw [finalizeStep_none hga]
    simp [StakingContract.finalize_loop, hb]
  | some e =>
    have hb : s.get_active_balance a = e.balance := by
      simp [StakingContract.get_active_balance, hga]
    by_cases hpe : 0 < e.balance
    case neg =>
      rw [finalizeStep_zero hga hpe]
      simp [StakingContract.finalize_loop, hb, hpe]
    have heA : e.balance ≤ sumActive s.active_stake_by_address := by
      exact AMap.sum_le_of_mem (fun v => v.balance) (AMap.get_mem hga)
    have heS : e.balance ≤ s.balance := by
      simp only [sumActive] at heA hbal
      omega
    have hrs : s.retire_sender a e.balance h =
        ({ s with
            balance := s.balance - e.balance,
            active_stake_by_address := AMap.removeA s.active_stake_by_address a,
            active_stake_sorted := BTSet.removeB s.active_stake_sorted e },
          .ok (some ⟨e.validator_key, e.reward_address⟩)) := by
      simp only [StakingContract.retire_sender, balance_sub_ok heS]
      simp only [hga]
      have hlt : ¬ e.balance < e.balance := by omega
      rw [if_neg hlt]
      simp
    rw [finalizeStep_pos hga hpe]
    show StakingContract.finalize_loop h (a :: rest) s = _
    rw [StakingContract.finalize_loop]
    rw [hb, if_pos hpe]
    simp only [hrs]
    have hadd : s.balance - e.balance + e.balance = s.balance := Nat.sub_add_cancel heS
    cases hgi : AMap.get s.inactive_stake_by_address a with
    | none =>
      have hgib : s.get_inactive_balance a = 0 := by
        simp [StakingContract.get_inactive_balance, hgi]
      have hrr : StakingContract.retire_recipient
          { s with
              balance := s.balance - e.balance,
              active_stake_by_address := AMap.removeA s.active_stake_by_address a,
              active_stake_sorted := BTSet.removeB s.active_stake_sorted e }
          a e.balance h =
          ({ s with
              balance := s.balance,
              active_stake_by_address := AMap.removeA s.active_stake_by_address a,
              active_stake_sorted := BTSet.removeB s.active_stake_sorted e,
              inactive_stake_by_address :=
                AMap.insertA s.inactive_stake_by_address a ⟨e.balance, h⟩ },
            .ok none) := by
        simp only [StakingContract.retire_recipient]
        rw [balance_add_ok (show s.balance - e.balance + e.balance ≤ coinMax by omega), hadd]
        simp only [hgi]
      simp only [hrr]
      rw [hgib]
      have hst : ({ s with
          active_stake_by_address := AMap.removeA s.active_stake_by_address a,
          active_stake_sorted := BTSet.removeB s.active_stake_sorted e,
          inactive_stake_by_address :=
            AMap.insertA s.inactive_stake_by_address a ⟨0 + e.balance, h⟩ } :
          StakingContract) =
          { s with
              balance := s.balance,
              active_stake_by_address := AMap.removeA s.active_stake_by_address a,
              active_stake_sorted := BTSet.removeB s.active_stake_sorted e,
              inactive_stake_by_address :=
                AMap.insertA s.inactive_stake_by_address a ⟨e.balance, h⟩ } := by
        simp
      rw [hst]
    | some i =>
      have hgib : s.get_inactive_balance a = i.balance := by
        simp [StakingContract.get_inactive_balance, hgi]
      have hiI : i.balance ≤ sumInactive s.inactive_stake_by_address := by
        exact AMap.sum_le_of_mem (fun v => v.balance) (AMap.get_mem hgi)
      have hie : i.balance + e.balance ≤ coinMax := by
        simp only [sumActive, sumInactive] at hbal heA hiI
        omega
      have hrr : StakingContract.retire_recipient
          { s with
              balance := s.balance - e.balance,
              active_stake_by_address := AMap.removeA s.active_stake_by_address a,
              active_stake_sorted := BTSet.removeB s.active_stake_sorted e }
          a e.balance h =
          ({ s with
              balance := s.balance,
              active_stake_by_address := AMap.removeA s.active_stake_by_address a,
              active_stake_sorted := BTSet.removeB s.active_stake_sorted e,
              inactive_stake_by_address :=
                AMap.insertA (AMap.removeA s.inactive_stake_by_address a) a
                  ⟨i.balance + e.balance, h⟩ },
            .ok (some ⟨i.retire_time⟩)) := by
        simp only [StakingContract.retire_recipient]
        rw [balance_add_ok (show s.balance - e.balance + e.balance ≤ coinMax by omega), hadd]
        simp only [hgi]
        rw [balance_add_ok hie]
      simp only [hrr]
      rw [hgib]
      have hst : ({ s with
          active_stake_by_address := AMap.removeA s.active_stake_by_address a,
          active_stake_sorted := BTSet.removeB s.active_stake_sorted e,
          inactive_stake_by_address :=
            AMap.insertA s.inactive_stake_by_address a ⟨i.balance + e.balance, h⟩ } :
          StakingContract) =
          { s with
              balance := s.balance,
              active_stake_by_address := AMap.removeA s.active_stake_by_address a,
              active_stake_sorted := BTSet.removeB s.active_stake_sorted e,
              inactive_stake_by_address :=
                AMap.insertA (AMap.removeA s.inactive_stake_by_address a) a
                  ⟨i.balance + e.balance, h⟩ } := by
        rw [AMap.insertA_removeA_eq hci]
      rw [hst]

theorem finalize_loop_eq {h : Nat} :
    ∀ (l : List Nat) (s : StakingContract), finalizeInv s →
      StakingContract.finalize_loop h l s = (l.foldl (finalizeStep h) s, .ok ()) := by
  intro l
  induction l with
  | nil => intro s _; rfl
  | cons a rest ih =>
    intro s hinv
    rw [finalize_loop_cons_eq hinv, List.foldl_cons]
    exact ih _ (finalizeStep_inv hinv)

theorem finalizeWithOrder_perm {s : StakingContract} {h : Nat} {o₁ o₂ : List Nat}
    (hperm : o₁.Perm o₂) (hinv : finalizeInv s) :
    s.finalizeWithOrder h o₁ = s.finalizeWithOrder h o₂ := by
  have hinv₁ : finalizeInv ({ s with
                                current_epoch_parking := [],
                                previous_epoch_parking := s.current_epoch_parking } :
      StakingContract) := hinv
  simp only [StakingContract.finalizeWithOrder]
  rw [finalize_loop_eq _ _ hinv₁, finalize_loop_eq _ _ hinv₁,
    foldl_finalizeStep_perm hperm]

namespace Deser

theorem dCoin_ser {c : Nat} {r : List SToken} :
    dCoin (Ser.serCoin c ++ r) = some (c, r) := rfl

theorem dU32_ser {n : Nat} {r : List SToken} (h : n < 2 ^ 32) :
    dU32 (Ser.serU32 n ++ r) = some (n, r) := by
  simp [dU32, Ser.serU32, Nat.mod_eq_of_lt (by omega : n < 4294967296)]

theorem dAddr_ser {a : Nat} {r : List SToken} :
    dAddr (Ser.serAddr a ++ r) = some (a, r) := rfl

theorem dOptAddr_ser {o : Option Nat} {r : List SToken} :
    dOptAddr (Ser.serOptAddr o ++ r) = some (o, r) := by
  cases o <;> rfl

theorem dActiveStake_ser {e : ActiveStake} {r : List SToken} :
    dActiveStake (Ser.serActiveStake e ++ r) = some (e, r) := by
  obtain ⟨a, b, k, ra⟩ := e
  cases ra <;> rfl

theorem dInactiveStake_ser {i : InactiveStake} {r : List SToken}
    (h : i.retire_time < 2 ^ 32) :
    dInactiveStake (Ser.serInactiveStake i ++ r) = some (i, r) := by
  obtain ⟨b, t⟩ := i
  simp only [InactiveStake.retire_time] at h
  simp [dInactiveStake, Ser.serInactiveStake, Ser.serCoin, Ser.serU32, dCoin, dU32,
    Nat.mod_eq_of_lt (by omega : t < 4294967296)]

theorem dOptInactive_ser {o : Option InactiveStake} {r : List SToken}
    (h : ∀ i, o = some i → i.retire_time < 2 ^ 32) :
    dOptInactive (Ser.serOptInactive o ++ r) = some (o, r) := by
  cases o with
  | none => rfl
  | some i =>
    have hd : dInactiveStake (Ser.serInactiveStake i ++ r) = some (i, r) :=
      dInactiveStake_ser (h i rfl)
    simp [dOptInactive, Ser.serOptInactive, dU8, hd]

theorem dAddrList_ser {l : List Nat} {r : List SToken} :
    dAddrList l.length (l.map SToken.addr ++ r) = some (l, r) := by
  induction l with
  | nil => rfl
  | cons a l ih => simp [dAddrList, dAddr, ih]

end Deser

theorem ASet.insertS_append {l : List Nat} {a : Nat} (h : ∀ x ∈ l, x < a) :
    ASet.insertS l a = (true, l ++ [a]) := by
  induction l with
  | nil => rfl
  | cons x xs ih =>
    have hx := h x (by simp)
    have h1 : ¬ a < x := by omega
    have h2 : ¬ a = x := by omega
    simp only [ASet.insertS, if_neg h1, if_neg h2]
    rw [ih fun q hq => h q (List.mem_cons_of_mem _ hq)]
    rfl

theorem ASet.foldl_insertS {l : List Nat} :
    ∀ {acc : List Nat}, ASet.canonicalS (acc ++ l) →
      l.foldl (fun acc a => (ASet.insertS acc a).2) acc = acc ++ l := by
  induction l with
  | nil => intro acc _; simp
  | cons a l ih =>
    intro acc h
    have hx : ∀ x ∈ acc, x < a := by
      have := (List.pairwise_append.1 h).2.2
      intro x hx
      exact this x hx a (by simp)
    have h2 : ASet.canonicalS ((acc ++ [a]) ++ l) := by
      rw [List.append_assoc]
      exact h
    simp only [List.foldl_cons, ASet.insertS_append hx]
    rw [ih h2]
    simp

theorem Deser.dAddrSet_ser {l : List Nat} {r : List SToken} (hc : ASet.canonicalS l)
    (hlen : l.length < 2 ^ 32) :
    Deser.dAddrSet (Ser.serAddrSet l ++ r) = some (l, r) := by
  have h1 : Deser.dU32 (Ser.serU32 l.length ++ (l.map SToken.addr ++ r)) =
      some (l.length, l.map SToken.addr ++ r) := Deser.dU32_ser hlen
  have h2 : l.foldl (fun acc a => (ASet.insertS acc a).2) [] = l := by
    have := @ASet.foldl_insertS l []
    simpa using this (by simpa using hc)
  simp only [Ser.serAddrSet, List.append_assoc]
  simp [Deser.dAddrSet, h1, Deser.dAddrList_ser, h2]

theorem AMap.ext_canonical {β : Type} :
    ∀ {m₁ m₂ : List (Nat × β)}, AMap.canonical m₁ → AMap.canonical m₂ →
      (∀ a, AMap.get m₁ a = AMap.get m₂ a) → m₁ = m₂ := by
  intro m₁
  induction m₁ with
  | nil =>
    intro m₂ _ _ hg
    cases m₂ with
    | nil => rfl
    | cons q qs =>
      have := hg q.1
      simp [AMap.get] at this
  | cons p ps ih =>
    intro m₂ hc₁ hc₂ hg
    cases m₂ with
    | nil =>
      have := hg p.1
      simp [AMap.get] at this
    | cons q qs =>
      rw [AMap.canonical_cons] at hc₁ hc₂
      have hpq : p.1 = q.1 := by
        by_contra hne
        rcases Nat.lt_or_ge p.1 q.1 with hlt | hge
        · have hnone : AMap.get (q :: qs) p.1 = none := by
            rw [AMap.get_eq_none_iff]
            intro x hx
            rcases List.mem_cons.1 hx with h' | h'
            · rw [h']; omega
            · have := hc₂.1 x h'
              omega
          have hsome : AMap.get (p :: ps) p.1 = some p.2 := by simp [AMap.get]
          rw [hg p.1, hnone] at hsome
          exact Option.noConfusion hsome
        · have hlt : q.1 < p.1 := by omega
          have hnone : AMap.get (p :: ps) q.1 = none := by
            rw [AMap.get_eq_none_iff]
            intro x hx
            rcases List.mem_cons.1 hx with h' | h'
            · rw [h']; omega
            · have := hc₁.1 x h'
              omega
          have hsome : AMap.get (q :: qs) q.1 = some q.2 := by simp [AMap.get]
          rw [← hg q.1, hnone] at hsome
          exact Option.noConfusion hsome
      have hval : p.2 = q.2 := by
        have h1 : AMap.get (p :: ps) p.1 = some p.2 := by simp [AMap.get]
        have h2 : AMap.get (q :: qs) p.1 = some q.2 := by simp [AMap.get, hpq.symm]
        rw [hg p.1, h2] at h1
        exact (Option.some.inj h1).symm
      have htail : ∀ a, AMap.get ps a = AMap.get qs a := by
        intro a
        by_cases ha : p.1 = a
        · have h1 : AMap.get ps a = none := by
            rw [AMap.get_eq_none_iff]
            intro x hx
            have := hc₁.1 x hx
            omega
          have h2 : AMap.get qs a = none := by
            rw [AMap.get_eq_none_iff]
            intro x hx
            have := hc₂.1 x hx
            omega
          rw [h1, h2]
        · have := hg a
          have hqa : ¬ q.1 = a := by rw [← hpq]; exact ha
          simpa [AMap.get, if_neg ha, if_neg hqa] using this
      have hpair : p = q := Prod.ext hpq hval
      rw [hpair, ih hc₁.2 hc₂.2 htail]

theorem AMap.get_foldl_pairs_ne {β : Type} {l : List (Nat × β)} {a : Nat} :
    ∀ {m : List (Nat × β)}, (∀ p ∈ l, p.1 ≠ a) →
      AMap.get (l.foldl (fun m p => AMap.insertA m p.1 p.2) m) a = AMap.get m a := by
  induction l with
  | nil => intro m _; rfl
  | cons p l ih =>
    intro m h
    simp only [List.foldl_cons]
    rw [ih fun q hq => h q (List.mem_cons_of_mem _ hq)]
    exact AMap.get_insertA_ne (Ne.symm (h p (by simp)))

theorem AMap.get_foldl_pairs_mem {β : Type} {l₁ l₂ : List (Nat × β)} {p : Nat × β}
    {m : List (Nat × β)} (h : ∀ q ∈ l₂, q.1 ≠ p.1) :
    AMap.get ((l₁ ++ p :: l₂).foldl (fun m q => AMap.insertA m q.1 q.2) m) p.1 = some p.2 := by
  rw [List.foldl_append, List.foldl_cons]
  rw [AMap.get_foldl_pairs_ne h]
  exact AMap.get_insertA_self

theorem AMap.get_foldl_pairs_of_mem {β : Type} {l : List (Nat × β)} {p : Nat × β}
    {m : List (Nat × β)} (hdist : l.Pairwise (fun u v => u.1 ≠ v.1)) (hp : p ∈ l) :
    AMap.get (l.foldl (fun m q => AMap.insertA m q.1 q.2) m) p.1 = some p.2 := by
  obtain ⟨l₁, l₂, rfl⟩ := List.append_of_mem hp
  have h2 : ∀ q ∈ l₂, q.1 ≠ p.1 := by
    have hp2 := (List.pairwise_append.1 hdist).2.1
    intro q hq
    exact Ne.symm ((List.pairwise_cons.1 hp2).1 q hq)
  exact AMap.get_foldl_pairs_mem h2

theorem AMap.canonical_foldl_pairs {β : Type} {l : List (Nat × β)} :
    ∀ {m : List (Nat × β)}, AMap.canonical m →
      AMap.canonical (l.foldl (fun m q => AMap.insertA m q.1 q.2) m) := by
  induction l with
  | nil => intro m h; exact h
  | cons p l ih => intro m h; exact ih (AMap.canonical_insertA h)

theorem AMap.get_foldA_ne {l : List ActiveStake} {a : Nat} :
    ∀ {m : List (Nat × ActiveStake)}, (∀ e ∈ l, e.staker_address ≠ a) →
      AMap.get (l.foldl (fun m e => AMap.insertA m e.staker_address e) m) a = AMap.get m a := by
  induction l with
  | nil => intro m _; rfl
  | cons e l ih =>
    intro m h
    simp only [List.foldl_cons]
    rw [ih fun f hf => h f (List.mem_cons_of_mem _ hf)]
    exact AMap.get_insertA_ne (Ne.symm (h e (by simp)))

theorem AMap.get_foldA_of_mem {l : List ActiveStake} {e : ActiveStake}
    {m : List (Nat × ActiveStake)}
    (hdist : l.Pairwise (fun u v => u.staker_address ≠ v.staker_address)) (he : e ∈ l) :
    AMap.get (l.foldl (fun m f => AMap.insertA m f.staker_address f) m) e.staker_address =
      some e := by
  obtain ⟨l₁, l₂, rfl⟩ := List.append_of_mem he
  have h2 : ∀ f ∈ l₂, f.staker_address ≠ e.staker_address := by
    have hp2 := (List.pairwise_append.1 hdist).2.1
    intro f hf
    exact Ne.symm ((List.pairwise_cons.1 hp2).1 f hf)
  rw [List.foldl_append, List.foldl_cons]
  rw [AMap.get_foldA_ne h2]
  exact AMap.get_insertA_self

theorem AMap.canonical_foldA {l : List ActiveStake} :
    ∀ {m : List (Nat × ActiveStake)}, AMap.canonical m →
      AMap.canonical (l.foldl (fun m e => AMap.insertA m e.staker_address e) m) := by
  induction l with
  | nil => intro m h; exact h
  | cons e l ih => intro m h; exact ih (AMap.canonical_insertA h)

theorem AMap.get_foldI_ne {imapS : List (Nat × InactiveStake)} {l : List ActiveStake}
    {a : Nat} :
    ∀ {m : List (Nat × InactiveStake)}, (∀ e ∈ l, e.staker_address ≠ a) →
      AMap.get (l.foldl (fun m e =>
        match AMap.get imapS e.staker_address with
        | some st => AMap.insertA m e.staker_address st
        | none => m) m) a = AMap.get m a := by
  induction l with
  | nil => intro m _; rfl
  | cons e l ih =>
    intro m h
    simp only [List.foldl_cons]
    rw [ih fun f hf => h f (List.mem_cons_of_mem _ hf)]
    cases hg : AMap.get imapS e.staker_address with
    | none => rfl
    | some st => exact AMap.get_insertA_ne (Ne.symm (h e (by simp)))

theorem AMap.get_foldI_of_mem {imapS : List (Nat × InactiveStake)} {l : List ActiveStake}
    {e : ActiveStake} {m : List (Nat × InactiveStake)}
    (hdist : l.Pairwise (fun u v => u.staker_address ≠ v.staker_address)) (he : e ∈ l)
    (hm : AMap.get m e.staker_address = none) :
    AMap.get (l.foldl (fun m f =>
      match AMap.get imapS f.staker_address with
      | some st => AMap.insertA m f.staker_address st
      | none => m) m) e.staker_address = AMap.get imapS e.staker_address := by
  obtain ⟨l₁, l₂, rfl⟩ := List.append_of_mem he
  have hsplit := List.pairwise_append.1 hdist
  have h2 : ∀ f ∈ l₂, f.staker_address ≠ e.staker_address := by
    intro f hf
    exact Ne.symm ((List.pairwise_cons.1 hsplit.2.1).1 f hf)
  have h1 : ∀ f ∈ l₁, f.staker_address ≠ e.staker_address := by
    intro f hf
    exact hsplit.2.2 f hf e (by simp)
  rw [List.foldl_append, List.foldl_cons]
  rw [AMap.get_foldI_ne h2]
  cases hg : AMap.get imapS e.staker_address with
  | none =>
    rw [AMap.get_foldI_ne h1, hm]
  | some st =>
    exact AMap.get_insertA_self

theorem AMap.canonical_foldI {imapS : List (Nat × InactiveStake)} {l : List ActiveStake} :
    ∀ {m : List (Nat × InactiveStake)}, AMap.canonical m →
      AMap.canonical (l.foldl (fun m e =>
        match AMap.get imapS e.staker_address with
        | some st => AMap.insertA m e.staker_address st
        | none => m) m) := by
  induction l with
  | nil => intro m h; exact h
  | cons e l ih =>
    intro m h
    simp only [List.foldl_cons]
    cases hg : AMap.get imapS e.staker_address with
    | none => exact ih h
    | some st => exact ih (AMap.canonical_insertA h)

theorem Ser.insOrphan_perm {p : Nat × InactiveStake} {l : List (Nat × InactiveStake)} :
    (Ser.insOrphan p l).Perm (p :: l) := by
  induction l with
  | nil => exact List.Perm.refl _
  | cons q qs ih =>
    simp only [Ser.insOrphan]
    split
    · exact List.Perm.refl _
    · exact (ih.cons q).trans (List.Perm.swap p q qs)

theorem Ser.sortOrphans_perm {l : List (Nat × InactiveStake)} :
    (Ser.sortOrphans l).Perm l := by
  induction l with
  | nil => exact List.Perm.refl _
  | cons p ps ih =>
    simp only [Ser.sortOrphans, List.foldr_cons] at ih ⊢
    exact Ser.insOrphan_perm.trans (ih.cons p)

theorem BTSet.foldl_insertB {l : List ActiveStake} :
    ∀ {acc : List ActiveStake}, BTSet.sortedB (acc ++ l) →
      l.foldl BTSet.insertB acc = acc ++ l := by
  induction l with
  | nil => intro acc _; simp
  | cons e l ih =>
    intro acc h
    have hx : ∀ y ∈ acc, ActiveStake.ordLtB y e = true := by
      have := (List.pairwise_append.1 h).2.2
      intro y hy
      exact this y hy e (by simp)
    have h2 : BTSet.sortedB ((acc ++ [e]) ++ l) := by
      rw [List.append_assoc]
      exact h
    simp only [List.foldl_cons, BTSet.insertB_append hx]
    rw [ih h2]
    simp

theorem Deser.dInactiveLoop_ser {r : List SToken} :
    ∀ (l : List (Nat × InactiveStake)) (m : List (Nat × InactiveStake)),
      (∀ p ∈ l, p.2.retire_time < 2 ^ 32) →
      Deser.dInactiveLoop l.length m
        ((l.map (fun p => Ser.serAddr p.1 ++ Ser.serInactiveStake p.2)).flatten ++ r) =
        some (l.foldl (fun m p => AMap.insertA m p.1 p.2) m, r) := by
  intro l
  induction l with
  | nil => intro m _; rfl
  | cons p l ih =>
    intro m h
    have hd : Deser.dInactiveStake (Ser.serInactiveStake p.2 ++
        ((l.map (fun p => Ser.serAddr p.1 ++ Ser.serInactiveStake p.2)).flatten ++ r)) =
        some (p.2, (l.map (fun p => Ser.serAddr p.1 ++ Ser.serInactiveStake p.2)).flatten
          ++ r) :=
      Deser.dInactiveStake_ser (h p (by simp))
    have hrec := ih (AMap.insertA m p.1 p.2) fun q hq => h q (List.mem_cons_of_mem _ hq)
    simp only [List.map_cons, List.flatten_cons, List.length_cons, List.append_assoc,
      List.foldl_cons]
    simp only [Deser.dInactiveLoop, Deser.dAddr_ser, hd, hrec]

theorem Deser.dActiveLoop_ser {imapS : List (Nat × InactiveStake)} {r : List SToken} :
    ∀ (l : List ActiveStake)
      (acc : List ActiveStake × List (Nat × ActiveStake) × List (Nat × InactiveStake)),
      (∀ e ∈ l, ∀ i, AMap.get imapS e.staker_address = some i → i.retire_time < 2 ^ 32) →
      Deser.dActiveLoop l.length acc
        ((l.map (fun e => Ser.serActiveStake e ++
          Ser.serOptInactive (AMap.get imapS e.staker_address))).flatten ++ r) =
        some (l.foldl (fun acc e =>
          (BTSet.insertB acc.1 e,
            AMap.insertA acc.2.1 e.staker_address e,
            match AMap.get imapS e.staker_address with
            | some st => AMap.insertA acc.2.2 e.staker_address st
            | none => acc.2.2)) acc, r) := by
  intro l
  induction l with
  | nil => intro acc _; obtain ⟨x, y, z⟩ := acc; rfl
  | cons e l ih =>
    intro acc h
    obtain ⟨sorted, amap, imap⟩ := acc
    have hda : Deser.dActiveStake (Ser.serActiveStake e ++
        (Ser.serOptInactive (AMap.get imapS e.staker_address) ++
          ((l.map (fun e => Ser.serActiveStake e ++
            Ser.serOptInactive (AMap.get imapS e.staker_address))).flatten ++ r))) =
        some (e, Ser.serOptInactive (AMap.get imapS e.staker_address) ++
          ((l.map (fun e => Ser.serActiveStake e ++
            Ser.serOptInactive (AMap.get imapS e.staker_address))).flatten ++ r)) :=
      Deser.dActiveStake_ser
    have hdo : Deser.dOptInactive (Ser.serOptInactive (AMap.get imapS e.staker_address) ++
        ((l.map (fun e => Ser.serActiveStake e ++
          Ser.serOptInactive (AMap.get imapS e.staker_address))).flatten ++ r)) =
        some (AMap.get imapS e.staker_address,
          (l.map (fun e => Ser.serActiveStake e ++
            Ser.serOptInactive (AMap.get imapS e.staker_address))).flatten ++ r) :=
      Deser.dOptInactive_ser (h e (by simp))
    have hrec := ih (BTSet.insertB sorted e,
        AMap.insertA amap e.staker_address e,
        match AMap.get imapS e.staker_address with
        | some st => AMap.insertA imap e.staker_address st
        | none => imap)
      fun f hf => h f (List.mem_cons_of_mem _ hf)
    simp only [List.map_cons, List.flatten_cons, List.length_cons, List.append_assoc,
      List.foldl_cons]
    simp only [Deser.dActiveLoop, hda, hdo]
    exact hrec

theorem foldTriple_split {imapS : List (Nat × InactiveStake)} {l : List ActiveStake} :
    ∀ acc : List ActiveStake × List (Nat × ActiveStake) × List (Nat × InactiveStake),
      l.foldl (fun acc e =>
        (BTSet.insertB acc.1 e,
          AMap.insertA acc.2.1 e.staker_address e,
          match AMap.get imapS e.staker_address with
          | some st => AMap.insertA acc.2.2 e.staker_address st
          | none => acc.2.2)) acc =
      (l.foldl BTSet.insertB acc.1,
        l.foldl (fun m e => AMap.insertA m e.staker_address e) acc.2.1,
        l.foldl (fun m e =>
          match AMap.get imapS e.staker_address with
          | some st => AMap.insertA m e.staker_address st
          | none => m) acc.2.2) := by
  induction l with
  | nil => intro acc; rfl
  | cons e l ih =>
    intro acc
    simp only [List.foldl_cons]
    exact ih _

theorem wf_stakers_pairwise {s : StakingContract} (hwf : wf s) :
    s.active_stake_sorted.Pairwise
      (fun u v => u.staker_address ≠ v.staker_address) := by
  have hA : s.active_stake_by_address.Pairwise
      (fun p q => p.2.staker_address ≠ q.2.staker_address) := by
    refine List.Pairwise.imp_of_mem ?_ hwf.1
    intro p q hp hq hlt
    rw [(hwf.2.2.2.2.2.2.1 p hp).1, (hwf.2.2.2.2.2.2.1 q hq).1]
    omega
  have hmap : (s.active_stake_by_address.map Prod.snd).Pairwise
      (fun u v => u.staker_address ≠ v.staker_address) := by
    rw [List.pairwise_map]
    exact hA
  exact (hwf.2.2.2.2.2.1.pairwise_iff fun h => Ne.symm h).2 hmap

theorem wf_foldSorted_eq {s : StakingContract} (hwf : wf s) :
    s.active_stake_sorted.foldl BTSet.insertB [] = s.active_stake_sorted := by
  have h := @BTSet.foldl_insertB s.active_stake_sorted []
  have hs : BTSet.sortedB ([] ++ s.active_stake_sorted) := by
    simpa using hwf.2.2.2.2.1
  simpa using h hs

theorem wf_foldA_eq {s : StakingContract} (hwf : wf s) :
    s.active_stake_sorted.foldl (fun m e => AMap.insertA m e.staker_address e) [] =
      s.active_stake_by_address := by
  apply AMap.ext_canonical (AMap.canonical_foldA List.Pairwise.nil) hwf.1
  intro a
  cases hga : AMap.get s.active_stake_by_address a with
  | some v =>
    have hvmem : v ∈ s.active_stake_sorted := wf_entry_mem_sorted hwf hga
    have hstk : v.staker_address = a := wf_entry_addr hwf hga
    rw [← hstk]
    exact AMap.get_foldA_of_mem (wf_stakers_pairwise hwf) hvmem
  | none =>
    have hne : ∀ e ∈ s.active_stake_sorted, e.staker_address ≠ a := by
      intro e he hea
      have := wf_sorted_addr_mem hwf he
      rw [hea, hga] at this
      cases this
    rw [AMap.get_foldA_ne hne]
    rfl

theorem wf_foldInactive_eq {s : StakingContract} (hwf : wf s) :
    (Ser.sortOrphans (s.inactive_stake_by_address.filter
      (fun p => !((AMap.get s.active_stake_by_address p.1).isSome)))).foldl
      (fun m p => AMap.insertA m p.1 p.2)
      (s.active_stake_sorted.foldl (fun m e =>
      match AMap.get s.inactive_stake_by_address e.staker_address with
      | some st => AMap.insertA m e.staker_address st
      | none => m) []) = s.inactive_stake_by_address := by
  have horph_pairwise : (Ser.sortOrphans (s.inactive_stake_by_address.filter
      (fun p => !((AMap.get s.active_stake_by_address p.1).isSome)))).Pairwise (fun u v => u.1 ≠ v.1) := by
    have hfil : AMap.canonical (s.inactive_stake_by_address.filter
      (fun p => !((AMap.get s.active_stake_by_address p.1).isSome))) :=
      hwf.2.1.sublist (List.filter_sublist _)
    have hne : ((s.inactive_stake_by_address.filter
      (fun p => !((AMap.get s.active_stake_by_address p.1).isSome)))).Pairwise (fun u v => u.1 ≠ v.1) :=
      hfil.imp (fun h => by omega)
    exact (Ser.sortOrphans_perm.pairwise_iff fun h => Ne.symm h).2 hne
  apply AMap.ext_canonical
    (AMap.canonical_foldl_pairs (AMap.canonical_foldI List.Pairwise.nil)) hwf.2.1
  intro a
  cases hga : AMap.get s.active_stake_by_address a with
  | some v =>
    have hnorph : ∀ q ∈ Ser.sortOrphans (s.inactive_stake_by_address.filter
      (fun p => !((AMap.get s.active_stake_by_address p.1).isSome))), q.1 ≠ a := by
      intro q hq hqa
      have hq2 : q ∈ (s.inactive_stake_by_address.filter
      (fun p => !((AMap.get s.active_stake_by_address p.1).isSome))) :=
        Ser.sortOrphans_perm.mem_iff.1 hq
      have hq3 := (List.mem_filter.1 hq2).2
      rw [hqa] at hq3
      simp [hga] at hq3
    rw [AMap.get_foldl_pairs_ne hnorph]
    have hvmem : v ∈ s.active_stake_sorted := wf_entry_mem_sorted hwf hga
    have hstk : v.staker_address = a := wf_entry_addr hwf hga
    rw [← hstk]
    exact AMap.get_foldI_of_mem (wf_stakers_pairwise hwf) hvmem rfl
  | none =>
    have hnactive : ∀ e ∈ s.active_stake_sorted, e.staker_address ≠ a := by
      intro e he hea
      have := wf_sorted_addr_mem hwf he
      rw [hea, hga] at this
      cases this
    cases hgi : AMap.get s.inactive_stake_by_address a with
    | some w =>
      have hmemO : (a, w) ∈ (s.inactive_stake_by_address.filter
      (fun p => !((AMap.get s.active_stake_by_address p.1).isSome))) :=
        List.mem_filter.2 ⟨AMap.get_mem hgi, by simp [hga]⟩
      have hmemS : (a, w) ∈ Ser.sortOrphans (s.inactive_stake_by_address.filter
      (fun p => !((AMap.get s.active_stake_by_address p.1).isSome))) :=
        Ser.sortOrphans_perm.mem_iff.2 hmemO
      exact AMap.get_foldl_pairs_of_mem horph_pairwise hmemS
    | none =>
      have hnone : ∀ q ∈ Ser.sortOrphans (s.inactive_stake_by_address.filter
      (fun p => !((AMap.get s.active_stake_by_address p.1).isSome))), q.1 ≠ a := by
        intro q hq hqa
        have hq2 : q ∈ (s.inactive_stake_by_address.filter
      (fun p => !((AMap.get s.active_stake_by_address p.1).isSome))) :=
          Ser.sortOrphans_perm.mem_iff.1 hq
        have hqI : q ∈ s.inactive_stake_by_address := (List.mem_filter.1 hq2).1
        exact AMap.get_eq_none_iff.1 hgi q hqI hqa
      rw [AMap.get_foldl_pairs_ne hnone, AMap.get_foldI_ne hnactive]
      rfl

theorem serialize_roundtrip {s : StakingContract} (hwf : wf s) (hb : serBounds s) :
    StakingContract.deserializeSC (StakingContract.serializeSC s) = some (s, []) := by
  obtain ⟨hl1, hl2, hl3, hl4, hrt⟩ := hb
  have hlO : (Ser.sortOrphans (s.inactive_stake_by_address.filter
      (fun p => !((AMap.get s.active_stake_by_address p.1).isSome)))).length < 2 ^ 32 := by
    rw [Ser.sortOrphans_perm.length_eq]
    exact hl2
  have hshape : StakingContract.serializeSC s =
      Ser.serCoin s.balance ++
        (Ser.serU32 s.active_stake_sorted.length ++
          (((s.active_stake_sorted.map (fun e => Ser.serActiveStake e ++
      Ser.serOptInactive (AMap.get s.inactive_stake_by_address e.staker_address))).flatten) ++
            (Ser.serU32 (Ser.sortOrphans (s.inactive_stake_by_address.filter
      (fun p => !((AMap.get s.active_stake_by_address p.1).isSome)))).length ++
              ((((Ser.sortOrphans (s.inactive_stake_by_address.filter
      (fun p => !((AMap.get s.active_stake_by_address p.1).isSome)))).map
      (fun p => Ser.serAddr p.1 ++ Ser.serInactiveStake p.2)).flatten) ++
                (Ser.serAddrSet s.current_epoch_parking ++
                  Ser.serAddrSet s.previous_epoch_parking))))) := by
    simp [StakingContract.serializeSC, List.append_assoc]
  have hboundA : ∀ e ∈ s.active_stake_sorted, ∀ i,
      AMap.get s.inactive_stake_by_address e.staker_address = some i →
      i.retire_time < 2 ^ 32 := by
    intro e _ i hgi
    exact hrt _ (AMap.get_mem hgi)
  have hboundO : ∀ p ∈ Ser.sortOrphans (s.inactive_stake_by_address.filter
      (fun p => !((AMap.get s.active_stake_by_address p.1).isSome))), p.2.retire_time < 2 ^ 32 := by
    intro q hq
    have hq2 := Ser.sortOrphans_perm.mem_iff.1 hq
    exact hrt _ ((List.mem_filter.1 hq2).1)
  have hACT : ∀ r : List SToken,
      Deser.dActiveLoop s.active_stake_sorted.length ([], [], []) (((s.active_stake_sorted.map (fun e => Ser.serActiveStake e ++
      Ser.serOptInactive (AMap.get s.inactive_stake_by_address e.staker_address))).flatten) ++ r) =
        some ((s.active_stake_sorted, s.active_stake_by_address, (s.active_stake_sorted.foldl (fun m e =>
      match AMap.get s.inactive_stake_by_address e.staker_address with
      | some st => AMap.insertA m e.staker_address st
      | none => m) [])), r) := by
    intro r
    rw [Deser.dActiveLoop_ser s.active_stake_sorted ([], [], []) hboundA]
    simp only [foldTriple_split, wf_foldSorted_eq hwf, wf_foldA_eq hwf]
  have hINACT : ∀ r : List SToken,
      Deser.dInactiveLoop (Ser.sortOrphans (s.inactive_stake_by_address.filter
      (fun p => !((AMap.get s.active_stake_by_address p.1).isSome)))).length (s.active_stake_sorted.foldl (fun m e =>
      match AMap.get s.inactive_stake_by_address e.staker_address with
      | some st => AMap.insertA m e.staker_address st
      | none => m) []) ((((Ser.sortOrphans (s.inactive_stake_by_address.filter
      (fun p => !((AMap.get s.active_stake_by_address p.1).isSome)))).map
      (fun p => Ser.serAddr p.1 ++ Ser.serInactiveStake p.2)).flatten) ++ r) =
        some (s.inactive_stake_by_address, r) := by
    intro r
    rw [Deser.dInactiveLoop_ser (Ser.sortOrphans (s.inactive_stake_by_address.filter
      (fun p => !((AMap.get s.active_stake_by_address p.1).isSome)))) (s.active_stake_sorted.foldl (fun m e =>
      match AMap.get s.inactive_stake_by_address e.staker_address with
      | some st => AMap.insertA m e.staker_address st
      | none => m) []) hboundO]
    rw [wf_foldInactive_eq hwf]
  have hPREV : Deser.dAddrSet (Ser.serAddrSet s.previous_epoch_parking) =
      some (s.previous_epoch_parking, []) := by
    have h := @Deser.dAddrSet_ser s.previous_epoch_parking [] hwf.2.2.2.1 hl4
    simpa using h
  rw [hshape]
  simp only [StakingContract.deserializeSC, Deser.dCoin_ser, Deser.dU32_ser hl1,
    Deser.dU32_ser hlO, hACT, hINACT, Deser.dAddrSet_ser hwf.2.2.1 hl3, hPREV]

theorem commit_finalize_eq (s : StakingContract) (h : Nat) :
    s.commit_inherent ⟨.finalizeEpoch, 0, .empty⟩ h =
      s.finalizeWithOrder h s.previous_epoch_parking := rfl

/-- Claim C1 (amended: the state is well formed).  For every well-formed
contract state and every operation other than the FinalizeEpoch inherent, if
committing the operation succeeds with some receipt, reverting it with that
receipt on the resulting state restores the original state exactly,
including the contents and order of every container. -/
theorem claim_C1_revert_inverts_commit {s s' : StakingContract} {op : Op} {h : Nat}
    {rc : Option Receipt} (hwf : wf s) (hnf : op.isFinalizeEpoch = false)
    (hc : commitOp s op h = (s', .ok rc)) :
    revertOp s' op h rc = (s, .ok ()) :=
  commit_revert_roundtrip hwf hnf hc

/-- Witness for claim C1: a stake commit on a concrete well-formed state,
reverted with the returned receipt, restores the state. -/
theorem claim_C1_revert_inverts_commit_witness :
    revertOp (⟨36, [⟨2, 23, 11, some 1⟩, ⟨1, 8, 3, none⟩],
      [(1, ⟨1, 8, 3, none⟩), (2, ⟨2, 23, 11, some 1⟩)],
      [(1, ⟨2, 44⟩), (4, ⟨3, 12⟩)], [2, 5], [1]⟩ : StakingContract)
      (.incoming ⟨2, 0, 6, 0, .stakeData 11 (some 1), 2⟩) 0
      (some (.active ⟨5, some 9⟩)) = ((⟨30, [⟨2, 17, 5, some 9⟩, ⟨1, 8, 3, none⟩],
      [(1, ⟨1, 8, 3, none⟩), (2, ⟨2, 17, 5, some 9⟩)],
      [(1, ⟨2, 44⟩), (4, ⟨3, 12⟩)], [2, 5], [1]⟩ : StakingContract), .ok ()) :=
  @claim_C1_revert_inverts_commit (⟨30, [⟨2, 17, 5, some 9⟩, ⟨1, 8, 3, none⟩],
      [(1, ⟨1, 8, 3, none⟩), (2, ⟨2, 17, 5, some 9⟩)],
      [(1, ⟨2, 44⟩), (4, ⟨3, 12⟩)], [2, 5], [1]⟩ : StakingContract) (⟨36, [⟨2, 23, 11, some 1⟩, ⟨1, 8, 3, none⟩],
      [(1, ⟨1, 8, 3, none⟩), (2, ⟨2, 23, 11, some 1⟩)],
      [(1, ⟨2, 44⟩), (4, ⟨3, 12⟩)], [2, 5], [1]⟩ : StakingContract)
    (.incoming ⟨2, 0, 6, 0, .stakeData 11 (some 1), 2⟩) 0
    (some (.active ⟨5, some 9⟩)) (by decide) (by decide) (by decide)

/-- Counterexample to the unamended claim C1: on a (non-well-formed) state
holding a zero-balance active entry, committing a stake succeeds with the
replaced entry as receipt, but the revert with that receipt fails. -/
theorem cex_C1_zero_balance_revert :
    (commitOp ⟨0, [⟨0, 0, 7, none⟩], [(0, ⟨0, 0, 7, none⟩)], [], [], []⟩
        (.incoming ⟨0, 1, 5, 0, .stakeData 9 none, 0⟩) 0).2 =
      .ok (some (.active ⟨7, none⟩)) ∧
      (revertOp (commitOp ⟨0, [⟨0, 0, 7, none⟩], [(0, ⟨0, 0, 7, none⟩)], [], [], []⟩
          (.incoming ⟨0, 1, 5, 0, .stakeData 9 none, 0⟩) 0).1
        (.incoming ⟨0, 1, 5, 0, .stakeData 9 none, 0⟩) 0
        (some (.active ⟨7, none⟩))).2 = .error .InvalidReceipt := by
  decide

/-- Claim C2 (amended).  Committing the incoming side of an Unpark for a
staker parked in neither epoch set fails with `InvalidForRecipient`, but the
returned state has the contract balance already increased by the
transaction value: a failed commit does not leave the state unchanged. -/
theorem claim_C2_unpark_error_mutates {s : StakingContract} {tx : Transaction} {h : Nat}
    (hself : tx.sender = tx.recipient) (hdata : tx.data = .selfData .unpark)
    (hcur : tx.signer ∉ s.current_epoch_parking)
    (hprev : tx.signer ∉ s.previous_epoch_parking)
    (hb : s.balance + tx.value ≤ coinMax) :
    s.commit_incoming_transaction tx h =
      ({ s with balance := s.balance + tx.value }, .error .InvalidForRecipient) :=
  unpark_commit_error_effect hself hdata hcur hprev hb

/-- Witness for claim C2 at a concrete state and transaction. -/
theorem claim_C2_unpark_error_mutates_witness :
    (⟨10, [], [], [], [], []⟩ : StakingContract).commit_incoming_transaction
        ⟨0, 0, 5, 0, .selfData .unpark, 3⟩ 0 =
      (⟨15, [], [], [], [], []⟩, .error .InvalidForRecipient) :=
  @claim_C2_unpark_error_mutates ⟨10, [], [], [], [], []⟩
    ⟨0, 0, 5, 0, .selfData .unpark, 3⟩ 0 rfl rfl (by decide) (by decide) (by decide)

/-- Counterexample to the unamended claim C2: the failed Unpark commit
returns a state different from the input state. -/
theorem cex_C2_failed_commit_changes_state :
    ((⟨10, [], [], [], [], []⟩ : StakingContract).commit_incoming_transaction
        ⟨0, 0, 5, 0, .selfData .unpark, 3⟩ 0).2 = .error .InvalidForRecipient ∧
      ((⟨10, [], [], [], [], []⟩ : StakingContract).commit_incoming_transaction
        ⟨0, 0, 5, 0, .selfData .unpark, 3⟩ 0).1 ≠ ⟨10, [], [], [], [], []⟩ := by
  decide

/-- Claim C3 (amended: the transferred value is positive).  Any successfully
committed or reverted transition whose transaction value is positive
preserves strict positivity of every stored active and inactive balance. -/
theorem claim_C3_positive_balances {s s' : StakingContract} {st : Step} {h : Nat}
    {r : Option Receipt} (hp : allPositive s) (hval : st.valuePos)
    (hok : runStep s st h = (s', .ok r)) : allPositive s' :=
  step_preserves_positive hp hval hok

/-- Witness for claim C3: a concrete positive-value stake commit preserves
positivity. -/
theorem claim_C3_positive_balances_witness :
    allPositive ⟨7, [⟨7, 7, 4, none⟩], [(7, ⟨7, 7, 4, none⟩)], [], [], []⟩ :=
  @claim_C3_positive_balances ⟨0, [], [], [], [], []⟩
    ⟨7, [⟨7, 7, 4, none⟩], [(7, ⟨7, 7, 4, none⟩)], [], [], []⟩
    (.commitStep (.incoming ⟨7, 0, 7, 0, .stakeData 4 none, 7⟩)) 5 none
    (by decide) (by decide) (by decide)

/-- Counterexample to the unamended claim C3: a zero-value stake commit
succeeds and stores a zero-balance active entry. -/
theorem cex_C3_zero_value_stake :
    ((⟨0, [], [], [], [], []⟩ : StakingContract).commit_incoming_transaction
        ⟨7, 0, 0, 0, .stakeData 4 none, 7⟩ 5).2 = .ok none ∧
      ¬ allPositive ((⟨0, [], [], [], [], []⟩ : StakingContract).commit_incoming_transaction
        ⟨7, 0, 0, 0, .stakeData 4 none, 7⟩ 5).1 := by
  decide

/-- Claim C4 (amended: the balance invariant holds).  Committing a
FinalizeEpoch inherent does not depend on the iteration order of the dropped
parking set: any two iteration orders of `previous_epoch_parking` yield the
same result, namely the canonical ascending-address `commit_inherent`
result. -/
theorem claim_C4_finalize_order_independent {s : StakingContract} {h : Nat}
    {o₁ o₂ : List Nat} (hinv : finalizeInv s)
    (hp₁ : o₁.Perm s.previous_epoch_parking) (hp₂ : o₂.Perm s.previous_epoch_parking) :
    s.finalizeWithOrder h o₁ = s.finalizeWithOrder h o₂ ∧
      s.finalizeWithOrder h o₁ = s.commit_inherent ⟨.finalizeEpoch, 0, .empty⟩ h :=
  ⟨finalizeWithOrder_perm (hp₁.trans hp₂.symm) hinv,
    (finalizeWithOrder_perm hp₁ hinv).trans (commit_finalize_eq s h).symm⟩

/-- Witness for claim C4 at a concrete state satisfying the balance
invariant. -/
theorem claim_C4_finalize_order_independent_witness :
    (⟨30, [⟨2, 17, 5, some 9⟩, ⟨1, 8, 3, none⟩],
      [(1, ⟨1, 8, 3, none⟩), (2, ⟨2, 17, 5, some 9⟩)],
      [(1, ⟨2, 44⟩), (4, ⟨3, 12⟩)], [2, 5], [1]⟩ : StakingContract).finalizeWithOrder 500 [1] = (⟨30, [⟨2, 17, 5, some 9⟩, ⟨1, 8, 3, none⟩],
      [(1, ⟨1, 8, 3, none⟩), (2, ⟨2, 17, 5, some 9⟩)],
      [(1, ⟨2, 44⟩), (4, ⟨3, 12⟩)], [2, 5], [1]⟩ : StakingContract).finalizeWithOrder 500 [1] ∧
      (⟨30, [⟨2, 17, 5, some 9⟩, ⟨1, 8, 3, none⟩],
      [(1, ⟨1, 8, 3, none⟩), (2, ⟨2, 17, 5, some 9⟩)],
      [(1, ⟨2, 44⟩), (4, ⟨3, 12⟩)], [2, 5], [1]⟩ : StakingContract).finalizeWithOrder 500 [1] =
        (⟨30, [⟨2, 17, 5, some 9⟩, ⟨1, 8, 3, none⟩],
      [(1, ⟨1, 8, 3, none⟩), (2, ⟨2, 17, 5, some 9⟩)],
      [(1, ⟨2, 44⟩), (4, ⟨3, 12⟩)], [2, 5], [1]⟩ : StakingContract).commit_inherent ⟨.finalizeEpoch, 0, .empty⟩ 500 :=
  @claim_C4_finalize_order_independent (⟨30, [⟨2, 17, 5, some 9⟩, ⟨1, 8, 3, none⟩],
      [(1, ⟨1, 8, 3, none⟩), (2, ⟨2, 17, 5, some 9⟩)],
      [(1, ⟨2, 44⟩), (4, ⟨3, 12⟩)], [2, 5], [1]⟩ : StakingContract) 500 [1] [1]
    (by decide) (by decide) (by decide)

/-- Counterexample to the unamended claim C4: on a state whose contract
balance does not cover the staked balances, two iteration orders of the
dropped parking set produce different results. -/
theorem cex_C4_finalize_order_dependent :
    StakingContract.finalizeWithOrder
        ⟨5, [⟨1, 10, 0, none⟩, ⟨2, 3, 0, none⟩],
          [(1, ⟨1, 10, 0, none⟩), (2, ⟨2, 3, 0, none⟩)], [], [], [1, 2]⟩ 77 [1, 2] ≠
      StakingContract.finalizeWithOrder
        ⟨5, [⟨1, 10, 0, none⟩, ⟨2, 3, 0, none⟩],
          [(1, ⟨1, 10, 0, none⟩), (2, ⟨2, 3, 0, none⟩)], [], [], [1, 2]⟩ 77 [2, 1] := by
  decide

/-- Claim C5 (amended: the contract balance also covers the total).  With an
inactive entry of sufficient balance for the signer and a sufficient
contract balance, a non-self Unstake passes the check and commits at block
height `mblock_after retire_time + UNSTAKING_DELAY`, and fails with
`InvalidForSender` one block earlier. -/
theorem claim_C5_unstake_boundary {s : StakingContract} {tx : Transaction} {b rt : Nat}
    (hns : tx.sender ≠ tx.recipient)
    (hget : AMap.get s.inactive_stake_by_address tx.signer = some ⟨b, rt⟩)
    (htv : tx.value + tx.fee ≤ coinMax) (hsuf : tx.value + tx.fee ≤ b)
    (hbal : tx.value + tx.fee ≤ s.balance) :
    (s.check_outgoing_transaction tx (mblock_after rt + UNSTAKING_DELAY) = .ok () ∧
      ∃ s' rr, s.commit_outgoing_transaction tx (mblock_after rt + UNSTAKING_DELAY) =
        (s', .ok rr)) ∧
      s.check_outgoing_transaction tx (mblock_after rt + UNSTAKING_DELAY - 1) =
        .error .InvalidForSender ∧
      s.commit_outgoing_transaction tx (mblock_after rt + UNSTAKING_DELAY - 1) =
        (s, .error .InvalidForSender) :=
  unstake_boundary hns hget htv hsuf hbal

/-- Witness for claim C5 at a concrete state and unstake transaction. -/
theorem claim_C5_unstake_boundary_witness :
    ((⟨30, [⟨2, 17, 5, some 9⟩, ⟨1, 8, 3, none⟩],
      [(1, ⟨1, 8, 3, none⟩), (2, ⟨2, 17, 5, some 9⟩)],
      [(1, ⟨2, 44⟩), (4, ⟨3, 12⟩)], [2, 5], [1]⟩ : StakingContract).check_outgoing_transaction ⟨0, 9, 2, 1, .stakeData 0 none, 4⟩
        (mblock_after 12 + UNSTAKING_DELAY) = .ok () ∧
      ∃ s' rr, (⟨30, [⟨2, 17, 5, some 9⟩, ⟨1, 8, 3, none⟩],
      [(1, ⟨1, 8, 3, none⟩), (2, ⟨2, 17, 5, some 9⟩)],
      [(1, ⟨2, 44⟩), (4, ⟨3, 12⟩)], [2, 5], [1]⟩ : StakingContract).commit_outgoing_transaction ⟨0, 9, 2, 1, .stakeData 0 none, 4⟩
        (mblock_after 12 + UNSTAKING_DELAY) = (s', .ok rr)) ∧
      (⟨30, [⟨2, 17, 5, some 9⟩, ⟨1, 8, 3, none⟩],
      [(1, ⟨1, 8, 3, none⟩), (2, ⟨2, 17, 5, some 9⟩)],
      [(1, ⟨2, 44⟩), (4, ⟨3, 12⟩)], [2, 5], [1]⟩ : StakingContract).check_outgoing_transaction ⟨0, 9, 2, 1, .stakeData 0 none, 4⟩
        (mblock_after 12 + UNSTAKING_DELAY - 1) = .error .InvalidForSender ∧
      (⟨30, [⟨2, 17, 5, some 9⟩, ⟨1, 8, 3, none⟩],
      [(1, ⟨1, 8, 3, none⟩), (2, ⟨2, 17, 5, some 9⟩)],
      [(1, ⟨2, 44⟩), (4, ⟨3, 12⟩)], [2, 5], [1]⟩ : StakingContract).commit_outgoing_transaction ⟨0, 9, 2, 1, .stakeData 0 none, 4⟩
        (mblock_after 12 + UNSTAKING_DELAY - 1) =
        ((⟨30, [⟨2, 17, 5, some 9⟩, ⟨1, 8, 3, none⟩],
      [(1, ⟨1, 8, 3, none⟩), (2, ⟨2, 17, 5, some 9⟩)],
      [(1, ⟨2, 44⟩), (4, ⟨3, 12⟩)], [2, 5], [1]⟩ : StakingContract), .error .InvalidForSender) :=
  @claim_C5_unstake_boundary (⟨30, [⟨2, 17, 5, some 9⟩, ⟨1, 8, 3, none⟩],
      [(1, ⟨1, 8, 3, none⟩), (2, ⟨2, 17, 5, some 9⟩)],
      [(1, ⟨2, 44⟩), (4, ⟨3, 12⟩)], [2, 5], [1]⟩ : StakingContract) ⟨0, 9, 2, 1, .stakeData 0 none, 4⟩ 3 12
    (by decide) (by decide) (by decide) (by decide) (by decide)

/-- Counterexample to the unamended claim C5: the outgoing check ignores
the contract balance, so a checked unstake can still fail to commit with
`InsufficientFunds`. -/
theorem cex_C5_check_passes_commit_fails :
    (⟨0, [], [], [(0, ⟨100, 0⟩)], [], []⟩ : StakingContract).check_outgoing_transaction
        ⟨3, 9, 100, 0, .stakeData 0 none, 0⟩ 228 = .ok () ∧
      ((⟨0, [], [], [(0, ⟨100, 0⟩)], [], []⟩ : StakingContract).commit_outgoing_transaction
        ⟨3, 9, 100, 0, .stakeData 0 none, 0⟩ 228).2 = .error .InsufficientFunds := by
  decide

/-- Claim C6.  Reverting a FinalizeEpoch inherent always fails with
`InvalidForTarget` and leaves the contract unchanged, for every state,
receipt and block height. -/
theorem claim_C6_finalize_revert_rejected (s : StakingContract) (i : Inherent) (h : Nat)
    (r : Option Receipt) (hty : i.ty = .finalizeEpoch) :
    s.revert_inherent i h r = (s, .error .InvalidForTarget) :=
  finalize_epoch_revert_fails s i h r hty

/-- Witness for claim C6 at a concrete state and inherent. -/
theorem claim_C6_finalize_revert_rejected_witness :
    (⟨0, [], [], [], [], []⟩ : StakingContract).revert_inherent
        ⟨.finalizeEpoch, 0, .empty⟩ 5 none =
      (⟨0, [], [], [], [], []⟩, .error .InvalidForTarget) :=
  claim_C6_finalize_revert_rejected ⟨0, [], [], [], [], []⟩
    ⟨.finalizeEpoch, 0, .empty⟩ 5 none rfl

/-- Claim C7.  Serialization followed by deserialization is the identity on
every well-formed state whose u32-typed lengths and retire times are in
range, despite the encoding splitting inactive stakes into co-located and
sorted orphan entries. -/
theorem claim_C7_serialization_roundtrip {s : StakingContract} (hwf : wf s)
    (hb : serBounds s) :
    StakingContract.deserializeSC (StakingContract.serializeSC s) = some (s, []) :=
  serialize_roundtrip hwf hb

/-- Witness for claim C7 at a concrete well-formed state with co-located
and orphan inactive entries. -/
theorem claim_C7_serialization_roundtrip_witness :
    StakingContract.deserializeSC (StakingContract.serializeSC (⟨30, [⟨2, 17, 5, some 9⟩, ⟨1, 8, 3, none⟩],
      [(1, ⟨1, 8, 3, none⟩), (2, ⟨2, 17, 5, some 9⟩)],
      [(1, ⟨2, 44⟩), (4, ⟨3, 12⟩)], [2, 5], [1]⟩ : StakingContract)) = some ((⟨30, [⟨2, 17, 5, some 9⟩, ⟨1, 8, 3, none⟩],
      [(1, ⟨1, 8, 3, none⟩), (2, ⟨2, 17, 5, some 9⟩)],
      [(1, ⟨2, 44⟩), (4, ⟨3, 12⟩)], [2, 5], [1]⟩ : StakingContract), []) :=
  @claim_C7_serialization_roundtrip (⟨30, [⟨2, 17, 5, some 9⟩, ⟨1, 8, 3, none⟩],
      [(1, ⟨1, 8, 3, none⟩), (2, ⟨2, 17, 5, some 9⟩)],
      [(1, ⟨2, 44⟩), (4, ⟨3, 12⟩)], [2, 5], [1]⟩ : StakingContract) (by decide) (by decide)

/-- Claim C8.  Committing a zero-value Slash inherent for address `A`
succeeds exactly when `A` has an active or inactive entry; on success it
parks `A` in the current epoch set and reports `newly_slashed` exactly when
`A` was not already parked there, otherwise it fails with
`InvalidInherent`. -/
theorem claim_C8_slash_spec {s : StakingContract} {i : Inherent} {A h : Nat}
    (hty : i.ty = .slash) (hval : i.value = 0) (hdata : i.data = .addr A)
    (hcan : ASet.canonicalS s.current_epoch_parking) :
    ((∃ s' rr, s.commit_inherent i h = (s', .ok rr)) ↔
      ((AMap.get s.active_stake_by_address A).isSome = true ∨
        (AMap.get s.inactive_stake_by_address A).isSome = true)) ∧
      (((AMap.get s.active_stake_by_address A).isSome = true ∨
          (AMap.get s.inactive_stake_by_address A).isSome = true) →
        s.commit_inherent i h =
          ({ s with current_epoch_parking := (ASet.insertS s.current_epoch_parking A).2 },
            .ok (some (.slash ⟨!s.current_epoch_parking.contains A⟩)))) ∧
      (¬ ((AMap.get s.active_stake_by_address A).isSome = true ∨
          (AMap.get s.inactive_stake_by_address A).isSome = true) →
        s.commit_inherent i h = (s, .error .InvalidInherent)) :=
  slash_commit_spec hty hval hdata hcan

/-- Witness for claim C8 at a concrete state and slash inherent. -/
theorem claim_C8_slash_spec_witness :
    ((∃ s' rr, (⟨30, [⟨2, 17, 5, some 9⟩, ⟨1, 8, 3, none⟩],
      [(1, ⟨1, 8, 3, none⟩), (2, ⟨2, 17, 5, some 9⟩)],
      [(1, ⟨2, 44⟩), (4, ⟨3, 12⟩)], [2, 5], [1]⟩ : StakingContract).commit_inherent ⟨.slash, 0, .addr 1⟩ 0 = (s', .ok rr)) ↔
      ((AMap.get (⟨30, [⟨2, 17, 5, some 9⟩, ⟨1, 8, 3, none⟩],
      [(1, ⟨1, 8, 3, none⟩), (2, ⟨2, 17, 5, some 9⟩)],
      [(1, ⟨2, 44⟩), (4, ⟨3, 12⟩)], [2, 5], [1]⟩ : StakingContract).active_stake_by_address 1).isSome = true ∨
        (AMap.get (⟨30, [⟨2, 17, 5, some 9⟩, ⟨1, 8, 3, none⟩],
      [(1, ⟨1, 8, 3, none⟩), (2, ⟨2, 17, 5, some 9⟩)],
      [(1, ⟨2, 44⟩), (4, ⟨3, 12⟩)], [2, 5], [1]⟩ : StakingContract).inactive_stake_by_address 1).isSome = true)) ∧
      (((AMap.get (⟨30, [⟨2, 17, 5, some 9⟩, ⟨1, 8, 3, none⟩],
      [(1, ⟨1, 8, 3, none⟩), (2, ⟨2, 17, 5, some 9⟩)],
      [(1, ⟨2, 44⟩), (4, ⟨3, 12⟩)], [2, 5], [1]⟩ : StakingContract).active_stake_by_address 1).isSome = true ∨
          (AMap.get (⟨30, [⟨2, 17, 5, some 9⟩, ⟨1, 8, 3, none⟩],
      [(1, ⟨1, 8, 3, none⟩), (2, ⟨2, 17, 5, some 9⟩)],
      [(1, ⟨2, 44⟩), (4, ⟨3, 12⟩)], [2, 5], [1]⟩ : StakingContract).inactive_stake_by_address 1).isSome = true) →
        (⟨30, [⟨2, 17, 5, some 9⟩, ⟨1, 8, 3, none⟩],
      [(1, ⟨1, 8, 3, none⟩), (2, ⟨2, 17, 5, some 9⟩)],
      [(1, ⟨2, 44⟩), (4, ⟨3, 12⟩)], [2, 5], [1]⟩ : StakingContract).commit_inherent ⟨.slash, 0, .addr 1⟩ 0 =
          ({ (⟨30, [⟨2, 17, 5, some 9⟩, ⟨1, 8, 3, none⟩],
      [(1, ⟨1, 8, 3, none⟩), (2, ⟨2, 17, 5, some 9⟩)],
      [(1, ⟨2, 44⟩), (4, ⟨3, 12⟩)], [2, 5], [1]⟩ : StakingContract) with
              current_epoch_parking := (ASet.insertS (⟨30, [⟨2, 17, 5, some 9⟩, ⟨1, 8, 3, none⟩],
      [(1, ⟨1, 8, 3, none⟩), (2, ⟨2, 17, 5, some 9⟩)],
      [(1, ⟨2, 44⟩), (4, ⟨3, 12⟩)], [2, 5], [1]⟩ : StakingContract).current_epoch_parking 1).2 },
            .ok (some (.slash ⟨!(⟨30, [⟨2, 17, 5, some 9⟩, ⟨1, 8, 3, none⟩],
      [(1, ⟨1, 8, 3, none⟩), (2, ⟨2, 17, 5, some 9⟩)],
      [(1, ⟨2, 44⟩), (4, ⟨3, 12⟩)], [2, 5], [1]⟩ : StakingContract).current_epoch_parking.contains 1⟩)))) ∧
      (¬ ((AMap.get (⟨30, [⟨2, 17, 5, some 9⟩, ⟨1, 8, 3, none⟩],
      [(1, ⟨1, 8, 3, none⟩), (2, ⟨2, 17, 5, some 9⟩)],
      [(1, ⟨2, 44⟩), (4, ⟨3, 12⟩)], [2, 5], [1]⟩ : StakingContract).active_stake_by_address 1).isSome = true ∨
          (AMap.get (⟨30, [⟨2, 17, 5, some 9⟩, ⟨1, 8, 3, none⟩],
      [(1, ⟨1, 8, 3, none⟩), (2, ⟨2, 17, 5, some 9⟩)],
      [(1, ⟨2, 44⟩), (4, ⟨3, 12⟩)], [2, 5], [1]⟩ : StakingContract).inactive_stake_by_address 1).isSome = true) →
        (⟨30, [⟨2, 17, 5, some 9⟩, ⟨1, 8, 3, none⟩],
      [(1, ⟨1, 8, 3, none⟩), (2, ⟨2, 17, 5, some 9⟩)],
      [(1, ⟨2, 44⟩), (4, ⟨3, 12⟩)], [2, 5], [1]⟩ : StakingContract).commit_inherent ⟨.slash, 0, .addr 1⟩ 0 = ((⟨30, [⟨2, 17, 5, some 9⟩, ⟨1, 8, 3, none⟩],
      [(1, ⟨1, 8, 3, none⟩), (2, ⟨2, 17, 5, some 9⟩)],
      [(1, ⟨2, 44⟩), (4, ⟨3, 12⟩)], [2, 5], [1]⟩ : StakingContract), .error .InvalidInherent)) :=
  @claim_C8_slash_spec (⟨30, [⟨2, 17, 5, some 9⟩, ⟨1, 8, 3, none⟩],
      [(1, ⟨1, 8, 3, none⟩), (2, ⟨2, 17, 5, some 9⟩)],
      [(1, ⟨2, 44⟩), (4, ⟨3, 12⟩)], [2, 5], [1]⟩ : StakingContract) ⟨.slash, 0, .addr 1⟩ 1 0 rfl rfl rfl (by decide)

/-- Claim C9 (amended: the error is `InvalidForRecipient`, not
`InvalidForTarget`).  Both direct-creation entry points of the staking
contract reject every input. -/
theorem claim_C9_creation_rejected (t v : Nat) (tx : Transaction) (h : Nat) :
    StakingContract.new_contract t v tx h = .error .InvalidForRecipient ∧
      StakingContract.create v tx h = .error .InvalidForRecipient :=
  creation_rejected t v tx h

/-- Counterexample to the unamended claim C9: creation does not fail with
`InvalidForTarget`. -/
theorem cex_C9_not_invalid_for_target :
    StakingContract.new_contract 0 0 ⟨0, 0, 0, 0, .malformed, 0⟩ 0 ≠
        .error .InvalidForTarget ∧
      StakingContract.create 0 ⟨0, 0, 0, 0, .malformed, 0⟩ 0 ≠
        .error .InvalidForTarget := by
  decide

/-- Claim C10.  The contract's `PartialEq` and `Ord` instances ignore all
state: any two contract values compare equal. -/
theorem claim_C10_trivial_eq_ord (s1 s2 : StakingContract) :
    StakingContract.rustEq s1 s2 = true ∧
      StakingContract.rustCmp s1 s2 = Ordering.eq :=
  rust_eq_cmp_trivial s1 s2

end Albatross
